import Mathlib

/-!
# Buddy page allocator of infOS (`coursework/buddy.cpp`)

A shallow embedding of `BuddyPageAllocator` and proofs about it.

Representation.

* A page descriptor is represented by its page-frame number (a `Nat`); a
  descriptor pointer that may be `NULL` is an `Option Nat`.  The descriptors
  are the entries of one array, so comparing two descriptor pointers (as
  `insert_block` does) is comparing their frame numbers.
* The free list of one order (the chain of `next_free` links that starts at
  `_free_areas[order]`) is the `List Nat` of the frame numbers of its blocks, in
  link order.  The table `_free_areas` is a function from the index to that
  list; only the indices below `MAX_ORDER` exist in the source.  The
  representation is exact as long as no descriptor is linked twice, which is
  what invariant I1 says: `insert_block` of a descriptor that is in a list
  already (a `free_pages` of a free block) is outside it.  The functions are
  embedded a second time on the link words themselves (`Heap`), where that
  case is represented too.
* Orders are `int` in the source.  Every function checks `order_in_range`
  before it indexes the table, and the embedding takes orders as `Nat`; the
  value `-1` that the first loop of `reserve_page` can reach is `none`.
* Frame numbers are `uint64_t` in the source and `Nat` here: no sum of a frame
  number and a block size is near `2^64`.  The count handed to `init` and the
  `int` that holds a number of blocks are converted as the source does.
* A failed `assert`, and an operation that C++ leaves undefined, end the run:
  functions return `Except Fault _`.
-/

namespace BuddyPageAllocator

/-- The constant `MAX_ORDER` of the source. -/
def MAX_ORDER : Nat := 15

/-- Ways in which a call can stop without returning. -/
inductive Fault where
  /-- An `assert` of the source failed. -/
  | assertion
  /-- The source dereferences `NULL` or shifts by a negative amount. -/
  | undefined
  /-- A loop of the embedding used up its iteration budget (never happens on
  the lists, see `alloc_pages_no_fuel` and `free_pages_no_fuel`; on the links a
  walk along a cycle does not end). -/
  | fuel
  deriving DecidableEq, Repr

/-- The table `_free_areas`: the free list of every order. -/
abbrev FreeAreas := Nat → List Nat

/-- The table as the constructor leaves it: every list empty. -/
def empty_areas : FreeAreas := fun _ => []

/-- The table whose first lists are the given ones, the others empty. -/
def areas_of (ls : List (List Nat)) : FreeAreas := fun k => ls.getD k []

/-- Writing one entry of the table. -/
def set_area (s : FreeAreas) (order : Nat) (l : List Nat) : FreeAreas :=
  fun i => if i = order then l else s i

/-- Source `pages_per_block`: `1 << order`. -/
def pages_per_block (order : Nat) : Nat := 1 <<< order

/-- Modelled from the spec: `pgd_to_pfn` of the page allocator service is not
among the sources; the spec has it and `pfn_to_pgd` as mutual inverses, and a
descriptor is represented by its frame number, so it is the identity. -/
def pgd_to_pfn (pgd : Nat) : Nat := pgd

/-- Modelled from the spec: `pfn_to_pgd` of the page allocator service, the
inverse of `pgd_to_pfn`. -/
def pfn_to_pgd (pfn : Nat) : Nat := pfn

/-- Source `is_correct_alignment_for_order`. -/
def is_correct_alignment_for_order (pgd order : Nat) : Bool :=
  pgd_to_pfn pgd % pages_per_block order == 0

/-- Source `order_in_range`; the order is a `Nat`, so `order >= 0` holds. -/
def order_in_range (order : Nat) : Bool := decide (order < MAX_ORDER)

/-- Source `buddy_of`. -/
def buddy_of (pgd order : Nat) : Option Nat :=
  if order ≥ MAX_ORDER then none
  else if !is_correct_alignment_for_order pgd order then none
  else
    some (pfn_to_pgd (if is_correct_alignment_for_order pgd (order + 1)
      then pgd_to_pfn pgd + pages_per_block order
      else pgd_to_pfn pgd - pages_per_block order))

/-- The loop and the two stores of `insert_block` on one list: walk while the
new descriptor is greater than the current one, then link it in. -/
def insert_sorted (pgd : Nat) : List Nat → List Nat
  | [] => [pgd]
  | b :: rest => if pgd > b then b :: insert_sorted pgd rest else pgd :: b :: rest

/-- Source `insert_block` on the lists, for a descriptor that is in no list (the
returned slot is not represented; no caller in the source reads it).  For a
descriptor that is linked already see `Heap.insert_block`. -/
def insert_block (s : FreeAreas) (pgd order : Nat) : Except Fault FreeAreas :=
  if !order_in_range order then .error .assertion
  else .ok (set_area s order (insert_sorted pgd (s order)))

/-- The loop, the assertion and the unlinking of `remove_block` on one list:
`none` when the end of the list is reached, where `assert(*slot == pgd)`
fails. -/
def remove_first (pgd : Nat) : List Nat → Option (List Nat)
  | [] => none
  | b :: rest => if pgd != b then (remove_first pgd rest).map (b :: ·) else some rest

/-- Source `remove_block`. -/
def remove_block (s : FreeAreas) (pgd order : Nat) : Except Fault FreeAreas :=
  if !order_in_range order then .error .assertion
  else
    match remove_first pgd (s order) with
    | none => .error .assertion
    | some l => .ok (set_area s order l)

/-- The search loop shared by `is_free` and `get_block`: the value of
`*block_pointer` when the loop stops. -/
def find_block (pgd : Nat) : List Nat → Option Nat
  | [] => none
  | b :: rest => if pgd != b then find_block pgd rest else some b

/-- Source `is_free`. -/
def is_free (s : FreeAreas) (pgd order : Nat) : Except Fault Bool :=
  if !is_correct_alignment_for_order pgd order then .error .assertion
  else if !order_in_range order then .error .assertion
  else .ok (find_block pgd (s order) == some pgd)

/-- Source `get_block`. -/
def get_block (s : FreeAreas) (pgd order : Nat) : Except Fault (Option Nat) :=
  if !order_in_range order then .error .assertion
  else
    .ok (find_block
      (pfn_to_pgd (pgd_to_pfn pgd / pages_per_block order * pages_per_block order))
      (s order))

/-- Source `split_block`; `block_pointer` is the value of `*block_pointer`. -/
def split_block (s : FreeAreas) (block_pointer : Option Nat) (source_order : Nat) :
    Except Fault (FreeAreas × Nat) :=
  match block_pointer with
  | none => .error .assertion
  | some block =>
    if !is_correct_alignment_for_order block source_order then .error .assertion
    else if !order_in_range source_order then .error .assertion
    else do
      let s1 ← remove_block s block source_order
      match source_order with
      | 0 => .error .undefined
      | aim_order + 1 =>
        match buddy_of block aim_order with
        | none =>
          if !order_in_range aim_order then .error .assertion else .error .undefined
        | some buddy => do
          let s2 ← insert_block s1 buddy aim_order
          let s3 ← insert_block s2 block aim_order
          if block + pages_per_block aim_order != buddy then .error .assertion
          else if !(← is_free s3 block aim_order) then .error .assertion
          else if !(← is_free s3 buddy aim_order) then .error .assertion
          else .ok (s3, block)

/-- Source `merge_block`; `block` is the value of `*block_pointer`, which the
callers pass non-null (the returned slot is not represented). -/
def merge_block (s : FreeAreas) (block source_order : Nat) : Except Fault FreeAreas :=
  if !is_correct_alignment_for_order block source_order then .error .assertion
  else if !order_in_range source_order then .error .assertion
  else
    match buddy_of block source_order with
    | none => .error .undefined
    | some buddy => do
      let s1 ← remove_block s buddy source_order
      let s2 ← remove_block s1 block source_order
      let aim_order := source_order + 1
      let merged_block :=
        if is_correct_alignment_for_order block aim_order then block else buddy
      insert_block s2 merged_block aim_order

/-- The read `_free_areas[i]` in `alloc_pages`.  The table has `MAX_ORDER`
entries; `beyond` is the word that lies in memory right after it, which is what
the read at index `MAX_ORDER` yields. -/
def read_area (beyond : Option Nat) (s : FreeAreas) (i : Nat) : Option Nat :=
  if i < MAX_ORDER then (s i).head? else beyond

/-- The first loop of `alloc_pages`: `none` is the `return NULL`, otherwise the
order reached and the block read there. -/
def alloc_search (beyond : Option Nat) (s : FreeAreas) :
    Nat → Nat → Option Nat → Except Fault (Option (Nat × Nat))
  | _, free_order, some allocated_block => .ok (some (free_order, allocated_block))
  | 0, _, none => .error .fuel
  | fuel + 1, free_order, none =>
    if !order_in_range free_order then .ok none
    else alloc_search beyond s fuel (free_order + 1) (read_area beyond s (free_order + 1))

/-- The second loop of `alloc_pages`: split down from `free_order` to `order`. -/
def alloc_split (order : Nat) :
    Nat → FreeAreas → Nat → Except Fault (FreeAreas × Nat)
  | 0, s, allocated_block => .ok (s, allocated_block)
  | free_order + 1, s, allocated_block =>
    if free_order + 1 > order then do
      let (s1, block) ← split_block s (some allocated_block) (free_order + 1)
      alloc_split order free_order s1 block
    else .ok (s, allocated_block)

/-- Source `alloc_pages`; the result `none` is `NULL`. -/
def alloc_pages (beyond : Option Nat) (s : FreeAreas) (order : Nat) :
    Except Fault (FreeAreas × Option Nat) :=
  if !order_in_range order then .error .assertion
  else do
    match ← alloc_search beyond s (MAX_ORDER + 1) order (read_area beyond s order) with
    | none => .ok (s, none)
    | some (free_order, found) =>
      let (s1, allocated_block) ← alloc_split order free_order s found
      if !(← is_free s1 allocated_block order) then .error .assertion
      else do
        let s2 ← remove_block s1 allocated_block order
        .ok (s2, some allocated_block)

/-- The `do ... while` loop of `free_pages` and the assertion after it. -/
def free_loop : Nat → FreeAreas → Nat → Nat → Except Fault FreeAreas
  | 0, _, _, _ => .error .fuel
  | fuel + 1, s, pgd, order =>
    match buddy_of pgd order with
    | none => .error .undefined
    | some buddy => do
      if !(← is_free s buddy order) then
        if !(← is_free s pgd order) then .error .assertion else .ok s
      else do
        let s1 ← merge_block s pgd order
        let order1 := order + 1
        let pgd1 := if is_correct_alignment_for_order pgd order1 then pgd else buddy
        if order1 < MAX_ORDER - 1 then free_loop fuel s1 pgd1 order1
        else if !(← is_free s1 pgd1 order1) then .error .assertion
        else .ok s1

/-- Source `free_pages`. -/
def free_pages (s : FreeAreas) (pgd order : Nat) : Except Fault FreeAreas :=
  if !is_correct_alignment_for_order pgd order then .error .assertion
  else if !order_in_range order then .error .assertion
  else do
    let s1 ← insert_block s pgd order
    free_loop MAX_ORDER s1 pgd order

/-- The first loop of `reserve_page`, started at `order`: the order at which it
stops, `none` when it runs down to `-1`. -/
def reserve_find (s : FreeAreas) (pgd : Nat) : Nat → Except Fault (Option Nat)
  | 0 => do
    if (← get_block s pgd 0) == none then .ok none else .ok (some 0)
  | order + 1 => do
    if (← get_block s pgd (order + 1)) == none then reserve_find s pgd order
    else .ok (some (order + 1))

/-- The second loop of `reserve_page`: split from `order` down to 0. -/
def reserve_split (pgd : Nat) : Nat → FreeAreas → Except Fault FreeAreas
  | 0, s => .ok s
  | order + 1, s => do
    let block_containing_page ← get_block s pgd (order + 1)
    let (s1, _) ← split_block s block_containing_page (order + 1)
    reserve_split pgd order s1

/-- Source `reserve_page`. -/
def reserve_page (s : FreeAreas) (pgd : Nat) : Except Fault (FreeAreas × Bool) := do
  match ← reserve_find s pgd (MAX_ORDER - 1) with
  | none => .ok (s, false)
  | some order =>
    let s1 ← reserve_split pgd order s
    if !(← is_free s1 pgd 0) then .error .assertion
    else do
      let s2 ← remove_block s1 pgd 0
      .ok (s2, true)

/-- Conversion of an unsigned 64-bit value to `int` (reduction modulo `2^32`
into the signed range, as the compilers of the source do it). -/
def to_int (x : Nat) : Int :=
  if x % 2 ^ 32 < 2 ^ 31 then (x % 2 ^ 32 : Nat) else (x % 2 ^ 32 : Nat) - 2 ^ 32

/-- Conversion of an `int` to `uint64_t`. -/
def to_uint64 (i : Int) : Nat := (i % 2 ^ 64).toNat

/-- The inner `while (num_of_blocks > 0)` loop of `init`: returns the table and
the advanced `page_descriptors`. -/
def init_insert (order : Nat) : Nat → FreeAreas → Nat → Except Fault (FreeAreas × Nat)
  | 0, s, page_descriptors => .ok (s, page_descriptors)
  | num_of_blocks + 1, s, page_descriptors => do
    let s1 ← insert_block s page_descriptors order
    init_insert order num_of_blocks s1 (page_descriptors + pages_per_block order)

/-- One pass through the body of the `do ... while` loop of `init`, at `order`
(the value after `order--`): returns the table, the advanced `page_descriptors`
and the remaining `nr_page_descriptors`. -/
def init_order (s : FreeAreas) (page_descriptors nr_page_descriptors order : Nat) :
    Except Fault (FreeAreas × Nat × Nat) := do
  let num_of_blocks : Int := to_int (nr_page_descriptors / pages_per_block order)
  let nr := (nr_page_descriptors + 2 ^ 64 -
    to_uint64 num_of_blocks * pages_per_block order % 2 ^ 64) % 2 ^ 64
  let (s1, pd) ← init_insert order num_of_blocks.toNat s page_descriptors
  .ok (s1, pd, nr)

/-- The `do ... while` loop of `init`, entered with `order + 1` in the
variable `order`. -/
def init_loop : Nat → FreeAreas → Nat → Nat → Except Fault FreeAreas
  | 0, s, page_descriptors, nr_page_descriptors => do
    let (s1, _, _) ← init_order s page_descriptors nr_page_descriptors 0
    .ok s1
  | order + 1, s, page_descriptors, nr_page_descriptors => do
    let (s1, pd, nr) ← init_order s page_descriptors nr_page_descriptors (order + 1)
    if nr > 0 then init_loop order s1 pd nr else .ok s1

/-- Source `init`; `nr_page_descriptors` is a `uint64_t`. -/
def init (s : FreeAreas) (page_descriptors nr_page_descriptors : Nat) :
    Except Fault (FreeAreas × Bool) :=
  if !(nr_page_descriptors > 0) then .error .assertion
  else do
    let s1 ← init_loop (MAX_ORDER - 1) s page_descriptors nr_page_descriptors
    .ok (s1, true)


/-- I1 (disjointness): no block is linked twice and no two blocks of the free
lists overlap in frame-number range. -/
def I1 (s : FreeAreas) : Prop :=
  (∀ j < MAX_ORDER, (s j).Nodup) ∧
  ∀ j < MAX_ORDER, ∀ k < MAX_ORDER, ∀ b ∈ s j, ∀ c ∈ s k,
    (j = k → b ≠ c) → b + 2 ^ j ≤ c ∨ c + 2 ^ k ≤ b

/-- I2 (alignment): every head in the order-`k` list is a multiple of `2^k`. -/
def I2 (s : FreeAreas) : Prop :=
  ∀ k < MAX_ORDER, ∀ b ∈ s k, b % 2 ^ k = 0

/-- I3 (no missed merge), for the orders that have a next order: no block of
the order-`k` list has its buddy in the order-`k` list. -/
def I3 (s : FreeAreas) : Prop :=
  ∀ k < MAX_ORDER - 1, ∀ b ∈ s k, (b ^^^ 2 ^ k) ∉ s k

/-- I4 (sorted lists): every list is ascending. -/
def I4 (s : FreeAreas) : Prop :=
  ∀ k < MAX_ORDER, (s k).Sorted (· ≤ ·)

instance (s : FreeAreas) : Decidable (I1 s) := by unfold I1; infer_instance
instance (s : FreeAreas) : Decidable (I2 s) := by unfold I2; infer_instance
instance (s : FreeAreas) : Decidable (I3 s) := by unfold I3; infer_instance
instance (s : FreeAreas) : Decidable (I4 s) := by unfold I4; infer_instance



/-- The table after `split_block` has split the block `h` of order `j + 1`: `h`
leaves the order-`(j+1)` list, both halves enter the order-`j` list. -/
def split_state (s : FreeAreas) (j h : Nat) : FreeAreas :=
  set_area (set_area s (j + 1) ((s (j + 1)).erase h)) j
    (insert_sorted h (insert_sorted (h + 2 ^ j) (s j)))

/-- The head of the block that `merge_block` inserts one order up. -/
def merged_head (p o : Nat) : Nat := if p % 2 ^ (o + 1) = 0 then p else p ^^^ 2 ^ o

/-- The table after `merge_block` has merged the block `p` of order `o` with its
buddy. -/
def merge_state (s : FreeAreas) (p o : Nat) : FreeAreas :=
  set_area (set_area s o (((s o).erase (p ^^^ 2 ^ o)).erase p)) (o + 1)
    (insert_sorted (merged_head p o) (s (o + 1)))

/-- Frame `f` lies in some block of some free list. -/
def covered (s : FreeAreas) (f : Nat) : Prop :=
  ∃ i < MAX_ORDER, ∃ b ∈ s i, b ≤ f ∧ f < b + 2 ^ i

instance (s : FreeAreas) (f : Nat) : Decidable (covered s f) := by
  unfold covered; infer_instance

/-- A call of one of the two operations that follow a reservation in C5. -/
inductive Op where
  /-- `alloc_pages(order)`, with the word after the table as it is then. -/
  | alloc (beyond : Option Nat) (order : Nat)
  /-- `free_pages(pgd, order)`. -/
  | free (pgd order : Nat)
  deriving DecidableEq, Repr

/-- The table after one call (the descriptor that `alloc_pages` returns goes to
the caller). -/
def run_op (s : FreeAreas) : Op → Except Fault FreeAreas
  | .alloc beyond order => do
    let (s1, _) ← alloc_pages beyond s order
    .ok s1
  | .free pgd order => free_pages s pgd order

/-- The table after a sequence of calls, each of which returns. -/
def run_ops (s : FreeAreas) : List Op → Except Fault FreeAreas
  | [] => .ok s
  | op :: ops => do
    let s1 ← run_op s op
    run_ops s1 ops

/-- The greedy packing of `n` frames that start at frame `base`, in the words of
the spec: the top order holds `n / 2^(MAX_ORDER-1)` blocks laid out from `base`
on, and each lower order `k` holds one block iff bit `k` of `n` is set, placed
right after the blocks of the higher orders. -/
def packing (base n : Nat) : FreeAreas := fun k =>
  if k = MAX_ORDER - 1 then
    (List.range (n / 2 ^ (MAX_ORDER - 1))).map (fun i => base + i * 2 ^ (MAX_ORDER - 1))
  else if k < MAX_ORDER - 1 ∧ n / 2 ^ k % 2 = 1 then [base + n / 2 ^ (k + 1) * 2 ^ (k + 1)]
  else []

/-- The table after the splitting loop of `alloc_pages` has brought the block
`h` of order `j` down to order `k`: `h` has left the order-`j` list, every order
in between holds the right half cut off there, and the order-`k` list holds
both halves of the last split. -/
def split_down (s : FreeAreas) (k j h : Nat) : FreeAreas := fun i =>
  if k < j ∧ i = j then (s i).erase h
  else if k < i ∧ i < j then insert_sorted (h + 2 ^ i) (s i)
  else if k < j ∧ i = k then insert_sorted h (insert_sorted (h + 2 ^ i) (s i))
  else s i

/-- The table after `alloc_pages(k)` has served the request from the block `h`
of order `j`: `h` has left the order-`j` list and each order from `k` up to
`j - 1` has received the right half cut off there. -/
def alloc_state (s : FreeAreas) (k j h : Nat) : FreeAreas := fun i =>
  if i = j then (s i).erase h
  else if k ≤ i ∧ i < j then insert_sorted (h + 2 ^ i) (s i)
  else s i

/-- The table after the block `hd hi` of order `hi` has been cut down to order
`lo` along the blocks `hd i`: `hd hi` has left the order-`hi` list and each
order `i` from `lo` up to `hi - 1` has received the buddy of `hd i`.  This is
the shape of the table after `alloc_pages` (with `hd` constant) and after
`reserve_page` (with `hd i` the order-`i` block around the page). -/
def carve (s : FreeAreas) (lo hi : Nat) (hd : Nat → Nat) : FreeAreas := fun i =>
  if i = hi then (s i).erase (hd i)
  else if lo ≤ i ∧ i < hi then insert_sorted (hd i ^^^ 2 ^ i) (s i)
  else s i

/-- The number of free frames: the sum over the orders of `2^order` times the
length of the list. -/
def free_frames (s : FreeAreas) : Nat :=
  Finset.sum (Finset.range MAX_ORDER) (fun i => 2 ^ i * (s i).length)

/-- The table while `free_pages` merges a carved table back, when the block
`hd m` has been linked at order `m`: the orders from `lo` up to `m - 1` are
back as they were before the carving. -/
def unwind_state (s : FreeAreas) (lo hi : Nat) (hd : Nat → Nat) (m : Nat) : FreeAreas :=
  fun i =>
    if i = m then insert_sorted (hd m) (carve s lo hi hd i)
    else if lo ≤ i ∧ i < m then s i
    else carve s lo hi hd i

/-! ### The links of `remove_block`

`remove_block` is the one function whose effect on the `next_free` field of a
descriptor is observable (it clears it), so it is also embedded on the links
themselves: `free_areas` holds the word `_free_areas[order]` of each order and
`next_free` the field `next_free` of each descriptor, both `none` for `NULL`. -/

/-- The link words of the allocator. -/
structure Heap where
  /-- The word `_free_areas[order]`. -/
  free_areas : Nat → Option Nat
  /-- The field `next_free` of the descriptor of a frame. -/
  next_free : Nat → Option Nat

/-- A `PageDescriptor **`: the address of a head word of the table or of the
`next_free` field of a descriptor. -/
inductive Slot where
  /-- The address `&_free_areas[order]`. -/
  | area (order : Nat)
  /-- The address `&pgd->next_free`. -/
  | link (pgd : Nat)
  deriving DecidableEq, Repr

/-- The word `*slot`. -/
def Heap.load (m : Heap) : Slot → Option Nat
  | .area o => m.free_areas o
  | .link p => m.next_free p

/-- The assignment `*slot = v`. -/
def Heap.store (m : Heap) (slot : Slot) (v : Option Nat) : Heap :=
  match slot with
  | .area o => { m with free_areas := fun i => if i = o then v else m.free_areas i }
  | .link p => { m with next_free := fun x => if x = p then v else m.next_free x }

/-- The loop `while (*slot && pgd != *slot) slot = &(*slot)->next_free` of
`remove_block`: the slot at which it stops, `none` when the iteration budget
runs out. -/
def Heap.remove_walk : Nat → Heap → Nat → Slot → Option Slot
  | 0, _, _, _ => none
  | fuel + 1, m, pgd, slot =>
    match m.load slot with
    | none => some slot
    | some b => if pgd != b then Heap.remove_walk fuel m pgd (.link b) else some slot

/-- The body of `remove_block` after the range check, with the walk started at
`slot`: the walk, `assert(*slot == pgd)`, `*slot = pgd->next_free` and
`pgd->next_free = NULL`. -/
def Heap.unlink_from (fuel : Nat) (m : Heap) (pgd : Nat) (slot : Slot) : Except Fault Heap :=
  match Heap.remove_walk fuel m pgd slot with
  | none => .error .fuel
  | some sl =>
    if m.load sl != some pgd then .error .assertion
    else .ok ((m.store sl (m.next_free pgd)).store (.link pgd) none)

/-- Source `remove_block`, on the links. -/
def Heap.remove_block (fuel : Nat) (m : Heap) (pgd order : Nat) : Except Fault Heap :=
  if !order_in_range order then .error .assertion
  else Heap.unlink_from fuel m pgd (.area order)

/-- The links starting at the word `p` spell the list `l` and end in `NULL`. -/
def chain (next : Nat → Option Nat) : Option Nat → List Nat → Prop
  | p, [] => p = none
  | p, a :: l => p = some a ∧ chain next (next a) l

instance chain_decidable (next : Nat → Option Nat) :
    (l : List Nat) → (p : Option Nat) → Decidable (chain next p l)
  | [], p => by unfold chain; exact inferInstance
  | a :: l, p => by
    unfold chain
    have := chain_decidable next l (next a)
    exact inferInstance

/-- The indices at which the first loop of `alloc_pages` reads the table
`_free_areas`, in the order of the reads: one read at `free_order + 1` for each
iteration that passes the range check. -/
def alloc_search_reads (beyond : Option Nat) (s : FreeAreas) :
    Nat → Nat → Option Nat → List Nat
  | _, _, some _ => []
  | 0, _, none => []
  | fuel + 1, free_order, none =>
    if !order_in_range free_order then []
    else (free_order + 1) ::
      alloc_search_reads beyond s fuel (free_order + 1) (read_area beyond s (free_order + 1))

/-- The indices at which the search of `alloc_pages(order)` reads the table
`_free_areas`: the read at `order` before the loop, then the reads of the loop.
(The later reads, in `split_block`, `is_free` and `remove_block`, are at orders
that an `order_in_range` assertion has checked.) -/
def alloc_pages_reads (beyond : Option Nat) (s : FreeAreas) (order : Nat) : List Nat :=
  if !order_in_range order then []
  else order :: alloc_search_reads beyond s (MAX_ORDER + 1) order (read_area beyond s order)

/-! ### The allocator on the links

The list representation is exact as long as no descriptor is linked twice:
`insert_block` overwrites the one `next_free` field of the descriptor it
inserts, so inserting a descriptor that is already in a list (a second
`free_pages` of a free block) changes the list it was in.  The definitions below
embed the same functions on the link words themselves, with no such proviso;
their walks take an iteration budget `fuel`, since links can form a cycle. -/

/-- The heap as the constructor leaves it: every head word `NULL`; the fields
`next_free` are taken as `NULL` as well. -/
def Heap.empty : Heap := ⟨fun _ => none, fun _ => none⟩

/-- The loop `while (*block_pointer && pgd > *block_pointer)
block_pointer = &(*block_pointer)->next_free` of `insert_block`: the slot at
which it stops, `none` when the iteration budget runs out. -/
def Heap.insert_walk : Nat → Heap → Nat → Slot → Option Slot
  | 0, _, _, _ => none
  | fuel + 1, m, pgd, slot =>
    match m.load slot with
    | none => some slot
    | some b => if pgd > b then Heap.insert_walk fuel m pgd (.link b) else some slot

/-- The two stores of `insert_block`: `pgd->next_free = *block_pointer` and
`*block_pointer = pgd`. -/
def Heap.link_at (m : Heap) (pgd : Nat) (slot : Slot) : Heap :=
  (m.store (.link pgd) (m.load slot)).store slot (some pgd)

/-- Source `insert_block`, on the links: the walk and the two stores (the
returned slot is not represented; no caller in the source reads it). -/
def Heap.insert_block (fuel : Nat) (m : Heap) (pgd order : Nat) : Except Fault Heap :=
  if !order_in_range order then .error .assertion
  else
    match Heap.insert_walk fuel m pgd (.area order) with
    | none => .error .fuel
    | some slot => .ok (Heap.link_at m pgd slot)

/-- Source `is_free`, on the links; its loop is the loop of `remove_block`. -/
def Heap.is_free (fuel : Nat) (m : Heap) (pgd order : Nat) : Except Fault Bool :=
  if !is_correct_alignment_for_order pgd order then .error .assertion
  else if !order_in_range order then .error .assertion
  else
    match Heap.remove_walk fuel m pgd (.area order) with
    | none => .error .fuel
    | some slot => .ok (m.load slot == some pgd)

/-- Source `get_block`, on the links; its loop is the loop of `remove_block`,
run for the aligned block around the page. -/
def Heap.get_block (fuel : Nat) (m : Heap) (pgd order : Nat) : Except Fault (Option Nat) :=
  if !order_in_range order then .error .assertion
  else
    match Heap.remove_walk fuel m
        (pfn_to_pgd (pgd_to_pfn pgd / pages_per_block order * pages_per_block order))
        (.area order) with
    | none => .error .fuel
    | some slot => .ok (m.load slot)

/-- Source `split_block`, on the links; `block_pointer` is the value of
`*block_pointer`. -/
def Heap.split_block (fuel : Nat) (m : Heap) (block_pointer : Option Nat)
    (source_order : Nat) : Except Fault (Heap × Nat) :=
  match block_pointer with
  | none => .error .assertion
  | some block =>
    if !is_correct_alignment_for_order block source_order then .error .assertion
    else if !order_in_range source_order then .error .assertion
    else do
      let m1 ← Heap.remove_block fuel m block source_order
      match source_order with
      | 0 => .error .undefined
      | aim_order + 1 =>
        match buddy_of block aim_order with
        | none =>
          if !order_in_range aim_order then .error .assertion else .error .undefined
        | some buddy => do
          let m2 ← Heap.insert_block fuel m1 buddy aim_order
          let m3 ← Heap.insert_block fuel m2 block aim_order
          if block + pages_per_block aim_order != buddy then .error .assertion
          else if !(← Heap.is_free fuel m3 block aim_order) then .error .assertion
          else if !(← Heap.is_free fuel m3 buddy aim_order) then .error .assertion
          else .ok (m3, block)

/-- Source `merge_block`, on the links; `block` is the value of
`*block_pointer`. -/
def Heap.merge_block (fuel : Nat) (m : Heap) (block source_order : Nat) :
    Except Fault Heap :=
  if !is_correct_alignment_for_order block source_order then .error .assertion
  else if !order_in_range source_order then .error .assertion
  else
    match buddy_of block source_order with
    | none => .error .undefined
    | some buddy => do
      let m1 ← Heap.remove_block fuel m buddy source_order
      let m2 ← Heap.remove_block fuel m1 block source_order
      let aim_order := source_order + 1
      let merged_block :=
        if is_correct_alignment_for_order block aim_order then block else buddy
      Heap.insert_block fuel m2 merged_block aim_order

/-- The read `_free_areas[i]` in `alloc_pages`, on the links; `beyond` is the
word after the table. -/
def Heap.read_area (beyond : Option Nat) (m : Heap) (i : Nat) : Option Nat :=
  if i < MAX_ORDER then m.free_areas i else beyond

/-- The first loop of `alloc_pages`, on the links. -/
def Heap.alloc_search (beyond : Option Nat) (m : Heap) :
    Nat → Nat → Option Nat → Except Fault (Option (Nat × Nat))
  | _, free_order, some allocated_block => .ok (some (free_order, allocated_block))
  | 0, _, none => .error .fuel
  | n + 1, free_order, none =>
    if !order_in_range free_order then .ok none
    else Heap.alloc_search beyond m n (free_order + 1)
      (Heap.read_area beyond m (free_order + 1))

/-- The second loop of `alloc_pages`, on the links. -/
def Heap.alloc_split (fuel order : Nat) : Nat → Heap → Nat → Except Fault (Heap × Nat)
  | 0, m, allocated_block => .ok (m, allocated_block)
  | free_order + 1, m, allocated_block =>
    if free_order + 1 > order then do
      let (m1, block) ← Heap.split_block fuel m (some allocated_block) (free_order + 1)
      Heap.alloc_split fuel order free_order m1 block
    else .ok (m, allocated_block)

/-- Source `alloc_pages`, on the links. -/
def Heap.alloc_pages (fuel : Nat) (beyond : Option Nat) (m : Heap) (order : Nat) :
    Except Fault (Heap × Option Nat) :=
  if !order_in_range order then .error .assertion
  else do
    match ← Heap.alloc_search beyond m (MAX_ORDER + 1) order
        (Heap.read_area beyond m order) with
    | none => .ok (m, none)
    | some (free_order, found) =>
      let (m1, allocated_block) ← Heap.alloc_split fuel order free_order m found
      if !(← Heap.is_free fuel m1 allocated_block order) then .error .assertion
      else do
        let m2 ← Heap.remove_block fuel m1 allocated_block order
        .ok (m2, some allocated_block)

/-- The `do ... while` loop of `free_pages` and the assertion after it, on the
links. -/
def Heap.free_loop (fuel : Nat) : Nat → Heap → Nat → Nat → Except Fault Heap
  | 0, _, _, _ => .error .fuel
  | n + 1, m, pgd, order =>
    match buddy_of pgd order with
    | none => .error .undefined
    | some buddy => do
      if !(← Heap.is_free fuel m buddy order) then
        if !(← Heap.is_free fuel m pgd order) then .error .assertion else .ok m
      else do
        let m1 ← Heap.merge_block fuel m pgd order
        let order1 := order + 1
        let pgd1 := if is_correct_alignment_for_order pgd order1 then pgd else buddy
        if order1 < MAX_ORDER - 1 then Heap.free_loop fuel n m1 pgd1 order1
        else if !(← Heap.is_free fuel m1 pgd1 order1) then .error .assertion
        else .ok m1

/-- Source `free_pages`, on the links. -/
def Heap.free_pages (fuel : Nat) (m : Heap) (pgd order : Nat) : Except Fault Heap :=
  if !is_correct_alignment_for_order pgd order then .error .assertion
  else if !order_in_range order then .error .assertion
  else do
    let m1 ← Heap.insert_block fuel m pgd order
    Heap.free_loop fuel MAX_ORDER m1 pgd order

/-- The first loop of `reserve_page`, on the links. -/
def Heap.reserve_find (fuel : Nat) (m : Heap) (pgd : Nat) : Nat → Except Fault (Option Nat)
  | 0 => do
    if (← Heap.get_block fuel m pgd 0) == none then .ok none else .ok (some 0)
  | order + 1 => do
    if (← Heap.get_block fuel m pgd (order + 1)) == none then
      Heap.reserve_find fuel m pgd order
    else .ok (some (order + 1))

/-- The second loop of `reserve_page`, on the links. -/
def Heap.reserve_split (fuel pgd : Nat) : Nat → Heap → Except Fault Heap
  | 0, m => .ok m
  | order + 1, m => do
    let block_containing_page ← Heap.get_block fuel m pgd (order + 1)
    let (m1, _) ← Heap.split_block fuel m block_containing_page (order + 1)
    Heap.reserve_split fuel pgd order m1

/-- Source `reserve_page`, on the links. -/
def Heap.reserve_page (fuel : Nat) (m : Heap) (pgd : Nat) : Except Fault (Heap × Bool) := do
  match ← Heap.reserve_find fuel m pgd (MAX_ORDER - 1) with
  | none => .ok (m, false)
  | some order =>
    let m1 ← Heap.reserve_split fuel pgd order m
    if !(← Heap.is_free fuel m1 pgd 0) then .error .assertion
    else do
      let m2 ← Heap.remove_block fuel m1 pgd 0
      .ok (m2, true)

/-- The frames that the links of one order spell, read off by following at most
`fuel` links. -/
def Heap.list_of (m : Heap) : Nat → Option Nat → List Nat
  | 0, _ => []
  | _, none => []
  | fuel + 1, some a => a :: Heap.list_of m fuel (m.next_free a)

/-- The block `[d, d + 2^k)` overlaps no block of a free list. -/
def free_block_apart (s : FreeAreas) (d k : Nat) : Prop :=
  ∀ i < MAX_ORDER, ∀ b ∈ s i, b + 2 ^ i ≤ d ∨ d + 2 ^ k ≤ b

instance (s : FreeAreas) (d k : Nat) : Decidable (free_block_apart s d k) := by
  unfold free_block_apart; infer_instance

/-- The call is one that the descriptor state machine allows: any
`alloc_pages`, and a `free_pages` of a block that overlaps no free block (a
block that is allocated or reserved, not one that is free already). -/
def op_valid (s : FreeAreas) : Op → Bool
  | .alloc _ _ => true
  | .free d k => decide (free_block_apart s d k)

/-- Every call of the sequence is allowed in the table that the calls before it
leave. -/
def ops_valid : FreeAreas → List Op → Bool
  | _, [] => true
  | s, op :: ops =>
    op_valid s op &&
      (match run_op s op with
       | .ok s1 => ops_valid s1 ops
       | .error _ => true)

end BuddyPageAllocator

/-! ## The CMOS real-time clock (`src/coursework/cmos-rtc.cpp`)

`read_timepoint` is embedded as a function of the CMOS register file as it
stands once `update_in_process` has seen an update cycle end: `cmos offset` is
the byte that `__outb(0x70, offset); __inb(0x71)` yields.  The wait loop reads
register A only and writes nothing into the time point. -/

namespace CMOSRTC

/-- The time point that `read_timepoint` fills in.  The declaration of
`RTCTimePoint` is in a kernel header; its fields are handed to
`BCD_to_binary(unsigned short&)`, so they are 16-bit unsigned. -/
structure RTCTimePoint where
  seconds : Nat
  minutes : Nat
  hours : Nat
  day_of_month : Nat
  month : Nat
  year : Nat
  deriving DecidableEq, Repr

/-- The conversion to `unsigned short` on assignment to a field. -/
def to_ushort (x : Nat) : Nat := x % 65536

/-- Source `BCD_to_binary`. -/
def BCD_to_binary (BCD : Nat) : Nat := to_ushort ((BCD &&& 0x0F) + (BCD >>> 4) * 10)

/-- Source `get_register`: the byte (`uint8_t`) at a CMOS offset. -/
def get_register (cmos : Nat → Nat) (offset : Nat) : Nat := cmos offset % 256

/-- Source `read_CMOS`: all six fields are overwritten. -/
def read_CMOS (cmos : Nat → Nat) : RTCTimePoint :=
  { day_of_month := get_register cmos 0x07
    month := get_register cmos 0x08
    year := get_register cmos 0x09
    hours := get_register cmos 0x04
    minutes := get_register cmos 0x02
    seconds := get_register cmos 0x00 }

/-- Source `BCD_time_to_binary_time`. -/
def BCD_time_to_binary_time (tp : RTCTimePoint) : RTCTimePoint :=
  { seconds := BCD_to_binary tp.seconds
    minutes := BCD_to_binary tp.minutes
    hours := to_ushort
      (((tp.hours &&& 0x0F) + ((tp.hours &&& 0x70) / 16) * 10) ||| (tp.hours &&& 0x80))
    day_of_month := BCD_to_binary tp.day_of_month
    month := BCD_to_binary tp.month
    year := BCD_to_binary tp.year }

/-- Source `read_timepoint`, after the wait for the update cycle. -/
def read_timepoint (cmos : Nat → Nat) : RTCTimePoint :=
  let tp := read_CMOS cmos
  let reg_b := get_register cmos 0x0B
  let is_binary := (reg_b &&& 0x04) != 0
  let is_24 := (reg_b &&& 0x02) != 0
  let tp := if !is_binary then BCD_time_to_binary_time tp else tp
  if is_24 then
    { tp with hours := to_ushort (((tp.hours &&& 0x7F) + 12 * ((tp.hours &&& 0x80) >>> 7)) % 24) }
  else tp

/-- A register file with the given hour register (offset 4) and status
register B (offset 11), every other register zero. -/
def cmos_of (hour reg_b : Nat) : Nat → Nat := fun offset =>
  if offset = 0x04 then hour else if offset = 0x0B then reg_b else 0

/-- The hour register of the device for hour `h`: in binary when bit `0x04` of
status register B is set, in BCD otherwise; in 12-hour mode bit `0x80` marks
PM. -/
def raw_hour (reg_b h : Nat) (pm : Bool) : Nat :=
  (if reg_b &&& 0x04 != 0 then h else h / 10 * 16 + h % 10) + (if pm then 0x80 else 0)

/-- The 24-hour value of a 12-hour clock reading: 12 AM is 0, 1-11 AM are 1-11,
12 PM is 12, 1-11 PM are 13-23. -/
def hours_24 (h : Nat) (pm : Bool) : Nat := h % 12 + (if pm then 12 else 0)

end CMOSRTC

namespace BuddyPageAllocator
theorem pages_per_block_eq (k : Nat) : pages_per_block k = 2 ^ k := by
  simp [pages_per_block, Nat.shiftLeft_eq]

theorem aligned_iff (p k : Nat) :
    is_correct_alignment_for_order p k = true ↔ p % 2 ^ k = 0 := by
  simp [is_correct_alignment_for_order, pgd_to_pfn, pages_per_block_eq]

theorem order_in_range_iff (k : Nat) : order_in_range k = true ↔ k < MAX_ORDER := by
  simp [order_in_range]

theorem insert_sorted_eq (a : Nat) (l : List Nat) :
    insert_sorted a l = List.orderedInsert (· ≤ ·) a l := by
  induction l with
  | nil => rfl
  | cons b t ih =>
    simp only [insert_sorted, List.orderedInsert]
    by_cases h : a ≤ b
    · have : ¬ a > b := by omega
      simp [h, this]
    · have : a > b := by omega
      simp [h, this, ih]

theorem mem_insert_sorted (a b : Nat) (l : List Nat) :
    b ∈ insert_sorted a l ↔ b = a ∨ b ∈ l := by
  rw [insert_sorted_eq]; exact List.mem_orderedInsert _

theorem insert_sorted_perm (a : Nat) (l : List Nat) :
    (insert_sorted a l).Perm (a :: l) := by
  rw [insert_sorted_eq]; exact List.perm_orderedInsert _ _ _

theorem insert_sorted_sorted (a : Nat) (l : List Nat) (h : l.Sorted (· ≤ ·)) :
    (insert_sorted a l).Sorted (· ≤ ·) := by
  rw [insert_sorted_eq]; exact h.orderedInsert a l

theorem insert_sorted_nodup (a : Nat) (l : List Nat) (ha : a ∉ l) (h : l.Nodup) :
    (insert_sorted a l).Nodup :=
  (insert_sorted_perm a l).nodup_iff.mpr (List.nodup_cons.mpr ⟨ha, h⟩)

theorem erase_insert_sorted (a : Nat) (l : List Nat) :
    (insert_sorted a l).erase a = l := by
  induction l with
  | nil => simp [insert_sorted]
  | cons b t ih =>
    simp only [insert_sorted]
    split
    · rename_i h
      have : b ≠ a := by omega
      rw [List.erase_cons_tail (by simpa using this), ih]
    · simp

theorem remove_first_eq (a : Nat) (l : List Nat) :
    remove_first a l = if a ∈ l then some (l.erase a) else none := by
  induction l with
  | nil => simp [remove_first]
  | cons b t ih =>
    simp only [remove_first]
    by_cases h : a = b
    · subst h; simp
    · have hb : b ≠ a := fun e => h e.symm
      simp only [bne_iff_ne, ne_eq, h, not_false_eq_true, ↓reduceIte, ih, List.mem_cons,
        false_or]
      by_cases hm : a ∈ t
      · simp [hm, List.erase_cons_tail, hb]
      · simp [hm]

theorem find_block_eq (a : Nat) (l : List Nat) :
    find_block a l = if a ∈ l then some a else none := by
  induction l with
  | nil => simp [find_block]
  | cons b t ih =>
    simp only [find_block]
    by_cases h : a = b
    · subst h; simp
    · simp [h, ih]


theorem set_area_same (s : FreeAreas) (k : Nat) (l : List Nat) : set_area s k l k = l := by
  simp [set_area]

theorem set_area_other (s : FreeAreas) (k i : Nat) (l : List Nat) (h : i ≠ k) :
    set_area s k l i = s i := by
  simp [set_area, h]

theorem set_area_twice (s : FreeAreas) (k : Nat) (l l' : List Nat) :
    set_area (set_area s k l) k l' = set_area s k l' := by
  funext i; by_cases h : i = k <;> simp [set_area, h]

theorem set_area_self (s : FreeAreas) (k : Nat) : set_area s k (s k) = s := by
  funext i; by_cases h : i = k <;> simp [set_area, h]

theorem is_free_eq (s : FreeAreas) (p k : Nat) (ha : p % 2 ^ k = 0) (hk : k < MAX_ORDER) :
    is_free s p k = .ok (decide (p ∈ s k)) := by
  have h1 : is_correct_alignment_for_order p k = true := (aligned_iff p k).mpr ha
  have h2 : order_in_range k = true := (order_in_range_iff k).mpr hk
  simp only [is_free, h1, h2, find_block_eq]
  by_cases hm : p ∈ s k <;> simp [hm]

theorem insert_block_eq (s : FreeAreas) (p k : Nat) (hk : k < MAX_ORDER) :
    insert_block s p k = .ok (set_area s k (insert_sorted p (s k))) := by
  have h2 : order_in_range k = true := (order_in_range_iff k).mpr hk
  simp [insert_block, h2]

theorem remove_block_eq (s : FreeAreas) (p k : Nat) (hk : k < MAX_ORDER) (hp : p ∈ s k) :
    remove_block s p k = .ok (set_area s k ((s k).erase p)) := by
  have h2 : order_in_range k = true := (order_in_range_iff k).mpr hk
  simp [remove_block, h2, remove_first_eq, hp]

theorem remove_block_absent (s : FreeAreas) (p k : Nat) (hp : p ∉ s k) :
    remove_block s p k = .error .assertion := by
  by_cases h2 : order_in_range k = true
  · simp [remove_block, h2, remove_first_eq, hp]
  · simp [remove_block, h2]

theorem get_block_eq (s : FreeAreas) (p k : Nat) (hk : k < MAX_ORDER) :
    get_block s p k =
      .ok (if p / 2 ^ k * 2 ^ k ∈ s k then some (p / 2 ^ k * 2 ^ k) else none) := by
  have h2 : order_in_range k = true := (order_in_range_iff k).mpr hk
  simp [get_block, h2, find_block_eq, pgd_to_pfn, pfn_to_pgd, pages_per_block_eq]

theorem two_pow_mul_xor (k q : Nat) : (2 ^ k * q) ^^^ 2 ^ k = 2 ^ k * (q ^^^ 1) := by
  induction k with
  | zero => simp
  | succ k ih =>
    have hd : ((2 ^ (k + 1) * q) ^^^ 2 ^ (k + 1)) / 2 = 2 ^ k * (q ^^^ 1) := by
      rw [Nat.xor_div_two, ← ih]
      congr 1
      · rw [pow_succ, Nat.mul_assoc, Nat.mul_comm 2 q, ← Nat.mul_assoc]
        exact Nat.mul_div_cancel _ (by norm_num)
      · rw [pow_succ]; exact Nat.mul_div_cancel _ (by norm_num)
    have hm : ((2 ^ (k + 1) * q) ^^^ 2 ^ (k + 1)) % 2 = 0 := by
      rw [Nat.xor_mod_two_eq]
      have e1 : 2 ^ (k + 1) * q = 2 * (2 ^ k * q) := by rw [pow_succ]; ring
      have e2 : 2 ^ (k + 1) = 2 * 2 ^ k := by rw [pow_succ]; ring
      rw [e1, e2]
      omega
    have : 2 ^ (k + 1) * (q ^^^ 1) = 2 * (2 ^ k * (q ^^^ 1)) := by
      rw [pow_succ]; ring
    omega

theorem xor_one_eq (q : Nat) : q ^^^ 1 = if q % 2 = 0 then q + 1 else q - 1 := by
  have hd : (q ^^^ 1) / 2 = q / 2 := by rw [Nat.xor_div_two]; simp
  have hm : (q ^^^ 1) % 2 = (q + 1) % 2 := Nat.xor_mod_two_eq
  split <;> omega

/-- The buddy's frame number: for an aligned block, flipping bit `k` adds `2^k`
to a left half and subtracts it from a right half. -/
theorem xor_two_pow_eq (p k : Nat) (ha : p % 2 ^ k = 0) :
    p ^^^ 2 ^ k = if p % 2 ^ (k + 1) = 0 then p + 2 ^ k else p - 2 ^ k := by
  obtain ⟨q, rfl⟩ := Nat.dvd_of_mod_eq_zero ha
  rw [two_pow_mul_xor, xor_one_eq, pow_succ, Nat.mul_mod_mul_left]
  have hpos : 0 < 2 ^ k := Nat.two_pow_pos k
  by_cases hq : q % 2 = 0
  · simp [hq, Nat.mul_add]
  · have h1 : 2 ^ k * (q % 2) ≠ 0 := Nat.mul_ne_zero (by omega) hq
    simp only [hq, h1, if_false]
    rw [Nat.mul_sub, Nat.mul_one]

theorem buddy_of_eq (p k : Nat) (hk : k < MAX_ORDER) (ha : p % 2 ^ k = 0) :
    buddy_of p k = some (p ^^^ 2 ^ k) := by
  have h1 : is_correct_alignment_for_order p k = true := (aligned_iff p k).mpr ha
  have h3 : ¬ k ≥ MAX_ORDER := by omega
  simp only [buddy_of, h3, h1, if_false, Bool.not_true, Bool.false_eq_true,
    xor_two_pow_eq p k ha, pgd_to_pfn, pfn_to_pgd, pages_per_block_eq]
  by_cases h : p % 2 ^ (k + 1) = 0
  · simp [h, (aligned_iff p (k + 1)).mpr h]
  · have : is_correct_alignment_for_order p (k + 1) = false := by
      rw [← Bool.not_eq_true, aligned_iff]; exact h
    simp [h, this]


theorem two_pow_pos' (k : Nat) : 0 < 2 ^ k := Nat.two_pow_pos k

theorem aligned_of_aligned_succ (p k : Nat) (h : p % 2 ^ (k + 1) = 0) : p % 2 ^ k = 0 := by
  obtain ⟨q, rfl⟩ := Nat.dvd_of_mod_eq_zero h
  rw [pow_succ, Nat.mul_assoc]; exact Nat.mul_mod_right _ _

theorem aligned_add_pow (p k : Nat) (h : p % 2 ^ k = 0) : (p + 2 ^ k) % 2 ^ k = 0 := by
  rw [Nat.add_mod_right]; exact h

theorem xor_ne_self (p k : Nat) : p ^^^ 2 ^ k ≠ p := by
  intro h
  have h2 : (p ^^^ 2 ^ k) ^^^ p = 0 := by rw [h]; exact Nat.xor_self p
  rw [Nat.xor_comm, ← Nat.xor_assoc, Nat.xor_self, Nat.zero_xor] at h2
  have := two_pow_pos' k
  omega

theorem xor_aligned (p k : Nat) (ha : p % 2 ^ k = 0) : (p ^^^ 2 ^ k) % 2 ^ k = 0 := by
  obtain ⟨q, rfl⟩ := Nat.dvd_of_mod_eq_zero ha
  rw [two_pow_mul_xor]; exact Nat.mul_mod_right _ _

theorem split_block_eq (s : FreeAreas) (h j : Nat) :
    split_block s (some h) (j + 1) =
      if h % 2 ^ (j + 1) = 0 ∧ j + 1 < MAX_ORDER ∧ h ∈ s (j + 1)
      then .ok (split_state s j h, h) else .error .assertion := by
  by_cases ha : h % 2 ^ (j + 1) = 0
  swap
  · have : is_correct_alignment_for_order h (j + 1) = false := by
      rw [← Bool.not_eq_true, aligned_iff]; exact ha
    simp [split_block, this, ha]
  by_cases hj : j + 1 < MAX_ORDER
  swap
  · have : order_in_range (j + 1) = false := by
      rw [← Bool.not_eq_true, order_in_range_iff]; exact hj
    simp [split_block, this, hj]
  by_cases hm : h ∈ s (j + 1)
  swap
  · simp [split_block, remove_block_absent _ _ _ hm, hm, bind, Except.bind]
  have h1 : is_correct_alignment_for_order h (j + 1) = true := (aligned_iff _ _).mpr ha
  have h2 : order_in_range (j + 1) = true := (order_in_range_iff _).mpr hj
  have ha' : h % 2 ^ j = 0 := aligned_of_aligned_succ h j ha
  have hj' : j < MAX_ORDER := by omega
  have hb : buddy_of h j = some (h + 2 ^ j) := by
    rw [buddy_of_eq h j hj' ha', xor_two_pow_eq h j ha', if_pos ha]
  simp only [split_block, h1, h2, remove_block_eq s h (j + 1) hj hm, bind, Except.bind, hb,
    insert_block_eq _ _ _ hj', pages_per_block_eq, set_area_same, set_area_twice]
  rw [is_free_eq _ _ _ ha' hj', is_free_eq _ _ _ (aligned_add_pow h j ha') hj']
  simp [ha, hj, hm, split_state, set_area_same, set_area_other, mem_insert_sorted]

theorem merged_head_aligned (p o : Nat) (hp : p % 2 ^ o = 0) :
    merged_head p o % 2 ^ (o + 1) = 0 := by
  unfold merged_head
  by_cases h : p % 2 ^ (o + 1) = 0
  · simp [h]
  · rw [if_neg h, xor_two_pow_eq p o hp, if_neg h]
    obtain ⟨q, rfl⟩ := Nat.dvd_of_mod_eq_zero hp
    rw [pow_succ, Nat.mul_mod_mul_left] at h
    have hq : q % 2 = 1 := by
      rcases Nat.mod_two_eq_zero_or_one q with h0 | h1
      · rw [h0] at h; simp at h
      · exact h1
    have : 2 ^ o * q - 2 ^ o = 2 ^ o * 2 * ((q - 1) / 2) := by
      have : q = 2 * ((q - 1) / 2) + 1 := by omega
      conv_lhs => rw [this]
      rw [Nat.mul_add, Nat.mul_one, Nat.add_sub_cancel, Nat.mul_assoc]
    rw [this, pow_succ]; exact Nat.mul_mod_right _ _

theorem merge_block_eq (s : FreeAreas) (p o : Nat) (hp : p % 2 ^ o = 0)
    (ho : o < MAX_ORDER) (hb : p ^^^ 2 ^ o ∈ s o) (hm : p ∈ s o) :
    merge_block s p o =
      if o + 1 < MAX_ORDER then .ok (merge_state s p o) else .error .assertion := by
  have h1 : is_correct_alignment_for_order p o = true := (aligned_iff _ _).mpr hp
  have h2 : order_in_range o = true := (order_in_range_iff _).mpr ho
  have hm' : p ∈ (s o).erase (p ^^^ 2 ^ o) :=
    (List.mem_erase_of_ne (fun e => xor_ne_self p o e.symm)).mpr hm
  have hal : (if is_correct_alignment_for_order p (o + 1) = true then p else p ^^^ 2 ^ o)
      = merged_head p o := by
    unfold merged_head
    by_cases h : p % 2 ^ (o + 1) = 0
    · simp [h, (aligned_iff p (o + 1)).mpr h]
    · have : is_correct_alignment_for_order p (o + 1) = false := by
        rw [← Bool.not_eq_true, aligned_iff]; exact h
      simp [h, this]
  simp only [merge_block, h1, h2, buddy_of_eq p o ho hp, bind, Except.bind,
    remove_block_eq s _ o ho hb, Bool.not_true, Bool.false_eq_true, if_false]
  rw [remove_block_eq _ p o ho (by rw [set_area_same]; exact hm')]
  simp only [set_area_same, set_area_twice, hal]
  by_cases h3 : o + 1 < MAX_ORDER
  · rw [insert_block_eq _ _ _ h3, if_pos h3]
    have : o + 1 ≠ o := by omega
    simp [merge_state, set_area_other _ _ _ _ this]
  · have : order_in_range (o + 1) = false := by
      rw [← Bool.not_eq_true, order_in_range_iff]; exact h3
    simp [insert_block, this, h3]

theorem free_loop_succ (fuel : Nat) (s : FreeAreas) (p o : Nat) (hp : p % 2 ^ o = 0)
    (ho : o < MAX_ORDER) (hm : p ∈ s o) :
    free_loop (fuel + 1) s p o =
      if p ^^^ 2 ^ o ∈ s o then
        if o + 1 < MAX_ORDER then
          if o + 1 < MAX_ORDER - 1 then
            free_loop fuel (merge_state s p o) (merged_head p o) (o + 1)
          else .ok (merge_state s p o)
        else .error .assertion
      else .ok s := by
  have hbal : (p ^^^ 2 ^ o) % 2 ^ o = 0 := xor_aligned p o hp
  have hal : (if is_correct_alignment_for_order p (o + 1) = true then p else p ^^^ 2 ^ o)
      = merged_head p o := by
    unfold merged_head
    by_cases h : p % 2 ^ (o + 1) = 0
    · simp [h, (aligned_iff p (o + 1)).mpr h]
    · have : is_correct_alignment_for_order p (o + 1) = false := by
        rw [← Bool.not_eq_true, aligned_iff]; exact h
      simp [h, this]
  simp only [free_loop, buddy_of_eq p o ho hp, bind, Except.bind, is_free_eq _ _ _ hbal ho,
    is_free_eq _ _ _ hp ho, hal]
  by_cases hb : p ^^^ 2 ^ o ∈ s o
  · simp only [hb, decide_True, Bool.not_true, Bool.false_eq_true, if_false, if_true,
      merge_block_eq s p o hp ho hb hm]
    by_cases h3 : o + 1 < MAX_ORDER
    · simp only [h3, if_true]
      by_cases h4 : o + 1 < MAX_ORDER - 1
      · simp [h4]
      · simp only [h4, if_false]
        rw [is_free_eq _ _ _ (merged_head_aligned p o hp) h3]
        simp [merge_state, set_area_same, mem_insert_sorted]
    · simp [h3]
  · simp [hb, hm]


theorem mem_split_state (s : FreeAreas) (j h i b : Nat) :
    b ∈ split_state s j h i ↔
      (i = j ∧ (b = h ∨ b = h + 2 ^ j ∨ b ∈ s j)) ∨
      (i = j + 1 ∧ b ∈ (s (j + 1)).erase h) ∨
      (i ≠ j ∧ i ≠ j + 1 ∧ b ∈ s i) := by
  by_cases h1 : i = j
  · subst h1; simp [split_state, set_area, mem_insert_sorted]
  · by_cases h2 : i = j + 1
    · subst h2; simp [split_state, set_area]
    · simp [split_state, set_area, h1, h2]

theorem mem_merge_state (s : FreeAreas) (p o i b : Nat) :
    b ∈ merge_state s p o i ↔
      (i = o + 1 ∧ (b = merged_head p o ∨ b ∈ s (o + 1))) ∨
      (i = o ∧ b ∈ ((s o).erase (p ^^^ 2 ^ o)).erase p) ∨
      (i ≠ o ∧ i ≠ o + 1 ∧ b ∈ s i) := by
  by_cases h1 : i = o + 1
  · subst h1; simp [merge_state, set_area, mem_insert_sorted]
  · by_cases h2 : i = o
    · subst h2; simp [merge_state, set_area]
    · simp [merge_state, set_area, h1, h2]

theorem buddy_cases (p o : Nat) (hp : p % 2 ^ o = 0) :
    (p % 2 ^ (o + 1) = 0 ∧ p ^^^ 2 ^ o = p + 2 ^ o ∧ merged_head p o = p) ∨
    (p % 2 ^ (o + 1) ≠ 0 ∧ 2 ^ o ≤ p ∧ p ^^^ 2 ^ o = p - 2 ^ o ∧
      merged_head p o = p - 2 ^ o) := by
  by_cases h : p % 2 ^ (o + 1) = 0
  · left
    refine ⟨h, ?_, ?_⟩
    · rw [xor_two_pow_eq p o hp, if_pos h]
    · simp [merged_head, h]
  · right
    have hx : p ^^^ 2 ^ o = p - 2 ^ o := by rw [xor_two_pow_eq p o hp, if_neg h]
    refine ⟨h, ?_, hx, ?_⟩
    · have hd : 2 ^ o ∣ p := Nat.dvd_of_mod_eq_zero hp
      have hne : p ≠ 0 := by
        intro h0; apply h; rw [h0]; exact Nat.zero_mod _
      exact Nat.le_of_dvd (Nat.pos_of_ne_zero hne) hd
    · simp [merged_head, h, hx]

theorem I1_erase (s : FreeAreas) (k x : Nat) (hI : I1 s) :
    I1 (set_area s k ((s k).erase x)) := by
  obtain ⟨hnd, hdis⟩ := hI
  have hsub : ∀ i b, b ∈ set_area s k ((s k).erase x) i → b ∈ s i := by
    intro i b hb
    by_cases h : i = k
    · subst h; rw [set_area_same] at hb; exact List.mem_of_mem_erase hb
    · rw [set_area_other _ _ _ _ h] at hb; exact hb
  refine ⟨?_, ?_⟩
  · intro i hi
    by_cases h : i = k
    · subst h; rw [set_area_same]; exact (hnd _ hi).erase _
    · rw [set_area_other _ _ _ _ h]; exact hnd i hi
  · intro i hi j hj b hb c hc hne
    exact hdis i hi j hj b (hsub _ _ hb) c (hsub _ _ hc) hne

/-- After a block is unlinked from a table that satisfies I1, no remaining block
overlaps it. -/
theorem erase_disjoint (s : FreeAreas) (k d : Nat) (hI : I1 s) (hk : k < MAX_ORDER)
    (hd : d ∈ s k) :
    ∀ i < MAX_ORDER, ∀ c ∈ set_area s k ((s k).erase d) i,
      c + 2 ^ i ≤ d ∨ d + 2 ^ k ≤ c := by
  obtain ⟨hnd, hdis⟩ := hI
  intro i hi c hc
  by_cases h : i = k
  · subst h
    rw [set_area_same] at hc
    have hne : c ≠ d := fun e => by
      rw [e] at hc; exact ((hnd _ hi).mem_erase_iff.mp hc).1 rfl
    exact hdis i hi i hi c (List.mem_of_mem_erase hc) d hd (fun _ => hne)
  · rw [set_area_other _ _ _ _ h] at hc
    exact hdis i hi k hk c hc d hd (fun e => absurd e h)

theorem I1_insert (s : FreeAreas) (k d : Nat) (hI : I1 s) (hk : k < MAX_ORDER)
    (hfree : ∀ i < MAX_ORDER, ∀ b ∈ s i, b + 2 ^ i ≤ d ∨ d + 2 ^ k ≤ b) :
    I1 (set_area s k (insert_sorted d (s k))) := by
  obtain ⟨hnd, hdis⟩ := hI
  have hpos := two_pow_pos' k
  have hd : d ∉ s k := fun hc => by
    have := hfree k hk d hc; omega
  have hmem : ∀ i b, b ∈ set_area s k (insert_sorted d (s k)) i →
      (i = k ∧ b = d) ∨ b ∈ s i := by
    intro i b hb
    by_cases h : i = k
    · subst h; rw [set_area_same, mem_insert_sorted] at hb
      rcases hb with hb | hb
      · exact Or.inl ⟨rfl, hb⟩
      · exact Or.inr hb
    · rw [set_area_other _ _ _ _ h] at hb; exact Or.inr hb
  refine ⟨?_, ?_⟩
  · intro i hi
    by_cases h : i = k
    · subst h; rw [set_area_same]; exact insert_sorted_nodup _ _ hd (hnd _ hi)
    · rw [set_area_other _ _ _ _ h]; exact hnd i hi
  · intro i hi j hj b hb c hc hne
    rcases hmem _ _ hb with ⟨rfl, rfl⟩ | hb' <;> rcases hmem _ _ hc with ⟨rfl, rfl⟩ | hc'
    · exact absurd rfl (hne rfl)
    · have := hfree j hj c hc'; omega
    · have := hfree i hi b hb'; omega
    · exact hdis i hi j hj b hb' c hc' hne

theorem I1_split (s : FreeAreas) (j h : Nat) (hI : I1 s) (hj : j + 1 < MAX_ORDER)
    (hm : h ∈ s (j + 1)) : I1 (split_state s j h) := by
  obtain ⟨hnd, hdis⟩ := hI
  have hj' : j < MAX_ORDER := by omega
  have hpow : 2 ^ (j + 1) = 2 * 2 ^ j := by rw [pow_succ]; ring
  have hpos := two_pow_pos' j
  have hpar : ∀ i < MAX_ORDER, ∀ b ∈ s i, (i = j + 1 → b ≠ h) →
      b + 2 ^ i ≤ h ∨ h + 2 * 2 ^ j ≤ b := by
    intro i hi b hb hne
    have := hdis i hi (j + 1) hj b hb h hm hne
    rw [hpow] at this; exact this
  have hh : h ∉ s j := fun hc => by
    have := hpar j hj' h hc (by omega); omega
  have hh2 : h + 2 ^ j ∉ s j := fun hc => by
    have := hpar j hj' _ hc (by omega); omega
  have hmem : ∀ i b, i < MAX_ORDER → b ∈ split_state s j h i →
      (i = j ∧ (b = h ∨ b = h + 2 ^ j)) ∨ (b ∈ s i ∧ (i = j + 1 → b ≠ h)) := by
    intro i b hi hb
    rw [mem_split_state] at hb
    rcases hb with ⟨rfl, hb | hb | hb⟩ | ⟨rfl, hb⟩ | ⟨h1, h2, hb⟩
    · exact Or.inl ⟨rfl, Or.inl hb⟩
    · exact Or.inl ⟨rfl, Or.inr hb⟩
    · exact Or.inr ⟨hb, fun e => by omega⟩
    · have := (hnd _ hi).mem_erase_iff.mp hb
      exact Or.inr ⟨this.2, fun _ => this.1⟩
    · exact Or.inr ⟨hb, fun e => absurd e h2⟩
  refine ⟨?_, ?_⟩
  · intro i hi
    by_cases h1 : i = j
    · subst h1
      simp only [split_state, set_area_same]
      apply insert_sorted_nodup
      · rw [mem_insert_sorted]
        rintro (e | e)
        · omega
        · exact hh e
      · exact insert_sorted_nodup _ _ hh2 (hnd _ hi)
    · by_cases h2 : i = j + 1
      · subst h2
        have : j + 1 ≠ j := by omega
        simp only [split_state, set_area_other _ _ _ _ this, set_area_same]
        exact (hnd _ hi).erase _
      · simp only [split_state, set_area_other _ _ _ _ h1, set_area_other _ _ _ _ h2]
        exact hnd i hi
  · intro i hi k hk b hb c hc hne
    rcases hmem i b hi hb with ⟨rfl, hb'⟩ | ⟨hb', hbn⟩ <;>
      rcases hmem k c hk hc with ⟨rfl, hc'⟩ | ⟨hc', hcn⟩
    · have := hne rfl
      rcases hb' with rfl | rfl <;> rcases hc' with rfl | rfl <;> omega
    · have := hpar k hk c hc' hcn
      rcases hb' with rfl | rfl <;> omega
    · have := hpar i hi b hb' hbn
      rcases hc' with rfl | rfl <;> omega
    · exact hdis i hi k hk b hb' c hc' hne

theorem I1_merge (s : FreeAreas) (p o : Nat) (hI : I1 s) (ho : o + 1 < MAX_ORDER)
    (hp : p % 2 ^ o = 0) (hm : p ∈ s o) (hb : p ^^^ 2 ^ o ∈ s o) :
    I1 (merge_state s p o) := by
  obtain ⟨hnd, hdis⟩ := hI
  have ho' : o < MAX_ORDER := by omega
  have hpow : 2 ^ (o + 1) = 2 * 2 ^ o := by rw [pow_succ]; ring
  have hpos := two_pow_pos' o
  have hp1 : ∀ i < MAX_ORDER, ∀ b ∈ s i, (i = o → b ≠ p) →
      b + 2 ^ i ≤ p ∨ p + 2 ^ o ≤ b :=
    fun i hi b hb' hne => hdis i hi o ho' b hb' p hm hne
  have hp2 : ∀ i < MAX_ORDER, ∀ b ∈ s i, (i = o → b ≠ p ^^^ 2 ^ o) →
      b + 2 ^ i ≤ p ^^^ 2 ^ o ∨ (p ^^^ 2 ^ o) + 2 ^ o ≤ b :=
    fun i hi b hb' hne => hdis i hi o ho' b hb' _ hb hne
  have hpar : ∀ i < MAX_ORDER, ∀ b ∈ s i, (i = o → b ≠ p ∧ b ≠ p ^^^ 2 ^ o) →
      b + 2 ^ i ≤ merged_head p o ∨ merged_head p o + 2 * 2 ^ o ≤ b := by
    intro i hi b hb' hne
    have h1 := hp1 i hi b hb' (fun e => (hne e).1)
    have h2 := hp2 i hi b hb' (fun e => (hne e).2)
    have hpi := two_pow_pos' i
    rcases buddy_cases p o hp with ⟨_, hx, hmh⟩ | ⟨_, hle, hx, hmh⟩ <;>
      rw [hx] at h2 <;> rw [hmh] <;> omega
  have hmem : ∀ i b, i < MAX_ORDER → b ∈ merge_state s p o i →
      (i = o + 1 ∧ b = merged_head p o) ∨
      (b ∈ s i ∧ (i = o → b ≠ p ∧ b ≠ p ^^^ 2 ^ o)) := by
    intro i b hi hb'
    rw [mem_merge_state] at hb'
    rcases hb' with ⟨rfl, hb' | hb'⟩ | ⟨rfl, hb'⟩ | ⟨h1, h2, hb'⟩
    · exact Or.inl ⟨rfl, hb'⟩
    · exact Or.inr ⟨hb', fun e => by omega⟩
    · have h1 := ((hnd _ hi).erase _).mem_erase_iff.mp hb'
      have h2 := (hnd _ hi).mem_erase_iff.mp h1.2
      exact Or.inr ⟨h2.2, fun _ => ⟨h1.1, h2.1⟩⟩
    · exact Or.inr ⟨hb', fun e => absurd e h1⟩
  have hmh : merged_head p o ∉ s (o + 1) := fun hc => by
    have h1 := hp1 (o + 1) ho _ hc (by omega)
    rw [hpow] at h1
    rcases buddy_cases p o hp with ⟨_, hx, hmh⟩ | ⟨_, hle, hx, hmh⟩ <;>
      rw [hmh] at h1 <;> omega
  refine ⟨?_, ?_⟩
  · intro i hi
    by_cases h1 : i = o + 1
    · subst h1
      simp only [merge_state, set_area_same]
      exact insert_sorted_nodup _ _ hmh (hnd _ hi)
    · by_cases h2 : i = o
      · subst h2
        simp only [merge_state, set_area_other _ _ _ _ h1, set_area_same]
        exact ((hnd _ hi).erase _).erase _
      · simp only [merge_state, set_area_other _ _ _ _ h1, set_area_other _ _ _ _ h2]
        exact hnd i hi
  · intro i hi k hk b hb' c hc hne
    rcases hmem i b hi hb' with ⟨rfl, rfl⟩ | ⟨hb'', hbn⟩ <;>
      rcases hmem k c hk hc with ⟨rfl, rfl⟩ | ⟨hc', hcn⟩
    · exact absurd rfl (hne rfl)
    · have := hpar k hk c hc' hcn
      rw [hpow]; omega
    · have := hpar i hi b hb'' hbn
      rw [hpow]; omega
    · exact hdis i hi k hk b hb'' c hc' hne

theorem covered_erase (s : FreeAreas) (k x f : Nat)
    (h : covered (set_area s k ((s k).erase x)) f) : covered s f := by
  obtain ⟨i, hi, b, hb, hr⟩ := h
  refine ⟨i, hi, b, ?_, hr⟩
  by_cases e : i = k
  · subst e; rw [set_area_same] at hb; exact List.mem_of_mem_erase hb
  · rw [set_area_other _ _ _ _ e] at hb; exact hb

theorem covered_insert (s : FreeAreas) (k d f : Nat)
    (h : covered (set_area s k (insert_sorted d (s k))) f) :
    covered s f ∨ (d ≤ f ∧ f < d + 2 ^ k) := by
  obtain ⟨i, hi, b, hb, hr⟩ := h
  by_cases e : i = k
  · subst e
    rw [set_area_same, mem_insert_sorted] at hb
    rcases hb with rfl | hb
    · exact Or.inr hr
    · exact Or.inl ⟨i, hi, b, hb, hr⟩
  · rw [set_area_other _ _ _ _ e] at hb
    exact Or.inl ⟨i, hi, b, hb, hr⟩

theorem covered_split (s : FreeAreas) (j h f : Nat) (hj : j + 1 < MAX_ORDER)
    (hm : h ∈ s (j + 1)) (hc : covered (split_state s j h) f) : covered s f := by
  obtain ⟨i, hi, b, hb, hr⟩ := hc
  have hpow : 2 ^ (j + 1) = 2 * 2 ^ j := by rw [pow_succ]; ring
  rw [mem_split_state] at hb
  rcases hb with ⟨rfl, rfl | rfl | hb⟩ | ⟨rfl, hb⟩ | ⟨_, _, hb⟩
  · exact ⟨i + 1, hj, b, hm, by omega⟩
  · exact ⟨i + 1, hj, h, hm, by omega⟩
  · exact ⟨i, hi, b, hb, hr⟩
  · exact ⟨j + 1, hi, b, List.mem_of_mem_erase hb, hr⟩
  · exact ⟨i, hi, b, hb, hr⟩

theorem covered_merge (s : FreeAreas) (p o f : Nat) (ho : o + 1 < MAX_ORDER)
    (hp : p % 2 ^ o = 0) (hm : p ∈ s o) (hb : p ^^^ 2 ^ o ∈ s o)
    (hc : covered (merge_state s p o) f) : covered s f := by
  obtain ⟨i, hi, b, hb', hr⟩ := hc
  have hpow : 2 ^ (o + 1) = 2 * 2 ^ o := by rw [pow_succ]; ring
  have ho' : o < MAX_ORDER := by omega
  rw [mem_merge_state] at hb'
  rcases hb' with ⟨rfl, rfl | hb'⟩ | ⟨rfl, hb'⟩ | ⟨_, _, hb'⟩
  · rw [hpow] at hr
    rcases buddy_cases p o hp with ⟨_, hx, hmh⟩ | ⟨_, hle, hx, hmh⟩
    · rw [hmh] at hr
      by_cases hf : f < p + 2 ^ o
      · exact ⟨o, ho', p, hm, by omega⟩
      · exact ⟨o, ho', _, hb, by rw [hx]; omega⟩
    · rw [hmh] at hr
      by_cases hf : f < p
      · exact ⟨o, ho', _, hb, by rw [hx]; omega⟩
      · exact ⟨o, ho', p, hm, by omega⟩
  · exact ⟨o + 1, hi, b, hb', hr⟩
  · exact ⟨i, hi, b, List.mem_of_mem_erase (List.mem_of_mem_erase hb'), hr⟩
  · exact ⟨i, hi, b, hb', hr⟩

theorem is_free_ok (s : FreeAreas) (p k : Nat) (r : Bool) (h : is_free s p k = .ok r) :
    p % 2 ^ k = 0 ∧ k < MAX_ORDER ∧ r = decide (p ∈ s k) := by
  by_cases ha : p % 2 ^ k = 0
  · by_cases hk : k < MAX_ORDER
    · rw [is_free_eq s p k ha hk] at h
      exact ⟨ha, hk, by injection h with h; exact h.symm⟩
    · have : order_in_range k = false := by
        rw [← Bool.not_eq_true, order_in_range_iff]; exact hk
      have h1 : is_correct_alignment_for_order p k = true := (aligned_iff _ _).mpr ha
      simp [is_free, this, h1] at h
  · have : is_correct_alignment_for_order p k = false := by
      rw [← Bool.not_eq_true, aligned_iff]; exact ha
    simp [is_free, this] at h

theorem alloc_split_succ (order j : Nat) (s : FreeAreas) (h : Nat) :
    alloc_split order (j + 1) s h =
      if j + 1 > order then
        if h % 2 ^ (j + 1) = 0 ∧ j + 1 < MAX_ORDER ∧ h ∈ s (j + 1)
        then alloc_split order j (split_state s j h) h else .error .assertion
      else .ok (s, h) := by
  rw [alloc_split]
  by_cases h1 : j + 1 > order
  · rw [if_pos h1, if_pos h1, split_block_eq]
    split <;> rfl
  · rw [if_neg h1, if_neg h1]

theorem mem_split_state_self (s : FreeAreas) (j h : Nat) : h ∈ split_state s j h j := by
  rw [mem_split_state]; exact Or.inl ⟨rfl, Or.inl rfl⟩

/-- The splitting loop of `alloc_pages`, when it succeeds, returns the block it
was given, leaves it linked at the requested order, keeps I1 and covers no new
frame. -/
theorem alloc_split_spec (order : Nat) :
    ∀ (j : Nat) (s : FreeAreas) (h : Nat) (s' : FreeAreas) (b : Nat),
      alloc_split order j s h = .ok (s', b) → order ≤ j → h ∈ s j →
      b = h ∧ h ∈ s' order ∧ (I1 s → I1 s') ∧ (∀ f, covered s' f → covered s f) := by
  intro j
  induction j with
  | zero =>
    intro s h s' b he ho hm
    have : order = 0 := by omega
    subst this
    simp only [alloc_split, Except.ok.injEq, Prod.mk.injEq] at he
    obtain ⟨rfl, rfl⟩ := he
    exact ⟨rfl, hm, id, fun _ hc => hc⟩
  | succ j ih =>
    intro s h s' b he ho hm
    rw [alloc_split_succ] at he
    by_cases h1 : j + 1 > order
    · rw [if_pos h1] at he
      by_cases h2 : h % 2 ^ (j + 1) = 0 ∧ j + 1 < MAX_ORDER ∧ h ∈ s (j + 1)
      · rw [if_pos h2] at he
        obtain ⟨hb, hmo, hI, hc⟩ :=
          ih (split_state s j h) h s' b he (by omega) (mem_split_state_self s j h)
        exact ⟨hb, hmo, fun hs => hI (I1_split s j h hs h2.2.1 hm),
          fun f hf => covered_split s j h f h2.2.1 hm (hc f hf)⟩
      · rw [if_neg h2] at he; cases he
    · rw [if_neg h1] at he
      have : order = j + 1 := by omega
      subst this
      simp only [Except.ok.injEq, Prod.mk.injEq] at he
      obtain ⟨rfl, rfl⟩ := he
      exact ⟨rfl, hm, id, fun _ hc => hc⟩

/-- The search loop of `alloc_pages` with enough iterations never runs out of
them; it stops at the first index from `free_order` on at which the read is not
null, or returns NULL when the reads up to index `MAX_ORDER` are all null. -/
theorem alloc_search_spec (beyond : Option Nat) (s : FreeAreas) :
    ∀ (fuel free_order : Nat), MAX_ORDER + 1 ≤ fuel + free_order →
      free_order ≤ MAX_ORDER →
      (alloc_search beyond s fuel free_order (read_area beyond s free_order) = .ok none ∧
        ∀ i, free_order ≤ i → i ≤ MAX_ORDER → read_area beyond s i = none) ∨
      ∃ j b, alloc_search beyond s fuel free_order (read_area beyond s free_order)
          = .ok (some (j, b)) ∧ free_order ≤ j ∧ j ≤ MAX_ORDER ∧
        read_area beyond s j = some b ∧
        ∀ i, free_order ≤ i → i < j → read_area beyond s i = none := by
  intro fuel
  induction fuel with
  | zero =>
    intro fo h1 h2
    exact absurd h1 (by omega)
  | succ fuel ih =>
    intro fo h1 h2
    cases hr : read_area beyond s fo with
    | some b =>
      right
      exact ⟨fo, b, by simp [alloc_search], le_refl _, h2, hr, fun i h3 h4 => by omega⟩
    | none =>
      by_cases h3 : fo < MAX_ORDER
      · have hir : order_in_range fo = true := (order_in_range_iff _).mpr h3
        have hstep : alloc_search beyond s (fuel + 1) fo none =
            alloc_search beyond s fuel (fo + 1) (read_area beyond s (fo + 1)) := by
          simp [alloc_search, hir]
        rw [hstep]
        rcases ih (fo + 1) (by omega) (by omega) with ⟨he, hall⟩ | ⟨j, b, he, h4, h5, h6, h7⟩
        · left
          refine ⟨he, fun i hi1 hi2 => ?_⟩
          by_cases e : i = fo
          · rw [e]; exact hr
          · exact hall i (by omega) hi2
        · right
          refine ⟨j, b, he, by omega, h5, h6, fun i hi1 hi2 => ?_⟩
          by_cases e : i = fo
          · rw [e]; exact hr
          · exact h7 i (by omega) hi2
      · left
        have hir : order_in_range fo = false := by
          rw [← Bool.not_eq_true, order_in_range_iff]; exact h3
        refine ⟨by simp [alloc_search, hir], fun i hi1 hi2 => ?_⟩
        have : i = fo := by omega
        rw [this]; exact hr

/-- What a successful `alloc_pages` has done: the block returned is aligned, and
the table is the one reached by the splits (which keep I1 and cover no new
frame, and in which the block is linked at the requested order) with the block
unlinked. -/
theorem alloc_pages_some (beyond : Option Nat) (s : FreeAreas) (k : Nat) (s' : FreeAreas)
    (d : Nat) (h : alloc_pages beyond s k = .ok (s', some d)) :
    k < MAX_ORDER ∧ d % 2 ^ k = 0 ∧
      ∃ s1, d ∈ s1 k ∧ s' = set_area s1 k ((s1 k).erase d) ∧ (I1 s → I1 s1) ∧
        ∀ f, covered s1 f → covered s f := by
  by_cases hk : k < MAX_ORDER
  swap
  · have : order_in_range k = false := by
      rw [← Bool.not_eq_true, order_in_range_iff]; exact hk
    simp [alloc_pages, this] at h
  have hir : order_in_range k = true := (order_in_range_iff _).mpr hk
  simp only [alloc_pages, hir, Bool.not_true, Bool.false_eq_true, if_false, bind,
    Except.bind] at h
  rcases alloc_search_spec beyond s (MAX_ORDER + 1) k (by omega) (by omega) with
    ⟨he, _⟩ | ⟨j, b, he, h4, h5, h6, _⟩
  · rw [he] at h; simp at h
  · rw [he] at h
    simp only at h
    cases hsp : alloc_split k j s b with
    | error e => rw [hsp] at h; simp at h
    | ok r =>
      obtain ⟨s1, b'⟩ := r
      rw [hsp] at h
      simp only at h
      have hj : j < MAX_ORDER := by
        by_contra hj
        have hj15 : j = MAX_ORDER := by omega
        have hkj : MAX_ORDER - 1 + 1 = MAX_ORDER := rfl
        rw [hj15, ← hkj, alloc_split_succ] at hsp
        have : MAX_ORDER - 1 + 1 > k := by omega
        rw [if_pos this, if_neg (by omega)] at hsp
        cases hsp
      have hbm : b ∈ s j := by
        simp only [read_area, hj, if_true] at h6
        exact List.mem_of_mem_head? h6
      obtain ⟨rfl, hmo, hI, hc⟩ := alloc_split_spec k j s b s1 b' hsp h4 hbm
      cases hf : is_free s1 b' k with
      | error e => rw [hf] at h; simp at h
      | ok r =>
        obtain ⟨ha, _, hr⟩ := is_free_ok s1 b' k r hf
        rw [hf] at h
        simp only [hr, hmo, decide_True, Bool.not_true, Bool.false_eq_true, if_false,
          remove_block_eq s1 b' k hk hmo, Except.ok.injEq, Prod.mk.injEq,
          Option.some.injEq] at h
        obtain ⟨rfl, rfl⟩ := h
        exact ⟨hk, ha, s1, hmo, rfl, hI, hc⟩

/-- When `alloc_pages` returns NULL the table is unchanged. -/
theorem alloc_pages_none (beyond : Option Nat) (s : FreeAreas) (k : Nat) (s' : FreeAreas)
    (h : alloc_pages beyond s k = .ok (s', none)) : s' = s := by
  by_cases hk : order_in_range k = true
  swap
  · simp [alloc_pages, hk] at h
  simp only [alloc_pages, hk, Bool.not_true, Bool.false_eq_true, if_false, bind,
    Except.bind] at h
  cases hs : alloc_search beyond s (MAX_ORDER + 1) k (read_area beyond s k) with
  | error e => rw [hs] at h; simp at h
  | ok r =>
    rw [hs] at h
    cases r with
    | none => simp at h; exact h.symm
    | some jb =>
      obtain ⟨j, b⟩ := jb
      simp only at h
      cases hsp : alloc_split k j s b with
      | error e => rw [hsp] at h; simp at h
      | ok r =>
        obtain ⟨s1, b'⟩ := r
        rw [hsp] at h
        simp only at h
        cases hf : is_free s1 b' k with
        | error e => rw [hf] at h; simp at h
        | ok r =>
          rw [hf] at h
          simp only at h
          split at h
          · cases h
          · cases hrm : remove_block s1 b' k with
            | error e => rw [hrm] at h; simp at h
            | ok s2 => rw [hrm] at h; simp at h

theorem mem_merge_state_head (s : FreeAreas) (p o : Nat) :
    merged_head p o ∈ merge_state s p o (o + 1) := by
  rw [mem_merge_state]; exact Or.inl ⟨rfl, Or.inl rfl⟩

/-- Induction over the merging loop of `free_pages`: a property kept by every
merge holds of the table the loop returns, for the block and order at which it
stops; there the buddy is not free, or the top order was reached by a merge. -/
theorem free_loop_induct (Q : FreeAreas → Nat → Nat → Prop)
    (hstep : ∀ s p o, Q s p o → p % 2 ^ o = 0 → o + 1 < MAX_ORDER → p ∈ s o →
      p ^^^ 2 ^ o ∈ s o → Q (merge_state s p o) (merged_head p o) (o + 1)) :
    ∀ (fuel : Nat) (s : FreeAreas) (p o : Nat) (s' : FreeAreas),
      p % 2 ^ o = 0 → o < MAX_ORDER → p ∈ s o → Q s p o →
      free_loop fuel s p o = .ok s' →
      ∃ p' o', Q s' p' o' ∧ o ≤ o' ∧ o' < MAX_ORDER ∧ p' ∈ s' o' ∧ p' % 2 ^ o' = 0 ∧
        (p' ^^^ 2 ^ o' ∉ s' o' ∨ (o' = MAX_ORDER - 1 ∧ o < o')) := by
  intro fuel
  induction fuel with
  | zero =>
    intro s p o s' _ _ _ _ he
    simp [free_loop] at he
  | succ fuel ih =>
    intro s p o s' hp ho hm hQ he
    rw [free_loop_succ fuel s p o hp ho hm] at he
    by_cases hb : p ^^^ 2 ^ o ∈ s o
    · rw [if_pos hb] at he
      by_cases h3 : o + 1 < MAX_ORDER
      · rw [if_pos h3] at he
        have hQ' := hstep s p o hQ hp h3 hm hb
        by_cases h4 : o + 1 < MAX_ORDER - 1
        · rw [if_pos h4] at he
          obtain ⟨p', o', h5, h6, h7, h8, h9, h10⟩ :=
            ih (merge_state s p o) (merged_head p o) (o + 1) s'
              (merged_head_aligned p o hp) h3 (mem_merge_state_head s p o) hQ' he
          refine ⟨p', o', h5, by omega, h7, h8, h9, ?_⟩
          rcases h10 with h10 | h10
          · exact Or.inl h10
          · exact Or.inr ⟨h10.1, by omega⟩
        · rw [if_neg h4] at he
          injection he with he
          subst he
          exact ⟨merged_head p o, o + 1, hQ', by omega, h3, mem_merge_state_head s p o,
            merged_head_aligned p o hp, Or.inr ⟨by omega, by omega⟩⟩
      · rw [if_neg h3] at he; cases he
    · rw [if_neg hb] at he
      injection he with he
      subst he
      exact ⟨p, o, hQ, le_refl _, ho, hm, hp, Or.inl hb⟩

/-- Below the top order the merging loop of `free_pages` always returns. -/
theorem free_loop_total :
    ∀ (fuel : Nat) (s : FreeAreas) (p o : Nat), MAX_ORDER ≤ fuel + o + 1 →
      p % 2 ^ o = 0 → o + 1 < MAX_ORDER → p ∈ s o →
      ∃ s', free_loop fuel s p o = .ok s' := by
  intro fuel
  induction fuel with
  | zero =>
    intro s p o h1 _ h3 _
    exact absurd h1 (by omega)
  | succ fuel ih =>
    intro s p o h1 hp ho hm
    rw [free_loop_succ fuel s p o hp (by omega) hm]
    by_cases hb : p ^^^ 2 ^ o ∈ s o
    · rw [if_pos hb, if_pos ho]
      by_cases h4 : o + 1 < MAX_ORDER - 1
      · rw [if_pos h4]
        exact ih (merge_state s p o) (merged_head p o) (o + 1) (by omega)
          (merged_head_aligned p o hp) (by omega) (mem_merge_state_head s p o)
      · rw [if_neg h4]; exact ⟨_, rfl⟩
    · rw [if_neg hb]; exact ⟨_, rfl⟩

theorem free_pages_eq (s : FreeAreas) (d k : Nat) (hd : d % 2 ^ k = 0) (hk : k < MAX_ORDER) :
    free_pages s d k = free_loop MAX_ORDER (set_area s k (insert_sorted d (s k))) d k := by
  have h1 : is_correct_alignment_for_order d k = true := (aligned_iff _ _).mpr hd
  have h2 : order_in_range k = true := (order_in_range_iff _).mpr hk
  simp [free_pages, h1, h2, insert_block_eq s d k hk, bind, Except.bind]

theorem free_pages_ok (s : FreeAreas) (d k : Nat) (s' : FreeAreas)
    (h : free_pages s d k = .ok s') : d % 2 ^ k = 0 ∧ k < MAX_ORDER := by
  by_cases ha : is_correct_alignment_for_order d k = true
  · by_cases hk : order_in_range k = true
    · exact ⟨(aligned_iff _ _).mp ha, (order_in_range_iff _).mp hk⟩
    · simp [free_pages, ha, hk] at h
  · simp [free_pages, ha] at h

theorem mem_insert_self (s : FreeAreas) (d k : Nat) :
    d ∈ set_area s k (insert_sorted d (s k)) k := by
  rw [set_area_same, mem_insert_sorted]; exact Or.inl rfl

/-- Below the top order `free_pages` of an aligned block always returns. -/
theorem free_pages_total (s : FreeAreas) (d k : Nat) (hd : d % 2 ^ k = 0)
    (hk : k + 1 < MAX_ORDER) : ∃ s', free_pages s d k = .ok s' := by
  rw [free_pages_eq s d k hd (by omega)]
  exact free_loop_total MAX_ORDER _ d k (by omega) hd hk (mem_insert_self s d k)

/-- The general form of what `free_pages` establishes: a property that holds
once the block is linked and that every merge keeps holds at the end. -/
theorem free_pages_induct (Q : FreeAreas → Nat → Nat → Prop) (s : FreeAreas) (d k : Nat)
    (s' : FreeAreas)
    (hstep : ∀ s p o, Q s p o → p % 2 ^ o = 0 → o + 1 < MAX_ORDER → p ∈ s o →
      p ^^^ 2 ^ o ∈ s o → Q (merge_state s p o) (merged_head p o) (o + 1))
    (h0 : Q (set_area s k (insert_sorted d (s k))) d k)
    (h : free_pages s d k = .ok s') :
    ∃ p' o', Q s' p' o' ∧ k ≤ o' ∧ o' < MAX_ORDER ∧ p' ∈ s' o' ∧ p' % 2 ^ o' = 0 ∧
      (p' ^^^ 2 ^ o' ∉ s' o' ∨ (o' = MAX_ORDER - 1 ∧ k < o')) := by
  obtain ⟨hd, hk⟩ := free_pages_ok s d k s' h
  rw [free_pages_eq s d k hd hk] at h
  exact free_loop_induct Q hstep MAX_ORDER _ d k s' hd hk (mem_insert_self s d k) h0 h

theorem head_cases (p o : Nat) :
    p / 2 ^ o * 2 ^ o = p / 2 ^ (o + 1) * 2 ^ (o + 1) ∨
    p / 2 ^ o * 2 ^ o = p / 2 ^ (o + 1) * 2 ^ (o + 1) + 2 ^ o := by
  have hdiv : p / 2 ^ (o + 1) = p / 2 ^ o / 2 := by
    rw [pow_succ, Nat.div_div_eq_div_mul]
  rw [hdiv, pow_succ]
  generalize p / 2 ^ o = q
  rcases Nat.mod_two_eq_zero_or_one q with h | h
  · left
    have : q = q / 2 * 2 := by omega
    conv_lhs => rw [this]
    rw [Nat.mul_assoc, Nat.mul_comm 2 (2 ^ o)]
  · right
    have : q = q / 2 * 2 + 1 := by omega
    conv_lhs => rw [this]
    rw [Nat.add_mul, Nat.one_mul, Nat.mul_assoc, Nat.mul_comm 2 (2 ^ o)]

theorem head_aligned (p o : Nat) : p / 2 ^ o * 2 ^ o % 2 ^ o = 0 := Nat.mul_mod_left _ _

theorem head_zero (p : Nat) : p / 2 ^ 0 * 2 ^ 0 = p := by simp

theorem head_covers (p o : Nat) :
    p / 2 ^ o * 2 ^ o ≤ p ∧ p < p / 2 ^ o * 2 ^ o + 2 ^ o := by
  have hpos := two_pow_pos' o
  have h1 := Nat.div_add_mod p (2 ^ o)
  have h2 := Nat.mod_lt p hpos
  rw [Nat.mul_comm] at h1
  omega

/-- The first loop of `reserve_page`, started at an order `n` of the table:
either no order up to `n` has the aligned block around the page in its list, or
the loop stops at the highest such order. -/
theorem reserve_find_spec (s : FreeAreas) (p : Nat) :
    ∀ n, n < MAX_ORDER →
      (reserve_find s p n = .ok none ∧ ∀ i ≤ n, p / 2 ^ i * 2 ^ i ∉ s i) ∨
      ∃ o, o ≤ n ∧ reserve_find s p n = .ok (some o) ∧ p / 2 ^ o * 2 ^ o ∈ s o := by
  intro n
  induction n with
  | zero =>
    intro hn
    by_cases hm : p / 2 ^ 0 * 2 ^ 0 ∈ s 0
    · right
      refine ⟨0, le_refl _, ?_, hm⟩
      simp only [reserve_find, get_block_eq s p 0 hn, hm, bind, Except.bind]
      simp
    · left
      refine ⟨?_, fun i hi => ?_⟩
      · simp only [reserve_find, get_block_eq s p 0 hn, hm, bind, Except.bind]
        simp
      · have : i = 0 := by omega
        rw [this]; exact hm
  | succ n ih =>
    intro hn
    by_cases hm : p / 2 ^ (n + 1) * 2 ^ (n + 1) ∈ s (n + 1)
    · right
      refine ⟨n + 1, le_refl _, ?_, hm⟩
      simp [reserve_find, get_block_eq s p (n + 1) hn, hm, bind, Except.bind]
    · have hstep : reserve_find s p (n + 1) = reserve_find s p n := by
        simp [reserve_find, get_block_eq s p (n + 1) hn, hm, bind, Except.bind]
      rw [hstep]
      rcases ih (by omega) with ⟨he, hall⟩ | ⟨o, ho, he, hmo⟩
      · left
        refine ⟨he, fun i hi => ?_⟩
        by_cases e : i = n + 1
        · rw [e]; exact hm
        · exact hall i (by omega)
      · right
        exact ⟨o, by omega, he, hmo⟩

theorem reserve_split_succ (s : FreeAreas) (p o : Nat) (ho : o + 1 < MAX_ORDER)
    (hm : p / 2 ^ (o + 1) * 2 ^ (o + 1) ∈ s (o + 1)) :
    reserve_split p (o + 1) s =
      reserve_split p o (split_state s o (p / 2 ^ (o + 1) * 2 ^ (o + 1))) := by
  rw [reserve_split]
  simp only [get_block_eq s p (o + 1) ho, hm, if_true, bind, Except.bind, split_block_eq,
    head_aligned, ho, and_self]

/-- The second loop of `reserve_page` always returns: it ends with the page
linked at order 0, keeps I1 and covers no new frame. -/
theorem reserve_split_spec (p : Nat) :
    ∀ (o : Nat) (s : FreeAreas), o < MAX_ORDER → p / 2 ^ o * 2 ^ o ∈ s o →
      ∃ s', reserve_split p o s = .ok s' ∧ p ∈ s' 0 ∧ (I1 s → I1 s') ∧
        ∀ f, covered s' f → covered s f := by
  intro o
  induction o with
  | zero =>
    intro s _ hm
    rw [head_zero] at hm
    exact ⟨s, rfl, hm, id, fun _ h => h⟩
  | succ o ih =>
    intro s ho hm
    rw [reserve_split_succ s p o ho hm]
    have hmem : p / 2 ^ o * 2 ^ o ∈ split_state s o (p / 2 ^ (o + 1) * 2 ^ (o + 1)) o := by
      rw [mem_split_state]
      rcases head_cases p o with e | e
      · exact Or.inl ⟨rfl, Or.inl e⟩
      · exact Or.inl ⟨rfl, Or.inr (Or.inl e)⟩
    obtain ⟨s', he, hp0, hI, hc⟩ := ih _ (by omega) hmem
    exact ⟨s', he, hp0, fun h1 => hI (I1_split s o _ h1 ho hm),
      fun f hf => covered_split s o _ f ho hm (hc f hf)⟩

/-- `reserve_page` always returns.  It returns false and leaves the table alone
when no order has the aligned block around the page in its list; otherwise it
returns true after unlinking the page from a table in which the page is linked
at order 0, reached by splits. -/
theorem reserve_page_cases (s : FreeAreas) (p : Nat) :
    (reserve_page s p = .ok (s, false) ∧ ∀ i < MAX_ORDER, p / 2 ^ i * 2 ^ i ∉ s i) ∨
    ∃ s1, reserve_page s p = .ok (set_area s1 0 ((s1 0).erase p), true) ∧ p ∈ s1 0 ∧
      (I1 s → I1 s1) ∧ (∀ f, covered s1 f → covered s f) ∧
      ∃ o < MAX_ORDER, p / 2 ^ o * 2 ^ o ∈ s o := by
  have h14 : MAX_ORDER - 1 < MAX_ORDER := by decide
  rcases reserve_find_spec s p (MAX_ORDER - 1) h14 with ⟨he, hall⟩ | ⟨o, ho, he, hmo⟩
  · left
    refine ⟨by simp [reserve_page, he, bind, Except.bind], fun i hi => hall i ?_⟩
    have : MAX_ORDER - 1 + 1 = MAX_ORDER := rfl
    omega
  · right
    have ho' : o < MAX_ORDER := by
      have : MAX_ORDER - 1 + 1 = MAX_ORDER := rfl
      omega
    obtain ⟨s1, hs, hp0, hI, hc⟩ := reserve_split_spec p o s ho' hmo
    refine ⟨s1, ?_, hp0, hI, hc, o, ho', hmo⟩
    have h0 : 0 < MAX_ORDER := by decide
    simp [reserve_page, he, hs, bind, Except.bind, is_free_eq s1 p 0 (Nat.mod_one p) h0, hp0,
      remove_block_eq s1 p 0 h0 hp0]

theorem not_covered_of_disjoint (s : FreeAreas) (p : Nat)
    (h : ∀ i < MAX_ORDER, ∀ c ∈ s i, c + 2 ^ i ≤ p ∨ p + 2 ^ 0 ≤ c) : ¬ covered s p := by
  rintro ⟨i, hi, b, hb, h1, h2⟩
  have := h i hi b hb
  simp only [pow_zero] at this
  omega

/-- After a successful `reserve_page` from a table satisfying I1 no free block
contains the page. -/
theorem reserve_page_uncovered (s : FreeAreas) (p : Nat) (s' : FreeAreas) (h1 : I1 s)
    (h : reserve_page s p = .ok (s', true)) : ¬ covered s' p := by
  rcases reserve_page_cases s p with ⟨he, _⟩ | ⟨s1, he, hp0, hI, _, _⟩
  · rw [he] at h; simp at h
  · rw [he] at h
    simp only [Except.ok.injEq, Prod.mk.injEq, and_true] at h
    subst h
    exact not_covered_of_disjoint _ p (erase_disjoint s1 0 p (hI h1) (by decide) hp0)

theorem free_pages_covered (s : FreeAreas) (d k : Nat) (s' : FreeAreas)
    (h : free_pages s d k = .ok s') (f : Nat) (hc : covered s' f) :
    covered s f ∨ (d ≤ f ∧ f < d + 2 ^ k) := by
  obtain ⟨_, _, hQ, _⟩ :=
    free_pages_induct
      (fun s1 _ _ => ∀ f, covered s1 f → covered s f ∨ (d ≤ f ∧ f < d + 2 ^ k))
      s d k s'
      (fun s1 p o hQ hp ho hm hb f hf => hQ f (covered_merge s1 p o f ho hp hm hb hf))
      (fun f hf => covered_insert s k d f hf)
      h
  exact hQ f hc

theorem alloc_pages_covered (beyond : Option Nat) (s : FreeAreas) (k : Nat) (s' : FreeAreas)
    (r : Option Nat) (h : alloc_pages beyond s k = .ok (s', r)) (f : Nat)
    (hc : covered s' f) : covered s f := by
  cases r with
  | none => rw [alloc_pages_none beyond s k s' h] at hc; exact hc
  | some d =>
    obtain ⟨_, _, s1, _, rfl, _, hcov⟩ := alloc_pages_some beyond s k s' d h
    exact hcov f (covered_erase s1 k d f hc)

/-- A block that `alloc_pages` returns was covered by free blocks. -/
theorem alloc_pages_was_covered (beyond : Option Nat) (s : FreeAreas) (k : Nat)
    (s' : FreeAreas) (d : Nat) (h : alloc_pages beyond s k = .ok (s', some d)) (f : Nat)
    (hf : d ≤ f ∧ f < d + 2 ^ k) : covered s f := by
  obtain ⟨hk, _, s1, hm, _, _, hcov⟩ := alloc_pages_some beyond s k s' d h
  exact hcov f ⟨k, hk, d, hm, hf⟩

/-- A frame that no free block covers stays so across calls of `alloc_pages` and
of `free_pages` for blocks that do not contain it. -/
theorem run_ops_uncovered (p : Nat) :
    ∀ (ops : List Op) (s s' : FreeAreas), ¬ covered s p →
      (∀ d k, Op.free d k ∈ ops → ¬ (d ≤ p ∧ p < d + 2 ^ k)) →
      run_ops s ops = .ok s' → ¬ covered s' p := by
  intro ops
  induction ops with
  | nil =>
    intro s s' hc _ h
    simp only [run_ops, Except.ok.injEq] at h
    subst h; exact hc
  | cons op ops ih =>
    intro s s' hc hops h
    simp only [run_ops, bind, Except.bind] at h
    cases h1 : run_op s op with
    | error e => rw [h1] at h; simp at h
    | ok s1 =>
      rw [h1] at h
      simp only at h
      refine ih s1 s' ?_ (fun d k hm => hops d k (List.mem_cons_of_mem _ hm)) h
      cases op with
      | alloc beyond order =>
        simp only [run_op, bind, Except.bind] at h1
        cases h2 : alloc_pages beyond s order with
        | error e => rw [h2] at h1; simp at h1
        | ok r =>
          obtain ⟨sa, ra⟩ := r
          rw [h2] at h1
          simp only [Except.ok.injEq] at h1
          subst h1
          exact fun hc' => hc (alloc_pages_covered beyond s order sa ra h2 p hc')
      | free d k =>
        simp only [run_op] at h1
        intro hc'
        rcases free_pages_covered s d k s1 h1 p hc' with h3 | h3
        · exact hc h3
        · exact hops d k (List.mem_cons_self _ _) h3

/-- Induction over the inner loop of `init`: a property of the table and the
cursor that every insertion keeps holds when the loop ends, with the cursor
advanced by the blocks inserted. -/
theorem init_insert_induct (order : Nat) (ho : order < MAX_ORDER)
    (Q : FreeAreas → Nat → Prop)
    (hstep : ∀ s c, Q s c → Q (set_area s order (insert_sorted c (s order))) (c + 2 ^ order)) :
    ∀ (n : Nat) (s : FreeAreas) (pd : Nat), Q s pd →
      ∃ s', init_insert order n s pd = .ok (s', pd + n * 2 ^ order) ∧
        Q s' (pd + n * 2 ^ order) := by
  intro n
  induction n with
  | zero =>
    intro s pd hQ
    exact ⟨s, by simp [init_insert], by simpa using hQ⟩
  | succ n ih =>
    intro s pd hQ
    obtain ⟨s', he, hQ'⟩ := ih _ _ (hstep s pd hQ)
    have e : pd + 2 ^ order + n * 2 ^ order = pd + (n + 1) * 2 ^ order := by ring
    rw [e] at he hQ'
    refine ⟨s', ?_, hQ'⟩
    simp only [init_insert, insert_block_eq s pd order ho, bind, Except.bind,
      pages_per_block_eq]
    exact he

theorem init_order_eq (s : FreeAreas) (pd nr order : Nat) (s1 : FreeAreas) (pd1 : Nat)
    (h : init_insert order (to_int (nr / 2 ^ order)).toNat s pd = .ok (s1, pd1)) :
    init_order s pd nr order = .ok (s1, pd1,
      (nr + 2 ^ 64 - to_uint64 (to_int (nr / 2 ^ order)) * 2 ^ order % 2 ^ 64) % 2 ^ 64) := by
  simp only [init_order, pages_per_block_eq, h, bind, Except.bind]

/-- A property of the table and the cursor that every insertion of a block at
the cursor keeps, at every order, holds of the table that the loop of `init`
returns; and the loop always returns. -/
theorem init_loop_induct (Q : FreeAreas → Nat → Prop)
    (hstep : ∀ order < MAX_ORDER, ∀ s c, Q s c →
      Q (set_area s order (insert_sorted c (s order))) (c + 2 ^ order)) :
    ∀ (order : Nat) (s : FreeAreas) (pd nr : Nat), order < MAX_ORDER → Q s pd →
      ∃ s' c', init_loop order s pd nr = .ok s' ∧ Q s' c' := by
  intro order
  induction order with
  | zero =>
    intro s pd nr ho hQ
    obtain ⟨s1, he, hQ1⟩ :=
      init_insert_induct 0 ho Q (hstep 0 ho) (to_int (nr / 2 ^ 0)).toNat s pd hQ
    refine ⟨s1, _, ?_, hQ1⟩
    simp only [init_loop, init_order_eq s pd nr 0 s1 _ he, bind, Except.bind]
  | succ order ih =>
    intro s pd nr ho hQ
    obtain ⟨s1, he, hQ1⟩ :=
      init_insert_induct (order + 1) ho Q (hstep (order + 1) ho)
        (to_int (nr / 2 ^ (order + 1))).toNat s pd hQ
    simp only [init_loop, init_order_eq s pd nr (order + 1) s1 _ he, bind, Except.bind]
    split
    · exact ih s1 _ _ (by omega) hQ1
    · exact ⟨s1, _, rfl, hQ1⟩

theorem init_eq (s : FreeAreas) (pd nr : Nat) (hn : 0 < nr) (s' : FreeAreas)
    (h : init_loop (MAX_ORDER - 1) s pd nr = .ok s') : init s pd nr = .ok (s', true) := by
  simp [init, hn, h, bind, Except.bind]

theorem init_ok (s : FreeAreas) (pd nr : Nat) (s' : FreeAreas) (r : Bool)
    (h : init s pd nr = .ok (s', r)) :
    0 < nr ∧ init_loop (MAX_ORDER - 1) s pd nr = .ok s' ∧ r = true := by
  by_cases hn : 0 < nr
  · simp only [init, hn, decide_True, Bool.not_true, Bool.false_eq_true, if_false, bind,
      Except.bind] at h
    cases hl : init_loop (MAX_ORDER - 1) s pd nr with
    | error e => rw [hl] at h; simp at h
    | ok s1 =>
      rw [hl] at h
      simp only [Except.ok.injEq, Prod.mk.injEq] at h
      exact ⟨hn, by rw [h.1], h.2.symm⟩
  · simp [init, hn] at h

/-- `init` on the empty table returns true for every positive count, and the
table it builds satisfies I1: the blocks lie one after the other. -/
theorem init_I1 (base n : Nat) (hn : 0 < n) :
    ∃ s', init empty_areas base n = .ok (s', true) ∧ I1 s' := by
  obtain ⟨s', c', he, hI, _⟩ :=
    init_loop_induct
      (fun s c => I1 s ∧ ∀ i < MAX_ORDER, ∀ b ∈ s i, b + 2 ^ i ≤ c)
      (by
        intro order ho s c ⟨hI, hc⟩
        refine ⟨I1_insert s order c hI ho (fun i hi b hb => Or.inl (hc i hi b hb)), ?_⟩
        intro i hi b hb
        have hpo := two_pow_pos' order
        by_cases e : i = order
        · subst e
          rw [set_area_same, mem_insert_sorted] at hb
          rcases hb with rfl | hb
          · exact le_refl _
          · have := hc i hi b hb; omega
        · rw [set_area_other _ _ _ _ e] at hb
          have := hc i hi b hb; omega)
      (MAX_ORDER - 1) empty_areas base n (by decide)
      ⟨⟨fun j _ => List.nodup_nil, fun j _ k _ b hb => by simp [empty_areas] at hb⟩,
        fun i _ b hb => by simp [empty_areas] at hb⟩
  exact ⟨s', init_eq _ _ _ hn s' he, hI⟩

theorem to_int_toNat_pos (x : Nat) (h : 0 < (to_int x).toNat) : 1 ≤ x := by
  rcases Nat.eq_zero_or_pos x with h0 | h0
  · subst h0; simp [to_int] at h
  · exact h0

theorem to_int_toNat_zero (x : Nat) (h : (to_int x).toNat = 0) :
    to_int x = 0 ∨ 2 ^ 31 ≤ x := by
  unfold to_int at h ⊢
  by_cases hlt : x % 2 ^ 32 < 2 ^ 31
  · left
    rw [if_pos hlt] at h ⊢
    have : x % 2 ^ 32 = 0 := by omega
    rw [this]; rfl
  · right
    have := Nat.mod_le x (2 ^ 32)
    omega

theorem pow_le_top (k : Nat) (hk : k < MAX_ORDER) : 2 ^ k ≤ 2 ^ 14 :=
  Nat.pow_le_pow_right (by norm_num) (by unfold MAX_ORDER at hk; omega)

/-- When a pass of the loop of `init` inserts no block, the count that remains
reaches a power of two of the table only if the count before did. -/
theorem init_remaining_le (nr order k : Nat) (hk : k < MAX_ORDER)
    (h0 : (to_int (nr / 2 ^ order)).toNat = 0)
    (h : 2 ^ k ≤ (nr + 2 ^ 64 - to_uint64 (to_int (nr / 2 ^ order)) * 2 ^ order % 2 ^ 64)
      % 2 ^ 64) : 2 ^ k ≤ nr := by
  rcases to_int_toNat_zero _ h0 with e | e
  · rw [e] at h
    have hz : to_uint64 0 * 2 ^ order % 2 ^ 64 = 0 := by simp [to_uint64]
    rw [hz, Nat.sub_zero, Nat.add_mod_right] at h
    exact le_trans h (Nat.mod_le _ _)
  · have h1 : nr / 2 ^ order ≤ nr := Nat.div_le_self _ _
    have h2 := pow_le_top k hk
    omega

theorem pow_le_of_div_pos (nr order : Nat) (h : 1 ≤ nr / 2 ^ order) : 2 ^ order ≤ nr := by
  by_contra hlt
  rw [Nat.div_eq_of_lt (by omega)] at h
  omega

theorem mod_pow_of_le (c k order : Nat) (hk : k ≤ order) (h : c % 2 ^ order = 0) :
    c % 2 ^ k = 0 := by
  obtain ⟨q, rfl⟩ := Nat.dvd_of_mod_eq_zero h
  obtain ⟨e, rfl⟩ := Nat.exists_eq_add_of_le hk
  rw [pow_add, Nat.mul_assoc]; exact Nat.mul_mod_right _ _

theorem I2_insert (s : FreeAreas) (order c : Nat) (h2 : I2 s) (hc : c % 2 ^ order = 0) :
    I2 (set_area s order (insert_sorted c (s order))) := by
  intro i hi b hb
  by_cases e : i = order
  · subst e
    rw [set_area_same, mem_insert_sorted] at hb
    rcases hb with rfl | hb
    · exact hc
    · exact h2 i hi b hb
  · rw [set_area_other _ _ _ _ e] at hb
    exact h2 i hi b hb

/-- One pass of the loop of `init` at `order` keeps I2 when the cursor is
aligned for every order up to `order` of which a block fits into the count, and
leaves the cursor so for the count that remains. -/
theorem init_order_I2 (s : FreeAreas) (pd nr order : Nat) (ho : order < MAX_ORDER)
    (h2 : I2 s) (hal : ∀ k ≤ order, 2 ^ k ≤ nr → pd % 2 ^ k = 0) :
    ∃ s1 pd1 nr1, init_order s pd nr order = .ok (s1, pd1, nr1) ∧ I2 s1 ∧
      ∀ k < order, 2 ^ k ≤ nr1 → pd1 % 2 ^ k = 0 := by
  by_cases h0 : (to_int (nr / 2 ^ order)).toNat = 0
  · have he : init_insert order (to_int (nr / 2 ^ order)).toNat s pd = .ok (s, pd) := by
      rw [h0]; rfl
    refine ⟨s, pd, _, init_order_eq s pd nr order s pd he, h2, ?_⟩
    intro k hk hle
    exact hal k (by omega) (init_remaining_le nr order k (by omega) h0 hle)
  · have hpos : 0 < (to_int (nr / 2 ^ order)).toNat := Nat.pos_of_ne_zero h0
    have hpd : pd % 2 ^ order = 0 :=
      hal order (le_refl _) (pow_le_of_div_pos nr order (to_int_toNat_pos _ hpos))
    obtain ⟨s1, he, hI, hc⟩ :=
      init_insert_induct order ho (fun s c => I2 s ∧ c % 2 ^ order = 0)
        (fun s c ⟨hs, hc⟩ => ⟨I2_insert s order c hs hc, by rw [Nat.add_mod_right]; exact hc⟩)
        (to_int (nr / 2 ^ order)).toNat s pd ⟨h2, hpd⟩
    refine ⟨s1, _, _, init_order_eq s pd nr order s1 _ he, hI, ?_⟩
    intro k hk _
    exact mod_pow_of_le _ k order (by omega) hc

theorem init_loop_I2 :
    ∀ (order : Nat) (s : FreeAreas) (pd nr : Nat), order < MAX_ORDER → I2 s →
      (∀ k ≤ order, 2 ^ k ≤ nr → pd % 2 ^ k = 0) →
      ∃ s', init_loop order s pd nr = .ok s' ∧ I2 s' := by
  intro order
  induction order with
  | zero =>
    intro s pd nr ho h2 hal
    obtain ⟨s1, pd1, nr1, he, hI, _⟩ := init_order_I2 s pd nr 0 ho h2 hal
    exact ⟨s1, by simp only [init_loop, he, bind, Except.bind], hI⟩
  | succ order ih =>
    intro s pd nr ho h2 hal
    obtain ⟨s1, pd1, nr1, he, hI, hal1⟩ := init_order_I2 s pd nr (order + 1) ho h2 hal
    simp only [init_loop, he, bind, Except.bind]
    split
    · exact ih s1 pd1 nr1 (by omega) hI (fun k hk hle => hal1 k (by omega) hle)
    · exact ⟨s1, rfl, hI⟩

theorem alloc_split_no_fuel (order : Nat) :
    ∀ (j : Nat) (s : FreeAreas) (h : Nat), alloc_split order j s h ≠ .error .fuel := by
  intro j
  induction j with
  | zero => intro s h; simp [alloc_split]
  | succ j ih =>
    intro s h
    rw [alloc_split_succ]
    split
    · split
      · exact ih _ _
      · simp
    · simp

/-- The iteration budget of the search loop is never used up: `alloc_pages`
does not end with `Fault.fuel`. -/
theorem alloc_pages_no_fuel (beyond : Option Nat) (s : FreeAreas) (k : Nat) :
    alloc_pages beyond s k ≠ .error .fuel := by
  by_cases hk : k < MAX_ORDER
  swap
  · have : order_in_range k = false := by
      rw [← Bool.not_eq_true, order_in_range_iff]; exact hk
    simp [alloc_pages, this]
  have hir : order_in_range k = true := (order_in_range_iff _).mpr hk
  simp only [alloc_pages, hir, Bool.not_true, Bool.false_eq_true, if_false, bind,
    Except.bind]
  rcases alloc_search_spec beyond s (MAX_ORDER + 1) k (by omega) (by omega) with
    ⟨he, _⟩ | ⟨j, b, he, _⟩
  · rw [he]; simp
  · rw [he]
    simp only
    cases hsp : alloc_split k j s b with
    | error e =>
      simp only
      intro hc
      injection hc with hc
      subst hc
      exact alloc_split_no_fuel k j s b hsp
    | ok r =>
      obtain ⟨s1, b'⟩ := r
      simp only
      by_cases ha : b' % 2 ^ k = 0
      · rw [is_free_eq s1 b' k ha hk]
        by_cases hm : b' ∈ s1 k
        · simp [hm, remove_block_eq s1 b' k hk hm]
        · simp [hm]
      · have : is_correct_alignment_for_order b' k = false := by
          rw [← Bool.not_eq_true, aligned_iff]; exact ha
        simp [is_free, this]

theorem free_loop_no_fuel :
    ∀ (fuel : Nat) (s : FreeAreas) (p o : Nat), MAX_ORDER ≤ fuel + o →
      p % 2 ^ o = 0 → o < MAX_ORDER → p ∈ s o → free_loop fuel s p o ≠ .error .fuel := by
  intro fuel
  induction fuel with
  | zero =>
    intro s p o h1 _ h3 _
    exact absurd h1 (by omega)
  | succ fuel ih =>
    intro s p o h1 hp ho hm
    rw [free_loop_succ fuel s p o hp ho hm]
    split
    · split
      · split
        · exact ih _ _ _ (by omega) (merged_head_aligned p o hp) (by omega)
            (mem_merge_state_head s p o)
        · simp
      · simp
    · simp

/-- The iteration budget of the merge loop is never used up: `free_pages` does
not end with `Fault.fuel`. -/
theorem free_pages_no_fuel (s : FreeAreas) (d k : Nat) :
    free_pages s d k ≠ .error .fuel := by
  by_cases ha : is_correct_alignment_for_order d k = true
  · by_cases hk : order_in_range k = true
    · have hd := (aligned_iff _ _).mp ha
      have hk' := (order_in_range_iff _).mp hk
      rw [free_pages_eq s d k hd hk']
      exact free_loop_no_fuel MAX_ORDER _ d k (by omega) hd hk' (mem_insert_self s d k)
    · simp [free_pages, ha, hk]
  · simp [free_pages, ha]

theorem insert_sorted_append (c : Nat) (l : List Nat) (h : ∀ b ∈ l, b < c) :
    insert_sorted c l = l ++ [c] := by
  induction l with
  | nil => rfl
  | cons b t ih =>
    have hb : c > b := h b (List.mem_cons_self _ _)
    simp only [insert_sorted, hb, if_true, List.cons_append]
    rw [ih (fun x hx => h x (List.mem_cons_of_mem _ hx))]

theorem to_int_small (x : Nat) (h : x < 2 ^ 31) : to_int x = (x : Int) := by
  unfold to_int
  have : x % 2 ^ 32 = x := Nat.mod_eq_of_lt (by omega)
  rw [this, if_pos h]

theorem to_uint64_small (x : Nat) (h : x < 2 ^ 64) : to_uint64 (x : Int) = x := by
  unfold to_uint64
  omega

/-- The count that remains after a pass of the loop of `init` in which the
quotient fits an `int`. -/
theorem init_remaining_small (nr order : Nat) (hnr : nr < 2 ^ 64)
    (hq : nr / 2 ^ order < 2 ^ 31) :
    (nr + 2 ^ 64 - to_uint64 (to_int (nr / 2 ^ order)) * 2 ^ order % 2 ^ 64) % 2 ^ 64
      = nr % 2 ^ order := by
  rw [to_int_small _ hq, to_uint64_small _ (by omega)]
  have hy : nr / 2 ^ order * 2 ^ order + nr % 2 ^ order = nr := by
    rw [Nat.mul_comm]; exact Nat.div_add_mod nr (2 ^ order)
  generalize nr / 2 ^ order * 2 ^ order = y at hy ⊢
  generalize nr % 2 ^ order = r at hy ⊢
  omega

theorem bit_of_mod (n o : Nat) : n % 2 ^ (o + 1) / 2 ^ o = n / 2 ^ o % 2 := by
  rw [pow_succ]; exact Nat.mod_mul_right_div_self n (2 ^ o) 2

theorem mod_mod_pow_succ (n o : Nat) : n % 2 ^ (o + 1) % 2 ^ o = n % 2 ^ o := by
  rw [pow_succ]; exact Nat.mod_mul_right_mod n (2 ^ o) 2

theorem head_step (n o : Nat) :
    n / 2 ^ o * 2 ^ o = n / 2 ^ (o + 1) * 2 ^ (o + 1) + n / 2 ^ o % 2 * 2 ^ o := by
  have hdiv : n / 2 ^ (o + 1) = n / 2 ^ o / 2 := by
    rw [pow_succ, Nat.div_div_eq_div_mul]
  rw [hdiv, pow_succ]
  generalize n / 2 ^ o = q
  have : q = q / 2 * 2 + q % 2 := by omega
  conv_lhs => rw [this]
  ring

theorem low_bits_zero (n o k : Nat) (h : n % 2 ^ (o + 1) = 0) (hk : k ≤ o) :
    n / 2 ^ k % 2 = 0 := by
  obtain ⟨m, rfl⟩ := Nat.dvd_of_mod_eq_zero h
  obtain ⟨e, rfl⟩ := Nat.exists_eq_add_of_le hk
  have : 2 ^ (k + e + 1) * m = 2 ^ k * (2 * (2 ^ e * m)) := by
    rw [pow_succ, pow_add]; ring
  rw [this, Nat.mul_div_cancel_left _ (two_pow_pos' k)]
  exact Nat.mul_mod_right _ _

theorem packing_low (base n k : Nat) (hk : k < MAX_ORDER - 1) :
    packing base n k =
      if n / 2 ^ k % 2 = 1 then [base + n / 2 ^ (k + 1) * 2 ^ (k + 1)] else [] := by
  have : k ≠ MAX_ORDER - 1 := by omega
  simp [packing, this, hk]

/-- One pass of the loop of `init` below the top order, entered with the blocks
of the higher orders packed: it packs the order it is at. -/
theorem init_order_packing (base n o : Nat) (ho : o < MAX_ORDER - 1) (s : FreeAreas)
    (hlow : s o = []) :
    init_order s (base + n / 2 ^ (o + 1) * 2 ^ (o + 1)) (n % 2 ^ (o + 1)) o =
      .ok (set_area s o (packing base n o), base + n / 2 ^ o * 2 ^ o, n % 2 ^ o) := by
  have ho' : o < MAX_ORDER := by omega
  have hbit : n % 2 ^ (o + 1) / 2 ^ o = n / 2 ^ o % 2 := bit_of_mod n o
  have hlt2 : n / 2 ^ o % 2 < 2 := Nat.mod_lt _ (by norm_num)
  have hnr : n % 2 ^ (o + 1) < 2 ^ 64 := by
    have h1 : n % 2 ^ (o + 1) < 2 ^ (o + 1) := Nat.mod_lt _ (two_pow_pos' _)
    have h2 : 2 ^ (o + 1) ≤ 2 ^ 14 :=
      Nat.pow_le_pow_right (by norm_num) (by unfold MAX_ORDER at ho; omega)
    omega
  have hrem := init_remaining_small (n % 2 ^ (o + 1)) o hnr (by rw [hbit]; omega)
  rw [mod_mod_pow_succ] at hrem
  have hins : init_insert o (to_int (n % 2 ^ (o + 1) / 2 ^ o)).toNat s
      (base + n / 2 ^ (o + 1) * 2 ^ (o + 1)) =
      .ok (set_area s o (packing base n o), base + n / 2 ^ o * 2 ^ o) := by
    rw [hbit, to_int_small _ (by omega), Int.toNat_ofNat, packing_low base n o ho,
      head_step n o]
    rcases Nat.mod_two_eq_zero_or_one (n / 2 ^ o) with h0 | h1
    · rw [h0]
      simp only [init_insert, Nat.zero_mul, Nat.add_zero, Nat.zero_ne_one, if_false]
      rw [← hlow, set_area_self]
    · rw [h1]
      simp only [init_insert, insert_block_eq _ _ _ ho', bind, Except.bind, hlow,
        insert_sorted, pages_per_block_eq, Nat.one_mul, if_true, Nat.add_assoc]
  rw [init_order_eq _ _ _ _ _ _ hins, hrem]

theorem init_loop_packing (base n : Nat) :
    ∀ (o : Nat) (s : FreeAreas), o < MAX_ORDER - 1 → (∀ k, k ≤ o → s k = []) →
      (∀ k, o < k → s k = packing base n k) →
      init_loop o s (base + n / 2 ^ (o + 1) * 2 ^ (o + 1)) (n % 2 ^ (o + 1))
        = .ok (packing base n) := by
  intro o
  induction o with
  | zero =>
    intro s ho hlow hhigh
    simp only [init_loop, init_order_packing base n 0 ho s (hlow 0 (le_refl _)), bind,
      Except.bind]
    congr 1
    funext k
    by_cases e : k = 0
    · subst e; rw [set_area_same]
    · rw [set_area_other _ _ _ _ e]; exact hhigh k (by omega)
  | succ o ih =>
    intro s ho hlow hhigh
    simp only [init_loop, init_order_packing base n (o + 1) ho s (hlow _ (le_refl _)), bind,
      Except.bind]
    split
    · apply ih _ (by omega)
      · intro k hk
        rw [set_area_other _ _ _ _ (by omega)]
        exact hlow k (by omega)
      · intro k hk
        by_cases e : k = o + 1
        · subst e; rw [set_area_same]
        · rw [set_area_other _ _ _ _ e]; exact hhigh k (by omega)
    · rename_i hz
      have hz' : n % 2 ^ (o + 1) = 0 := by omega
      congr 1
      funext k
      by_cases e : k = o + 1
      · subst e; rw [set_area_same]
      · rw [set_area_other _ _ _ _ e]
        by_cases hk : k ≤ o
        · rw [hlow k (by omega), packing_low base n k (by omega),
            low_bits_zero n o k hz' hk]
          simp
        · exact hhigh k (by omega)

/-- The run of top-order blocks that the first pass of `init` inserts. -/
theorem init_insert_top (base : Nat) (q : Nat) :
    init_insert (MAX_ORDER - 1) q empty_areas base =
      .ok (set_area empty_areas (MAX_ORDER - 1)
        ((List.range q).map (fun i => base + i * 2 ^ (MAX_ORDER - 1))),
        base + q * 2 ^ (MAX_ORDER - 1)) := by
  obtain ⟨s', he, i, hc, hs⟩ :=
    init_insert_induct (MAX_ORDER - 1) (by decide)
      (fun s c => ∃ i, c = base + i * 2 ^ (MAX_ORDER - 1) ∧
        s = set_area empty_areas (MAX_ORDER - 1)
          ((List.range i).map (fun i => base + i * 2 ^ (MAX_ORDER - 1))))
      (by
        rintro s c ⟨i, rfl, rfl⟩
        refine ⟨i + 1, by ring, ?_⟩
        rw [set_area_same, set_area_twice, insert_sorted_append, List.range_succ,
          List.map_append]
        · rfl
        · intro b hb
          simp only [List.mem_map, List.mem_range] at hb
          obtain ⟨j, hj, rfl⟩ := hb
          have := Nat.mul_lt_mul_of_pos_right hj (two_pow_pos' (MAX_ORDER - 1))
          omega)
      q empty_areas base ⟨0, by simp, by
        funext k
        by_cases e : k = MAX_ORDER - 1 <;> simp [set_area, e, empty_areas]⟩
  have hi : i = q := by
    have := Nat.add_left_cancel hc
    exact (Nat.eq_of_mul_eq_mul_right (two_pow_pos' (MAX_ORDER - 1)) this).symm
  subst hi
  rw [he, hs]

/-- Greedy packing by `init`: for a count below `2^45` (no quotient overflows
an `int`), `init` on the empty table returns true and builds exactly the
packing of the spec. -/
theorem init_packing (base n : Nat) (hn : 0 < n) (hlt : n < 2 ^ 45) :
    init empty_areas base n = .ok (packing base n, true) := by
  apply init_eq _ _ _ hn
  have hq : n / 2 ^ (MAX_ORDER - 1) < 2 ^ 31 := by
    show n / 2 ^ 14 < 2 ^ 31
    omega
  have hrem := init_remaining_small n (MAX_ORDER - 1) (by omega) hq
  have hins : init_insert (MAX_ORDER - 1) (to_int (n / 2 ^ (MAX_ORDER - 1))).toNat
      empty_areas base =
      .ok (set_area empty_areas (MAX_ORDER - 1)
        ((List.range (n / 2 ^ (MAX_ORDER - 1))).map (fun i => base + i * 2 ^ (MAX_ORDER - 1))),
        base + n / 2 ^ (MAX_ORDER - 1) * 2 ^ (MAX_ORDER - 1)) := by
    rw [to_int_small _ hq, Int.toNat_ofNat]
    exact init_insert_top base (n / 2 ^ (MAX_ORDER - 1))
  have h13 : MAX_ORDER - 1 = 13 + 1 := rfl
  have hstep : init_loop (MAX_ORDER - 1) empty_areas base n =
      (if n % 2 ^ (MAX_ORDER - 1) > 0 then
        init_loop 13 (set_area empty_areas (MAX_ORDER - 1) (packing base n (MAX_ORDER - 1)))
          (base + n / 2 ^ (MAX_ORDER - 1) * 2 ^ (MAX_ORDER - 1)) (n % 2 ^ (MAX_ORDER - 1))
      else .ok (set_area empty_areas (MAX_ORDER - 1) (packing base n (MAX_ORDER - 1)))) := by
    have hp : packing base n (MAX_ORDER - 1) =
        (List.range (n / 2 ^ (MAX_ORDER - 1))).map
          (fun i => base + i * 2 ^ (MAX_ORDER - 1)) := by
      simp [packing]
    conv_lhs => rw [h13]
    rw [init_loop]
    simp only [← h13, init_order_eq _ _ _ _ _ _ hins, hrem, bind, Except.bind, hp]
  rw [hstep]
  split
  · rw [h13]
    apply init_loop_packing base n 13 _ (by decide)
    · intro k hk
      rw [set_area_other _ _ _ _ (by omega)]; rfl
    · intro k hk
      by_cases e : k = 13 + 1
      · subst e; rw [set_area_same]
      · rw [set_area_other _ _ _ _ e]
        have h1 : k ≠ MAX_ORDER - 1 := e
        have h2 : ¬ k < MAX_ORDER - 1 := by omega
        simp [packing, h1, h2, empty_areas]
  · rename_i hz
    have hz' : n % 2 ^ (13 + 1) = 0 := by
      rw [← h13]; omega
    congr 1
    funext k
    by_cases e : k = MAX_ORDER - 1
    · subst e; rw [set_area_same]
    · rw [set_area_other _ _ _ _ e]
      by_cases hk : k ≤ 13
      · rw [packing_low base n k (by omega), low_bits_zero n 13 k hz' hk]
        simp [empty_areas]
      · have h2 : ¬ k < MAX_ORDER - 1 := by omega
        simp [packing, e, h2, empty_areas]

/-- C1: under I1, I2 and I4, a descriptor returned by `alloc_pages` for a valid
order `k` has a frame number that is a multiple of `2^k`, and its frame range
overlaps no block left in any free list after the call. -/
theorem alloc_pages_aligned_disjoint (beyond : Option Nat) (s : FreeAreas) (k : Nat)
    (s' : FreeAreas) (d : Nat) (h1 : I1 s) (_h2 : I2 s) (_h4 : I4 s) (_hk : k < MAX_ORDER)
    (h : alloc_pages beyond s k = .ok (s', some d)) :
    d % 2 ^ k = 0 ∧ ∀ j < MAX_ORDER, ∀ b ∈ s' j, b + 2 ^ j ≤ d ∨ d + 2 ^ k ≤ b := by
  obtain ⟨hk, ha, s1, hm, rfl, hI, _⟩ := alloc_pages_some beyond s k s' d h
  exact ⟨ha, erase_disjoint s1 k d (hI h1) hk hm⟩

/-- C1 at a concrete table: a request of order 0 served from the order-2 block at
frame 4. -/
theorem alloc_pages_aligned_disjoint_witness :
    ∃ s', alloc_pages none (areas_of [[], [], [4], [8]]) 0 = .ok (s', some 4) ∧
      (4 % 2 ^ 0 = 0 ∧ ∀ j < MAX_ORDER, ∀ b ∈ s' j, b + 2 ^ j ≤ 4 ∨ 4 + 2 ^ 0 ≤ b) :=
  ⟨_, rfl, alloc_pages_aligned_disjoint none (areas_of [[], [], [4], [8]]) 0 _ 4
    (by decide) (by decide) (by decide) (by decide) rfl⟩

/-- At the top order, `free_pages` of an aligned block whose neighbour is in the
top list fails the range assertion of `insert_block`, whatever the table. -/
theorem free_pages_top_merge_fault (s : FreeAreas) (d : Nat)
    (hd : d % 2 ^ 14 = 0) (hb : d ^^^ 2 ^ 14 ∈ s 14) :
    free_pages s d 14 = .error .assertion := by
  have hk : 14 < MAX_ORDER := by decide
  rw [free_pages_eq s d 14 hd hk]
  show free_loop (14 + 1) _ d 14 = _
  rw [free_loop_succ _ _ d 14 hd hk (mem_insert_self s d 14)]
  have hb' : d ^^^ 2 ^ 14 ∈ set_area s 14 (insert_sorted d (s 14)) 14 := by
    rw [set_area_same, mem_insert_sorted]; exact Or.inr hb
  rw [if_pos hb', if_neg (by decide)]

/-- C2: at the top order `free_pages` does try to merge.  After `init` with
`2 * 2^14` frames and `alloc_pages(14)`, which returns frame 0, the table
satisfies I1-I4 and no free block covers the frames of the returned block, yet
`free_pages(0, 14)` finds the neighbour at frame 16384 free, unlinks both blocks
and fails the range assertion of `insert_block` at order `MAX_ORDER`. -/
theorem free_pages_top_order_fault :
    ∃ s0 s1, init empty_areas 0 32768 = .ok (s0, true) ∧
      alloc_pages none s0 14 = .ok (s1, some 0) ∧
      (I1 s1 ∧ I2 s1 ∧ I3 s1 ∧ I4 s1) ∧
      (∀ i < MAX_ORDER, ∀ b ∈ s1 i, b + 2 ^ i ≤ 0 ∨ 0 + 2 ^ 14 ≤ b) ∧
      s1 14 = [16384] ∧
      free_pages s1 0 14 = .error .assertion :=
  ⟨_, _, rfl, rfl, ⟨by decide, by decide, by decide, by decide⟩, by decide, rfl, rfl⟩

theorem mem_erase_erase (l : List Nat) (hnd : l.Nodup) (x y b : Nat)
    (hb : b ∈ (l.erase x).erase y) : b ∈ l ∧ b ≠ x ∧ b ≠ y := by
  have h1 := (hnd.erase x).mem_erase_iff.mp hb
  have h2 := hnd.mem_erase_iff.mp h1.2
  exact ⟨h2.2, h2.1, h1.1⟩

/-- C3: merge completeness.  From a table satisfying I1-I4, a `free_pages` call
that returns, for an aligned block of a valid order that overlaps no free block,
leaves no block of an order `j` with `j + 1 < MAX_ORDER` whose buddy (the block
at its frame number XOR `2^j`) is in the same list. -/
theorem free_pages_merge_complete (s : FreeAreas) (d k : Nat) (s' : FreeAreas)
    (h1 : I1 s) (_h2 : I2 s) (h3 : I3 s) (_h4 : I4 s) (hk : k < MAX_ORDER)
    (_hd : d % 2 ^ k = 0)
    (hfree : ∀ i < MAX_ORDER, ∀ b ∈ s i, b + 2 ^ i ≤ d ∨ d + 2 ^ k ≤ b)
    (h : free_pages s d k = .ok s') :
    ∀ j, j + 1 < MAX_ORDER → ∀ b ∈ s' j, (b ^^^ 2 ^ j) ∉ s' j := by
  obtain ⟨p', o', ⟨_, hQ⟩, _, _, _, _, hstop⟩ :=
    free_pages_induct
      (fun s p o => I1 s ∧ ∀ j < MAX_ORDER - 1, ∀ b ∈ s j, b ^^^ 2 ^ j ∈ s j →
        j = o ∧ (b = p ∨ b ^^^ 2 ^ j = p))
      s d k s'
      (by
        intro s p o ⟨hI, hQ⟩ hp ho hm hb
        refine ⟨I1_merge s p o hI ho hp hm hb, ?_⟩
        intro j hj b hbj hbj'
        rw [mem_merge_state] at hbj hbj'
        rcases hbj with ⟨rfl, hbj⟩ | ⟨rfl, hbj⟩ | ⟨n1, n2, hbj⟩
        · rcases hbj with rfl | hbj
          · exact ⟨rfl, Or.inl rfl⟩
          · rcases hbj' with ⟨_, hbj'⟩ | ⟨e, _⟩ | ⟨_, n2, _⟩
            · rcases hbj' with e | hbj'
              · exact ⟨rfl, Or.inr e⟩
              · have := (hQ (o + 1) hj b hbj hbj').1
                omega
            · omega
            · exact absurd rfl n2
        · rcases hbj' with ⟨e, _⟩ | ⟨_, hbj'⟩ | ⟨n1, _, _⟩
          · omega
          · have hnd := hI.1 j (by omega)
            have e1 := mem_erase_erase _ hnd _ _ _ hbj
            have e2 := mem_erase_erase _ hnd _ _ _ hbj'
            rcases (hQ j hj b e1.1 e2.1).2 with e | e
            · exact absurd e e1.2.2
            · exact absurd e e2.2.2
          · exact absurd rfl n1
        · rcases hbj' with ⟨e, _⟩ | ⟨e, _⟩ | ⟨_, _, hbj'⟩
          · exact absurd e n2
          · exact absurd e n1
          · exact absurd (hQ j hj b hbj hbj').1 n1)
      (by
        refine ⟨I1_insert s k d h1 hk hfree, ?_⟩
        intro j hj b hbj hbj'
        by_cases e : j = k
        · subst e
          rw [set_area_same, mem_insert_sorted] at hbj hbj'
          rcases hbj with rfl | hbj
          · exact ⟨rfl, Or.inl rfl⟩
          · rcases hbj' with e | hbj'
            · exact ⟨rfl, Or.inr e⟩
            · exact absurd hbj' (h3 j hj b hbj)
        · rw [set_area_other _ _ _ _ e] at hbj hbj'
          exact absurd hbj' (h3 j hj b hbj))
      h
  intro j hj b hbj hbj'
  have hj' : j < MAX_ORDER - 1 := by
    have : MAX_ORDER - 1 + 1 = MAX_ORDER := rfl
    omega
  obtain ⟨rfl, hcase⟩ := hQ j hj' b hbj hbj'
  rcases hstop with hstop | ⟨e, _⟩
  · rcases hcase with rfl | e
    · exact hstop hbj'
    · apply hstop
      rw [← e, Nat.xor_cancel_right]
      exact hbj
  · omega

/-- C3 at a concrete table: freeing frame 0 at order 0 next to the free frame 1
and the free order-1 block at frame 2 merges twice. -/
theorem free_pages_merge_complete_witness :
    ∃ s', free_pages (areas_of [[1], [2]]) 0 0 = .ok s' ∧
      ∀ j, j + 1 < MAX_ORDER → ∀ b ∈ s' j, (b ^^^ 2 ^ j) ∉ s' j :=
  ⟨_, rfl, free_pages_merge_complete (areas_of [[1], [2]]) 0 0 _
    (by decide) (by decide) (by decide) (by decide) (by decide) (by decide) (by decide) rfl⟩

theorem merged_head_eq_head (d p o : Nat) (hp : p = d / 2 ^ o * 2 ^ o) :
    merged_head p o = d / 2 ^ (o + 1) * 2 ^ (o + 1) := by
  have hal : p % 2 ^ o = 0 := by rw [hp]; exact Nat.mul_mod_left _ _
  have hdiv : d / 2 ^ (o + 1) = d / 2 ^ o / 2 := by
    rw [pow_succ, Nat.div_div_eq_div_mul]
  have hmod : p % 2 ^ (o + 1) = 2 ^ o * (d / 2 ^ o % 2) := by
    rw [hp, pow_succ, Nat.mul_comm (d / 2 ^ o) (2 ^ o), Nat.mul_mod_mul_left]
  have hpos := two_pow_pos' o
  rw [hdiv, pow_succ]
  generalize d / 2 ^ o = q at hp hmod
  have hq : q = 2 * (q / 2) + q % 2 := by omega
  rcases buddy_cases p o hal with ⟨h0, _, hmh⟩ | ⟨h0, hle, _, hmh⟩
  · rw [hmh, hp]
    rw [h0] at hmod
    have hq0 : q % 2 = 0 := by
      rcases Nat.mul_eq_zero.mp hmod.symm with h | h
      · omega
      · exact h
    have : q = q / 2 * 2 := by omega
    conv_lhs => rw [this]
    rw [Nat.mul_assoc, Nat.mul_comm 2 (2 ^ o)]
  · rw [hmh, hp]
    have hq1 : q % 2 = 1 := by
      rcases Nat.mod_two_eq_zero_or_one q with h | h
      · rw [h, Nat.mul_zero] at hmod; exact absurd hmod h0
      · exact h
    have : q = q / 2 * 2 + 1 := by omega
    conv_lhs => rw [this]
    rw [Nat.add_mul, Nat.one_mul, Nat.add_sub_cancel, Nat.mul_assoc, Nat.mul_comm 2 (2 ^ o)]

/-- C4 as stated fails: from the table with one order-1 block at frame 0,
`alloc_pages(0)` returns frame 0 and leaves frame 1 free; `free_pages(0, 0)`
then merges the two, and `is_free(0, 0)` is false. -/
theorem alloc_free_is_free_counterexample :
    ∃ s1 s2, (I1 (areas_of [[], [0]]) ∧ I2 (areas_of [[], [0]]) ∧
        I3 (areas_of [[], [0]]) ∧ I4 (areas_of [[], [0]])) ∧
      alloc_pages none (areas_of [[], [0]]) 0 = .ok (s1, some 0) ∧
      free_pages s1 0 0 = .ok s2 ∧ is_free s2 0 0 = .ok false :=
  ⟨_, _, ⟨by decide, by decide, by decide, by decide⟩, rfl, rfl, rfl⟩

/-- C4, amended: under I1-I4, after `alloc_pages(k)` has returned `d`,
`free_pages(d, k)` returns whenever `k + 1 < MAX_ORDER`; and whenever it returns,
the frames of `d` are free again at some order `m ≥ k` (`is_free` holds of the
order-`m` block that contains `d`), while `is_free(d, k)` itself is true exactly
when the buddy of `d` was not in the order-`k` list after the allocation. -/
theorem alloc_free_round_trip (beyond : Option Nat) (s : FreeAreas) (k : Nat)
    (s1 : FreeAreas) (d : Nat) (h1 : I1 s) (_h2 : I2 s) (_h3 : I3 s) (_h4 : I4 s)
    (_hk : k < MAX_ORDER) (h : alloc_pages beyond s k = .ok (s1, some d)) :
    (k + 1 < MAX_ORDER → ∃ s2, free_pages s1 d k = .ok s2) ∧
    ∀ s2, free_pages s1 d k = .ok s2 →
      (∃ m, k ≤ m ∧ m < MAX_ORDER ∧ is_free s2 (d / 2 ^ m * 2 ^ m) m = .ok true) ∧
      (is_free s2 d k = .ok true ↔ (d ^^^ 2 ^ k) ∉ s1 k) := by
  obtain ⟨hk, ha, sx, hm, rfl, hI, _⟩ := alloc_pages_some beyond s k s1 d h
  have hnd : (sx k).Nodup := (hI h1).1 k hk
  have hd1 : d ∉ set_area sx k ((sx k).erase d) k := by
    rw [set_area_same]
    intro hc
    exact (hnd.mem_erase_iff.mp hc).1 rfl
  generalize set_area sx k ((sx k).erase d) = s1 at hd1
  refine ⟨fun hk1 => free_pages_total s1 d k ha hk1, ?_⟩
  intro s2 hf
  obtain ⟨p', o', ⟨hp', hQ⟩, hko, ho', hmem, hal, hstop⟩ :=
    free_pages_induct
      (fun s p o => p = d / 2 ^ o * 2 ^ o ∧
        ((o = k ∧ p = d ∧ s = set_area s1 k (insert_sorted d (s1 k))) ∨
         (k < o ∧ d ∉ s k ∧ d ^^^ 2 ^ k ∈ s1 k)))
      s1 d k s2
      (by
        intro s p o ⟨hp, hQ⟩ _ _ _ hb
        refine ⟨merged_head_eq_head d p o hp, Or.inr ?_⟩
        rcases hQ with ⟨rfl, rfl, rfl⟩ | ⟨hlt, hd, hb1⟩
        · rw [set_area_same, mem_insert_sorted] at hb
          have hb1 : p ^^^ 2 ^ o ∈ s1 o := by
            rcases hb with e | hb
            · exact absurd e (xor_ne_self p o)
            · exact hb
          refine ⟨by omega, ?_, hb1⟩
          have hne : o ≠ o + 1 := by omega
          simp only [merge_state, set_area_other _ _ _ _ hne, set_area_same]
          rw [List.erase_comm, erase_insert_sorted]
          exact fun hc => hd1 (List.mem_of_mem_erase hc)
        · refine ⟨by omega, ?_, hb1⟩
          have n1 : k ≠ o + 1 := by omega
          have n2 : k ≠ o := by omega
          simp only [merge_state, set_area_other _ _ _ _ n1, set_area_other _ _ _ _ n2]
          exact hd)
      ⟨by
        obtain ⟨q, hq⟩ := Nat.dvd_of_mod_eq_zero ha
        rw [hq, Nat.mul_comm, Nat.mul_div_cancel _ (two_pow_pos' k)],
       Or.inl ⟨rfl, rfl, rfl⟩⟩
      hf
  refine ⟨⟨o', hko, ho', ?_⟩, ?_⟩
  · rw [← hp', is_free_eq s2 p' o' hal ho']
    simp [hmem]
  · rw [is_free_eq s2 d k ha hk]
    rcases hQ with ⟨rfl, rfl, rfl⟩ | ⟨hlt, hd, hb1⟩
    · rcases hstop with hstop | ⟨_, hlt⟩
      · simp only [hmem, decide_True, true_iff]
        intro hc
        apply hstop
        rw [set_area_same, mem_insert_sorted]
        exact Or.inr hc
      · omega
    · simp [hd, hb1]

/-- The amended C4 at a concrete table: the order-0 block at frame 0 comes from
the order-1 block at frame 0, and freeing it merges it back. -/
theorem alloc_free_round_trip_witness :
    ∃ s1, alloc_pages none (areas_of [[], [0]]) 0 = .ok (s1, some 0) ∧
      ((0 + 1 < MAX_ORDER → ∃ s2, free_pages s1 0 0 = .ok s2) ∧
      ∀ s2, free_pages s1 0 0 = .ok s2 →
        (∃ m, 0 ≤ m ∧ m < MAX_ORDER ∧ is_free s2 (0 / 2 ^ m * 2 ^ m) m = .ok true) ∧
        (is_free s2 0 0 = .ok true ↔ (0 ^^^ 2 ^ 0) ∉ s1 0)) :=
  ⟨_, rfl, alloc_free_round_trip none (areas_of [[], [0]]) 0 _ 0
    (by decide) (by decide) (by decide) (by decide) (by decide) rfl⟩

/-- With the lists of the orders `k .. MAX_ORDER-1` empty, `alloc_pages(k)` reads
the word after the table: it returns NULL and leaves the table alone when that
word is null, and fails an assertion of `split_block` when it is not. -/
theorem alloc_pages_all_empty (beyond : Option Nat) (s : FreeAreas) (k : Nat)
    (hk : k < MAX_ORDER) (hempty : ∀ i, k ≤ i → i < MAX_ORDER → s i = []) :
    alloc_pages beyond s k =
      match beyond with
      | none => .ok (s, none)
      | some _ => .error .assertion := by
  have hir : order_in_range k = true := (order_in_range_iff _).mpr hk
  have hread : ∀ i, k ≤ i → i < MAX_ORDER → read_area beyond s i = none := by
    intro i h1 h2
    simp [read_area, h2, hempty i h1 h2]
  have hlast : read_area beyond s MAX_ORDER = beyond := by simp [read_area]
  simp only [alloc_pages, hir, Bool.not_true, Bool.false_eq_true, if_false, bind,
    Except.bind]
  rcases alloc_search_spec beyond s (MAX_ORDER + 1) k (by omega) (by omega) with
    ⟨he, hall⟩ | ⟨j, b, he, h4, h5, h6, _⟩
  · rw [he]
    have := hall MAX_ORDER (by omega) (le_refl _)
    rw [hlast] at this
    subst this
    rfl
  · rw [he]
    have hj : j = MAX_ORDER := by
      by_contra hne
      have := hread j h4 (by omega)
      rw [this] at h6
      cases h6
    subst hj
    rw [hlast] at h6
    subst h6
    have hkj : MAX_ORDER - 1 + 1 = MAX_ORDER := rfl
    have hgt : MAX_ORDER - 1 + 1 > k := by omega
    simp only
    rw [← hkj, alloc_split_succ, if_pos hgt, if_neg (by omega)]

/-- C6: out of memory.  After `init` with one frame and one `alloc_pages(0)`,
which returns frame 0, every free list is empty and I1-I4 hold.  The next
`alloc_pages(0)` runs its search up to index `MAX_ORDER` and reads the word after
the table; when that word is not null the block "found" there is handed to
`split_block` at order `MAX_ORDER`, whose assertion fails.  Only when the word
is null does the call return NULL and leave the table unchanged. -/
theorem alloc_pages_empty_fault :
    ∃ s0 s1, init empty_areas 0 1 = .ok (s0, true) ∧
      alloc_pages (some 1) s0 0 = .ok (s1, some 0) ∧
      (I1 s1 ∧ I2 s1 ∧ I3 s1 ∧ I4 s1) ∧
      (∀ i < MAX_ORDER, s1 i = []) ∧
      alloc_search (some 1) s1 (MAX_ORDER + 1) 0 (read_area (some 1) s1 0)
        = .ok (some (MAX_ORDER, 1)) ∧
      alloc_pages (some 1) s1 0 = .error .assertion ∧
      alloc_pages none s1 0 = .ok (s1, none) :=
  ⟨_, _, rfl, rfl, ⟨by decide, by decide, by decide, by decide⟩, by decide, rfl, rfl, rfl⟩

/-- C7: from a table satisfying I1-I4, `reserve_page(p)` returns false and
leaves the table unchanged when no order has the aligned block around `p` in its
free list; in particular a second `reserve_page(p)` right after a successful one
returns false. -/
theorem reserve_page_not_free (s : FreeAreas) (p : Nat)
    (h1 : I1 s) (_h2 : I2 s) (_h3 : I3 s) (_h4 : I4 s) :
    ((∀ k < MAX_ORDER, p / 2 ^ k * 2 ^ k ∉ s k) → reserve_page s p = .ok (s, false)) ∧
    ∀ s1, reserve_page s p = .ok (s1, true) → reserve_page s1 p = .ok (s1, false) := by
  refine ⟨fun hall => ?_, fun s1 h => ?_⟩
  · rcases reserve_page_cases s p with ⟨he, _⟩ | ⟨_, _, _, _, _, o, ho, hmo⟩
    · exact he
    · exact absurd hmo (hall o ho)
  · have hc : ¬ covered s1 p := reserve_page_uncovered s p s1 h1 h
    rcases reserve_page_cases s1 p with ⟨he, _⟩ | ⟨_, _, _, _, _, o, ho, hmo⟩
    · exact he
    · exact absurd ⟨o, ho, _, hmo, head_covers p o⟩ hc

/-- C7 at a concrete table: frame 3 lies in no free block, and frame 13 is
reserved twice in a row. -/
theorem reserve_page_not_free_witness :
    reserve_page (areas_of [[], [], [], [8]]) 3 = .ok (areas_of [[], [], [], [8]], false) ∧
    ∃ s1, reserve_page (areas_of [[], [], [], [8]]) 13 = .ok (s1, true) ∧
      reserve_page s1 13 = .ok (s1, false) :=
  ⟨(reserve_page_not_free (areas_of [[], [], [], [8]]) 3
      (by decide) (by decide) (by decide) (by decide)).1 (by decide),
   _, rfl, (reserve_page_not_free (areas_of [[], [], [], [8]]) 13
      (by decide) (by decide) (by decide) (by decide)).2 _ rfl⟩

/-- The count of blocks of one order is held in an `int`, which bounds the
counts that `init` packs.  For `2^45` frames at base frame 0 (more frames than a
machine has) the quotient `2^45 / 2^14 = 2^31` wraps to a negative `int`: `init`
inserts no block at all, returns true and leaves every list empty.  (For 10
frames the packing is the one expected: an order-3 block at frame 0 and an
order-1 block at frame 8.) -/
theorem init_count_overflow :
    (2 ^ 45 / 2 ^ (MAX_ORDER - 1) = 2 ^ 31 ∧ to_int (2 ^ 45 / 2 ^ (MAX_ORDER - 1)) = -2 ^ 31) ∧
    init empty_areas 0 (2 ^ 45) = .ok (empty_areas, true) ∧
    ∃ s', init empty_areas 0 10 = .ok (s', true) ∧
      (List.range MAX_ORDER).map s' =
        [[], [8], [], [0], [], [], [], [], [], [], [], [], [], [], []] :=
  ⟨⟨by decide, by decide⟩, rfl, _, rfl, rfl⟩

/-- C9 as stated fails: two frames starting at frame 1 are packed as an order-1
block at frame 1, which is not a multiple of 2. -/
theorem init_unaligned_base_counterexample :
    ∃ s', init empty_areas 1 2 = .ok (s', true) ∧ s' 1 = [1] ∧ ¬ (1 % 2 ^ 1 = 0) :=
  ⟨_, rfl, rfl, by decide⟩

/-- C9, amended: for every count `n > 0` and every base frame number that is a
multiple of `2^k` for each order `k` of the table with `2^k ≤ n`, `init` on the
empty table returns true, and every head in the order-`k` list is a multiple of
`2^k`. -/
theorem init_aligned (base n : Nat) (hn : 0 < n)
    (hbase : ∀ k < MAX_ORDER, 2 ^ k ≤ n → base % 2 ^ k = 0) :
    ∃ s', init empty_areas base n = .ok (s', true) ∧
      ∀ k < MAX_ORDER, ∀ b ∈ s' k, b % 2 ^ k = 0 := by
  obtain ⟨s', he, hI⟩ :=
    init_loop_I2 (MAX_ORDER - 1) empty_areas base n (by decide)
      (fun k _ b hb => by simp [empty_areas] at hb)
      (fun k hk hle => hbase k (by
        have : MAX_ORDER - 1 + 1 = MAX_ORDER := rfl
        omega) hle)
  exact ⟨s', init_eq _ _ _ hn s' he, hI⟩

/-- The amended C9 at ten frames starting at frame 8. -/
theorem init_aligned_witness :
    ∃ s', init empty_areas 8 10 = .ok (s', true) ∧
      ∀ k < MAX_ORDER, ∀ b ∈ s' k, b % 2 ^ k = 0 :=
  init_aligned 8 10 (by decide) (by decide)

/-- C10: I1 is an invariant.  `init` on the empty table returns a table that
satisfies I1; and from a table satisfying I1, I2 and I4, the table left by a
returning `alloc_pages`, `reserve_page`, or `free_pages` of an aligned block
that overlaps no free block satisfies I1 again: no block is linked twice and no
two blocks overlap. -/
theorem I1_invariant (s : FreeAreas) (h1 : I1 s) (_h2 : I2 s) (_h4 : I4 s) :
    (∀ base n, 0 < n → ∃ s', init empty_areas base n = .ok (s', true) ∧ I1 s') ∧
    (∀ beyond k s' r, alloc_pages beyond s k = .ok (s', r) → I1 s') ∧
    (∀ p s' r, reserve_page s p = .ok (s', r) → I1 s') ∧
    (∀ d k s', d % 2 ^ k = 0 →
      (∀ i < MAX_ORDER, ∀ b ∈ s i, b + 2 ^ i ≤ d ∨ d + 2 ^ k ≤ b) →
      free_pages s d k = .ok s' → I1 s') := by
  refine ⟨fun base n hn => init_I1 base n hn, ?_, ?_, ?_⟩
  · intro beyond k s' r h
    cases r with
    | none => rw [alloc_pages_none beyond s k s' h]; exact h1
    | some d =>
      obtain ⟨_, _, s1, _, rfl, hI, _⟩ := alloc_pages_some beyond s k s' d h
      exact I1_erase s1 k d (hI h1)
  · intro p s' r h
    rcases reserve_page_cases s p with ⟨he, _⟩ | ⟨s1, he, _, hI, _, _⟩
    · rw [he] at h
      simp only [Except.ok.injEq, Prod.mk.injEq] at h
      rw [← h.1]; exact h1
    · rw [he] at h
      simp only [Except.ok.injEq, Prod.mk.injEq] at h
      rw [← h.1]; exact I1_erase s1 0 p (hI h1)
  · intro d k s' _ hfree h
    obtain ⟨hd, hk⟩ := free_pages_ok s d k s' h
    obtain ⟨_, _, hQ, _⟩ :=
      free_pages_induct (fun s1 _ _ => I1 s1) s d k s'
        (fun s1 p o hQ hp ho hm hb => I1_merge s1 p o hQ ho hp hm hb)
        (I1_insert s k d h1 hk hfree) h
    exact hQ

/-- C10 at a concrete table, once for each operation. -/
theorem I1_invariant_witness :
    (∃ s', init empty_areas 3 10 = .ok (s', true) ∧ I1 s') ∧
    (∃ s', alloc_pages none (areas_of [[1], [2], [], [8]]) 2 = .ok (s', some 8) ∧ I1 s') ∧
    (∃ s', reserve_page (areas_of [[1], [2], [], [8]]) 13 = .ok (s', true) ∧ I1 s') ∧
    (∃ s', free_pages (areas_of [[1], [2], [], [8]]) 0 0 = .ok s' ∧ I1 s') :=
  ⟨(I1_invariant (areas_of [[1], [2], [], [8]]) (by decide) (by decide) (by decide)).1
      3 10 (by decide),
   ⟨_, rfl, (I1_invariant (areas_of [[1], [2], [], [8]]) (by decide) (by decide)
      (by decide)).2.1 none 2 _ _ rfl⟩,
   ⟨_, rfl, (I1_invariant (areas_of [[1], [2], [], [8]]) (by decide) (by decide)
      (by decide)).2.2.1 13 _ _ rfl⟩,
   ⟨_, rfl, (I1_invariant (areas_of [[1], [2], [], [8]]) (by decide) (by decide)
      (by decide)).2.2.2 0 0 _ (by decide) (by decide) rfl⟩⟩

/-- Induction over the splitting loop of `alloc_pages`: a property of the table
that every split keeps holds of the table the loop returns. -/
theorem alloc_split_induct (Q : FreeAreas → Prop)
    (hstep : ∀ s j h, Q s → j + 1 < MAX_ORDER → h ∈ s (j + 1) → h % 2 ^ (j + 1) = 0 →
      Q (split_state s j h)) (order : Nat) :
    ∀ (j : Nat) (s : FreeAreas) (h : Nat) (s' : FreeAreas) (b : Nat),
      alloc_split order j s h = .ok (s', b) → Q s → Q s' := by
  intro j
  induction j with
  | zero =>
    intro s h s' b he hQ
    simp only [alloc_split, Except.ok.injEq, Prod.mk.injEq] at he
    rw [← he.1]; exact hQ
  | succ j ih =>
    intro s h s' b he hQ
    rw [alloc_split_succ] at he
    by_cases h1 : j + 1 > order
    · rw [if_pos h1] at he
      by_cases h2 : h % 2 ^ (j + 1) = 0 ∧ j + 1 < MAX_ORDER ∧ h ∈ s (j + 1)
      · rw [if_pos h2] at he
        exact ih _ h s' b he (hstep s j h hQ h2.2.1 h2.2.2 h2.1)
      · rw [if_neg h2] at he; cases he
    · rw [if_neg h1] at he
      simp only [Except.ok.injEq, Prod.mk.injEq] at he
      rw [← he.1]; exact hQ

/-- A property of the table that every split and every unlinking keep holds
after a returning `alloc_pages`. -/
theorem alloc_pages_induct (Q : FreeAreas → Prop)
    (hstep : ∀ s j h, Q s → j + 1 < MAX_ORDER → h ∈ s (j + 1) → h % 2 ^ (j + 1) = 0 →
      Q (split_state s j h))
    (herase : ∀ s k d, Q s → k < MAX_ORDER → d ∈ s k → Q (set_area s k ((s k).erase d)))
    (beyond : Option Nat) (s : FreeAreas) (k : Nat) (s' : FreeAreas) (r : Option Nat)
    (h : alloc_pages beyond s k = .ok (s', r)) (hQ : Q s) : Q s' := by
  cases r with
  | none => rw [alloc_pages_none beyond s k s' h]; exact hQ
  | some d =>
    by_cases hk : k < MAX_ORDER
    swap
    · have : order_in_range k = false := by
        rw [← Bool.not_eq_true, order_in_range_iff]; exact hk
      simp [alloc_pages, this] at h
    have hir : order_in_range k = true := (order_in_range_iff _).mpr hk
    simp only [alloc_pages, hir, Bool.not_true, Bool.false_eq_true, if_false, bind,
      Except.bind] at h
    cases hs : alloc_search beyond s (MAX_ORDER + 1) k (read_area beyond s k) with
    | error e => rw [hs] at h; simp at h
    | ok fr =>
      rw [hs] at h
      cases fr with
      | none => simp at h
      | some jb =>
        obtain ⟨j, b⟩ := jb
        simp only at h
        cases hsp : alloc_split k j s b with
        | error e => rw [hsp] at h; simp at h
        | ok r =>
          obtain ⟨s1, b'⟩ := r
          rw [hsp] at h
          simp only at h
          have hQ1 : Q s1 := alloc_split_induct Q hstep k j s b s1 b' hsp hQ
          cases hf : is_free s1 b' k with
          | error e => rw [hf] at h; simp at h
          | ok fr =>
            obtain ⟨_, _, hr⟩ := is_free_ok s1 b' k fr hf
            rw [hf] at h
            by_cases hm : b' ∈ s1 k
            · simp only [hr, hm, decide_True, Bool.not_true, Bool.false_eq_true, if_false,
                remove_block_eq s1 b' k hk hm, Except.ok.injEq, Prod.mk.injEq] at h
              rw [← h.1]
              exact herase s1 k b' hQ1 hk hm
            · simp [hr, hm] at h

/-- Induction over the splitting loop of `reserve_page`. -/
theorem reserve_split_induct (Q : FreeAreas → Prop)
    (hstep : ∀ s j h, Q s → j + 1 < MAX_ORDER → h ∈ s (j + 1) → h % 2 ^ (j + 1) = 0 →
      Q (split_state s j h)) (p : Nat) :
    ∀ (o : Nat) (s : FreeAreas), o < MAX_ORDER → p / 2 ^ o * 2 ^ o ∈ s o → Q s →
      ∃ s', reserve_split p o s = .ok s' ∧ p ∈ s' 0 ∧ Q s' := by
  intro o
  induction o with
  | zero =>
    intro s _ hm hQ
    rw [head_zero] at hm
    exact ⟨s, rfl, hm, hQ⟩
  | succ o ih =>
    intro s ho hm hQ
    rw [reserve_split_succ s p o ho hm]
    have hmem : p / 2 ^ o * 2 ^ o ∈ split_state s o (p / 2 ^ (o + 1) * 2 ^ (o + 1)) o := by
      rw [mem_split_state]
      rcases head_cases p o with e | e
      · exact Or.inl ⟨rfl, Or.inl e⟩
      · exact Or.inl ⟨rfl, Or.inr (Or.inl e)⟩
    exact ih _ (by omega) hmem (hstep s o _ hQ ho hm (head_aligned p (o + 1)))

/-- A property of the table that every split and every unlinking keep holds
after `reserve_page`. -/
theorem reserve_page_induct (Q : FreeAreas → Prop)
    (hstep : ∀ s j h, Q s → j + 1 < MAX_ORDER → h ∈ s (j + 1) → h % 2 ^ (j + 1) = 0 →
      Q (split_state s j h))
    (herase : ∀ s k d, Q s → k < MAX_ORDER → d ∈ s k → Q (set_area s k ((s k).erase d)))
    (s : FreeAreas) (p : Nat) (s' : FreeAreas) (r : Bool)
    (h : reserve_page s p = .ok (s', r)) (hQ : Q s) : Q s' := by
  have h14 : MAX_ORDER - 1 < MAX_ORDER := by decide
  have h0 : 0 < MAX_ORDER := by decide
  rcases reserve_find_spec s p (MAX_ORDER - 1) h14 with ⟨he, _⟩ | ⟨o, ho, he, hmo⟩
  · simp only [reserve_page, he, bind, Except.bind, Except.ok.injEq, Prod.mk.injEq] at h
    rw [← h.1]; exact hQ
  · have ho' : o < MAX_ORDER := by
      have : MAX_ORDER - 1 + 1 = MAX_ORDER := rfl
      omega
    obtain ⟨s1, hs, hp0, hQ1⟩ := reserve_split_induct Q hstep p o s ho' hmo hQ
    simp only [reserve_page, he, hs, bind, Except.bind,
      is_free_eq s1 p 0 (Nat.mod_one p) h0, hp0, decide_True, Bool.not_true,
      Bool.false_eq_true, if_false, remove_block_eq s1 p 0 h0 hp0, Except.ok.injEq,
      Prod.mk.injEq] at h
    rw [← h.1]
    exact herase s1 0 p hQ1 h0 hp0

theorem I4_set (s : FreeAreas) (k : Nat) (l : List Nat) (h4 : I4 s)
    (hl : l.Sorted (· ≤ ·)) : I4 (set_area s k l) := by
  intro i hi
  by_cases e : i = k
  · subst e; rw [set_area_same]; exact hl
  · rw [set_area_other _ _ _ _ e]; exact h4 i hi

theorem sorted_erase (l : List Nat) (x : Nat) (hl : l.Sorted (· ≤ ·)) :
    (l.erase x).Sorted (· ≤ ·) :=
  List.Pairwise.sublist (List.erase_sublist x l) hl

theorem I4_insert (s : FreeAreas) (k d : Nat) (hk : k < MAX_ORDER) (h4 : I4 s) :
    I4 (set_area s k (insert_sorted d (s k))) :=
  I4_set s k _ h4 (insert_sorted_sorted d _ (h4 k hk))

theorem I4_erase (s : FreeAreas) (k d : Nat) (hk : k < MAX_ORDER) (h4 : I4 s) :
    I4 (set_area s k ((s k).erase d)) :=
  I4_set s k _ h4 (sorted_erase _ d (h4 k hk))

theorem I4_split (s : FreeAreas) (j h : Nat) (hj : j + 1 < MAX_ORDER) (h4 : I4 s) :
    I4 (split_state s j h) := by
  unfold split_state
  apply I4_set
  · exact I4_erase s (j + 1) h hj h4
  · exact insert_sorted_sorted _ _ (insert_sorted_sorted _ _ (h4 j (by omega)))

theorem I4_merge (s : FreeAreas) (p o : Nat) (ho : o + 1 < MAX_ORDER) (h4 : I4 s) :
    I4 (merge_state s p o) := by
  unfold merge_state
  apply I4_set
  · exact I4_set s o _ h4 (sorted_erase _ _ (sorted_erase _ _ (h4 o (by omega))))
  · exact insert_sorted_sorted _ _ (h4 (o + 1) ho)

theorem split_down_top (s : FreeAreas) (k j h : Nat) (hlt : k < j) :
    split_down s k j h j = (s j).erase h := by
  simp only [split_down]
  rw [if_pos ⟨hlt, trivial⟩]

theorem split_down_mid (s : FreeAreas) (k j h i : Nat) (h1 : k < i) (h2 : i < j) :
    split_down s k j h i = insert_sorted (h + 2 ^ i) (s i) := by
  have n1 : ¬ (k < j ∧ i = j) := by omega
  simp only [split_down]
  rw [if_neg n1, if_pos ⟨h1, h2⟩]

theorem split_down_bot (s : FreeAreas) (k j h : Nat) (hlt : k < j) :
    split_down s k j h k = insert_sorted h (insert_sorted (h + 2 ^ k) (s k)) := by
  have n1 : ¬ (k < j ∧ k = j) := by omega
  have n2 : ¬ (k < k ∧ k < j) := by omega
  simp only [split_down]
  rw [if_neg n1, if_neg n2, if_pos ⟨hlt, trivial⟩]

theorem split_down_out (s : FreeAreas) (k j h i : Nat) (hout : i < k ∨ j < i ∨ j ≤ k) :
    split_down s k j h i = s i := by
  have n1 : ¬ (k < j ∧ i = j) := by omega
  have n2 : ¬ (k < i ∧ i < j) := by omega
  have n3 : ¬ (k < j ∧ i = k) := by omega
  simp only [split_down]
  rw [if_neg n1, if_neg n2, if_neg n3]

theorem alloc_state_top (s : FreeAreas) (k j h : Nat) :
    alloc_state s k j h j = (s j).erase h := by
  simp [alloc_state]

theorem alloc_state_mid (s : FreeAreas) (k j h i : Nat) (h1 : k ≤ i) (h2 : i < j) :
    alloc_state s k j h i = insert_sorted (h + 2 ^ i) (s i) := by
  have n1 : ¬ i = j := by omega
  simp only [alloc_state]
  rw [if_neg n1, if_pos ⟨h1, h2⟩]

theorem alloc_state_out (s : FreeAreas) (k j h i : Nat) (hk : k ≤ j)
    (hout : i < k ∨ j < i) :
    alloc_state s k j h i = s i := by
  have n1 : ¬ i = j := by omega
  have n2 : ¬ (k ≤ i ∧ i < j) := by omega
  simp only [alloc_state]
  rw [if_neg n1, if_neg n2]

theorem split_down_step (s : FreeAreas) (k j h : Nat) (hk : k ≤ j) :
    split_down (split_state s j h) k j h = split_down s k (j + 1) h := by
  funext i
  have hs1 : split_state s j h (j + 1) = (s (j + 1)).erase h := by
    have hne : j + 1 ≠ j := by omega
    simp only [split_state, set_area_other _ _ _ _ hne, set_area_same]
  have hs2 : split_state s j h j = insert_sorted h (insert_sorted (h + 2 ^ j) (s j)) := by
    simp only [split_state, set_area_same]
  have hs3 : ∀ i, i ≠ j → i ≠ j + 1 → split_state s j h i = s i := by
    intro i e2 e1
    simp only [split_state, set_area_other _ _ _ _ e2, set_area_other _ _ _ _ e1]
  rcases Nat.lt_trichotomy i j with hlt | heq | hgt
  · by_cases hik : k < i
    · rw [split_down_mid _ k j h i hik hlt, split_down_mid _ k (j + 1) h i hik (by omega),
        hs3 i (by omega) (by omega)]
    · by_cases hik' : i = k
      · subst hik'
        rw [split_down_bot _ i j h hlt, split_down_bot _ i (j + 1) h (by omega),
          hs3 i (by omega) (by omega)]
      · rw [split_down_out _ k j h i (by omega), split_down_out _ k (j + 1) h i (by omega),
          hs3 i (by omega) (by omega)]
  · subst heq
    by_cases hlt : k < i
    · rw [split_down_top _ k i h hlt, split_down_mid _ k (i + 1) h i hlt (by omega), hs2,
        erase_insert_sorted]
    · have hki : k = i := by omega
      subst hki
      rw [split_down_out _ k k h k (by omega), split_down_bot _ k (k + 1) h (by omega), hs2]
  · by_cases e1 : i = j + 1
    · subst e1
      rw [split_down_out _ k j h (j + 1) (by omega), split_down_top _ k (j + 1) h (by omega),
        hs1]
    · rw [split_down_out _ k j h i (by omega), split_down_out _ k (j + 1) h i (by omega),
        hs3 i (by omega) e1]

theorem split_down_self (s : FreeAreas) (k h : Nat) : split_down s k k h = s := by
  funext i
  exact split_down_out s k k h i (by omega)

theorem aligned_of_le (h j k : Nat) (hk : k ≤ j) (ha : h % 2 ^ j = 0) : h % 2 ^ k = 0 :=
  mod_pow_of_le h k j hk ha

/-- The splitting loop of `alloc_pages`, entered with a block that is aligned
and linked at its order, returns the block and the table `split_down`. -/
theorem alloc_split_eq (k : Nat) :
    ∀ (j : Nat) (s : FreeAreas) (h : Nat), k ≤ j → j < MAX_ORDER → h ∈ s j →
      h % 2 ^ j = 0 → alloc_split k j s h = .ok (split_down s k j h, h) := by
  intro j
  induction j with
  | zero =>
    intro s h hk _ _ _
    have : k = 0 := by omega
    subst this
    rw [split_down_self]; rfl
  | succ j ih =>
    intro s h hk hj hm ha
    rw [alloc_split_succ]
    by_cases h1 : j + 1 > k
    · rw [if_pos h1, if_pos ⟨ha, hj, hm⟩,
        ih (split_state s j h) h (by omega) (by omega) (mem_split_state_self s j h)
          (aligned_of_aligned_succ h j ha),
        split_down_step s k j h (by omega)]
    · have : k = j + 1 := by omega
      subst this
      rw [if_neg h1, split_down_self]

theorem mem_split_down (s : FreeAreas) (k j h : Nat) (hk : k ≤ j) (hm : h ∈ s j) :
    h ∈ split_down s k j h k := by
  by_cases hlt : k < j
  · rw [split_down_bot s k j h hlt, mem_insert_sorted]; exact Or.inl rfl
  · have : k = j := by omega
    subst this
    rw [split_down_self]; exact hm

theorem split_down_erase (s : FreeAreas) (k j h : Nat) (hk : k ≤ j) :
    set_area (split_down s k j h) k ((split_down s k j h k).erase h) = alloc_state s k j h := by
  funext i
  by_cases e : i = k
  · subst e
    rw [set_area_same]
    by_cases hlt : i < j
    · rw [split_down_bot s i j h hlt, erase_insert_sorted,
        alloc_state_mid s i j h i (le_refl _) hlt]
    · have : i = j := by omega
      subst this
      rw [split_down_self, alloc_state_top]
  · rw [set_area_other _ _ _ _ e]
    rcases Nat.lt_trichotomy i j with hlt | heq | hgt
    · by_cases hik : k < i
      · rw [split_down_mid s k j h i hik hlt, alloc_state_mid s k j h i (by omega) hlt]
      · rw [split_down_out s k j h i (by omega), alloc_state_out s k j h i hk (by omega)]
    · subst heq
      rw [split_down_top s k i h (by omega), alloc_state_top]
    · rw [split_down_out s k j h i (by omega), alloc_state_out s k j h i hk (by omega)]

/-- First fit: when the lists of the orders `k .. j-1` are empty and the
order-`j` list starts with the aligned block `h`, `alloc_pages(k)` returns `h`
and the table `alloc_state`. -/
theorem alloc_pages_found (beyond : Option Nat) (s : FreeAreas) (k j h : Nat)
    (hk : k ≤ j) (hj : j < MAX_ORDER) (hempty : ∀ i, k ≤ i → i < j → s i = [])
    (hhead : (s j).head? = some h) (ha : h % 2 ^ j = 0) :
    alloc_pages beyond s k = .ok (alloc_state s k j h, some h) := by
  have hk' : k < MAX_ORDER := by omega
  have hir : order_in_range k = true := (order_in_range_iff _).mpr hk'
  have hm : h ∈ s j := List.mem_of_mem_head? hhead
  have hrj : read_area beyond s j = some h := by simp [read_area, hj, hhead]
  have hsearch : alloc_search beyond s (MAX_ORDER + 1) k (read_area beyond s k)
      = .ok (some (j, h)) := by
    rcases alloc_search_spec beyond s (MAX_ORDER + 1) k (by omega) (by omega) with
      ⟨_, hall⟩ | ⟨j', b, he, h4, h5, h6, h7⟩
    · have := hall j hk (by omega)
      rw [hrj] at this; cases this
    · have hjj : j' = j := by
        rcases Nat.lt_trichotomy j' j with hlt | heq | hgt
        · have : read_area beyond s j' = none := by
            simp [read_area, (by omega : j' < MAX_ORDER), hempty j' h4 hlt]
          rw [this] at h6; cases h6
        · exact heq
        · have := h7 j hk hgt
          rw [hrj] at this; cases this
      subst hjj
      rw [hrj] at h6
      injection h6 with h6
      subst h6
      exact he
  simp only [alloc_pages, hir, Bool.not_true, Bool.false_eq_true, if_false, bind,
    Except.bind, hsearch, alloc_split_eq k j s h hk hj hm ha,
    is_free_eq _ h k (aligned_of_le h j k hk ha) hk', mem_split_down s k j h hk hm,
    decide_True, remove_block_eq _ h k hk' (mem_split_down s k j h hk hm),
    split_down_erase s k j h hk]

/-- `free_pages` of an aligned block whose buddy is not in the list of its
order links the block and stops. -/
theorem free_pages_no_merge (s : FreeAreas) (d k : Nat) (hd : d % 2 ^ k = 0)
    (hk : k < MAX_ORDER) (hb : d ^^^ 2 ^ k ∉ s k) :
    free_pages s d k = .ok (set_area s k (insert_sorted d (s k))) := by
  rw [free_pages_eq s d k hd hk]
  show free_loop (14 + 1) _ d k = _
  rw [free_loop_succ _ _ d k hd hk (mem_insert_self s d k)]
  have : d ^^^ 2 ^ k ∉ set_area s k (insert_sorted d (s k)) k := by
    rw [set_area_same, mem_insert_sorted]
    rintro (e | e)
    · exact xor_ne_self d k e
    · exact hb e
  rw [if_neg this]

/-- `free_pages` of an aligned block whose buddy is free, while the buddy of
the merged block is not: one merge. -/
theorem free_pages_one_merge (s : FreeAreas) (d k : Nat) (hd : d % 2 ^ k = 0)
    (hk : k + 1 < MAX_ORDER - 1) (hb : d ^^^ 2 ^ k ∈ s k)
    (hb2 : merged_head d k ^^^ 2 ^ (k + 1) ∉ s (k + 1)) :
    free_pages s d k =
      .ok (merge_state (set_area s k (insert_sorted d (s k))) d k) := by
  have hk1 : k + 1 < MAX_ORDER := by
    have : MAX_ORDER - 1 + 1 = MAX_ORDER := rfl
    omega
  have hk0 : k < MAX_ORDER := by omega
  rw [free_pages_eq s d k hd hk0]
  show free_loop (13 + 1 + 1) _ d k = _
  rw [free_loop_succ _ _ d k hd hk0 (mem_insert_self s d k)]
  have h1 : d ^^^ 2 ^ k ∈ set_area s k (insert_sorted d (s k)) k := by
    rw [set_area_same, mem_insert_sorted]; exact Or.inr hb
  rw [if_pos h1, if_pos hk1, if_pos hk,
    free_loop_succ _ _ _ (k + 1) (merged_head_aligned d k hd) hk1
      (mem_merge_state_head _ d k)]
  have h2 : merged_head d k ^^^ 2 ^ (k + 1) ∉
      merge_state (set_area s k (insert_sorted d (s k))) d k (k + 1) := by
    have hne : k + 1 ≠ k := by omega
    simp only [merge_state, set_area_same, set_area_other _ _ _ _ hne, mem_insert_sorted]
    rintro (e | e)
    · exact xor_ne_self _ _ e
    · exact hb2 e
  rw [if_neg h2]

theorem packing_two (b : Nat) :
    packing b 2 0 = [] ∧ packing b 2 1 = [b] ∧ ∀ i, 2 ≤ i → packing b 2 i = [] := by
  refine ⟨by simp [packing, MAX_ORDER], by simp [packing, MAX_ORDER], ?_⟩
  intro i hi
  by_cases e : i = MAX_ORDER - 1
  · subst e; simp [packing, MAX_ORDER]
  · by_cases hlt : i < MAX_ORDER - 1
    · rw [packing_low b 2 i hlt]
      have h4 : 2 < 2 ^ i := by
        calc 2 < 2 ^ 2 := by norm_num
          _ ≤ 2 ^ i := Nat.pow_le_pow_right (by norm_num) hi
      rw [Nat.div_eq_of_lt h4]
      simp
    · simp [packing, e, hlt]

theorem packing_top (b : Nat) :
    packing b 16384 (MAX_ORDER - 1) = [b] ∧
    ∀ i, i ≠ MAX_ORDER - 1 → packing b 16384 i = [] := by
  refine ⟨by simp [packing, MAX_ORDER, List.range_succ], ?_⟩
  intro i e
  by_cases hlt : i < MAX_ORDER - 1
  · rw [packing_low b 16384 i hlt]
    have h14 : (16384 : Nat) = 2 ^ 14 := by norm_num
    have hi : i ≤ 13 := by unfold MAX_ORDER at hlt; omega
    have : 16384 / 2 ^ i % 2 = 0 := by
      interval_cases i <;> norm_num
    rw [this]; simp
  · simp [packing, e, hlt]

/-- The boundary scenario for every aligned base: after `init` with `2^14`
frames the first `alloc_pages(14)` returns the base whatever lies after the
table; the second reads the word after the table and returns NULL only when
that word is null. -/
theorem boundary_scenario (b : Nat) (hb : b % 2 ^ 14 = 0) (beyond1 beyond2 : Option Nat) :
    ∃ s0 s1, init empty_areas b 16384 = .ok (s0, true) ∧
      alloc_pages beyond1 s0 14 = .ok (s1, some b) ∧
      alloc_pages beyond2 s1 14 =
        match beyond2 with
        | none => .ok (s1, none)
        | some _ => .error .assertion := by
  have h14 : MAX_ORDER - 1 = 14 := rfl
  obtain ⟨ht, _⟩ := packing_top b
  rw [h14] at ht
  refine ⟨packing b 16384, alloc_state (packing b 16384) 14 14 b,
    init_packing b 16384 (by norm_num) (by norm_num), ?_, ?_⟩
  · exact alloc_pages_found beyond1 _ 14 14 b (le_refl _) (by decide)
      (fun i h1 h2 => absurd h2 (by omega)) (by rw [ht]; rfl) hb
  · apply alloc_pages_all_empty beyond2 _ 14 (by decide)
    intro i h1 h2
    have : i = 14 := by unfold MAX_ORDER at h2; omega
    subst this
    rw [alloc_state_top, ht]
    simp

theorem erase_other_half (a b : Nat) (hab : a < b) (l : List Nat) :
    (insert_sorted a (insert_sorted b l)).erase b = insert_sorted a l := by
  induction l with
  | nil =>
    have h1 : ¬ a > b := by omega
    have h2 : a ≠ b := by omega
    simp [insert_sorted, h1, h2]
  | cons c t ih =>
    by_cases hbc : b > c
    · by_cases hac : a > c
      · have hcb : c ≠ b := by omega
        simp only [insert_sorted, hbc, hac, if_true]
        rw [List.erase_cons_tail (by simpa using hcb), ih]
      · have hcb : c ≠ b := by omega
        have hab' : a ≠ b := by omega
        simp only [insert_sorted, hbc, hac, if_true, if_false]
        rw [List.erase_cons_tail (by simpa using hab'),
          List.erase_cons_tail (by simpa using hcb), erase_insert_sorted]
    · have h1 : ¬ a > b := by omega
      have hac : ¬ a > c := by omega
      have hab' : a ≠ b := by omega
      simp only [insert_sorted, hbc, h1, hac, if_false]
      rw [List.erase_cons_tail (by simpa using hab'), List.erase_cons_head]

theorem carve_top (s : FreeAreas) (lo hi : Nat) (hd : Nat → Nat) :
    carve s lo hi hd hi = (s hi).erase (hd hi) := by
  simp [carve]

theorem carve_mid (s : FreeAreas) (lo hi : Nat) (hd : Nat → Nat) (i : Nat) (h1 : lo ≤ i)
    (h2 : i < hi) : carve s lo hi hd i = insert_sorted (hd i ^^^ 2 ^ i) (s i) := by
  have n1 : ¬ i = hi := by omega
  simp only [carve]
  rw [if_neg n1, if_pos ⟨h1, h2⟩]

theorem carve_out (s : FreeAreas) (lo hi : Nat) (hd : Nat → Nat) (i : Nat) (hlh : lo ≤ hi)
    (hout : i < lo ∨ hi < i) : carve s lo hi hd i = s i := by
  have n1 : ¬ i = hi := by omega
  have n2 : ¬ (lo ≤ i ∧ i < hi) := by omega
  simp only [carve]
  rw [if_neg n1, if_neg n2]

/-- After `alloc_pages` the table has the carved shape, with the returned block
at every order. -/
theorem alloc_state_eq_carve (s : FreeAreas) (k j h : Nat) (hk : k ≤ j)
    (ha : h % 2 ^ j = 0) : alloc_state s k j h = carve s k j (fun _ => h) := by
  funext i
  rcases Nat.lt_trichotomy i j with hlt | heq | hgt
  · by_cases hki : k ≤ i
    · rw [alloc_state_mid s k j h i hki hlt, carve_mid s k j _ i hki hlt]
      have h1 : h % 2 ^ (i + 1) = 0 := mod_pow_of_le h (i + 1) j (by omega) ha
      rw [xor_two_pow_eq h i (aligned_of_aligned_succ h i h1), if_pos h1]
    · rw [alloc_state_out s k j h i hk (by omega), carve_out s k j _ i hk (by omega)]
  · subst heq
    rw [alloc_state_top, carve_top]
  · rw [alloc_state_out s k j h i hk (by omega), carve_out s k j _ i hk (by omega)]

/-- The first loop of `reserve_page` stops at the highest order whose aligned
block around the page is in its list. -/
theorem reserve_find_eq (s : FreeAreas) (p k : Nat) (hm : p / 2 ^ k * 2 ^ k ∈ s k) :
    ∀ n, n < MAX_ORDER → k ≤ n → (∀ i, k < i → i ≤ n → p / 2 ^ i * 2 ^ i ∉ s i) →
      reserve_find s p n = .ok (some k) := by
  intro n
  induction n with
  | zero =>
    intro hn hk _
    have : k = 0 := by omega
    subst this
    simp only [reserve_find, get_block_eq s p 0 hn, hm, bind, Except.bind]
    simp
  | succ n ih =>
    intro hn hk hhigh
    by_cases e : k = n + 1
    · subst e
      simp only [reserve_find, get_block_eq s p (n + 1) hn, hm, bind, Except.bind]
      simp
    · have hnm : p / 2 ^ (n + 1) * 2 ^ (n + 1) ∉ s (n + 1) := hhigh (n + 1) (by omega) (le_refl _)
      have hstep : reserve_find s p (n + 1) = reserve_find s p n := by
        simp [reserve_find, get_block_eq s p (n + 1) hn, hnm, bind, Except.bind]
      rw [hstep]
      exact ih (by omega) (by omega) (fun i h1 h2 => hhigh i h1 (by omega))

theorem head_xor (p o : Nat) :
    (p / 2 ^ o * 2 ^ o = p / 2 ^ (o + 1) * 2 ^ (o + 1) ∧
      (p / 2 ^ o * 2 ^ o) ^^^ 2 ^ o = p / 2 ^ (o + 1) * 2 ^ (o + 1) + 2 ^ o) ∨
    (p / 2 ^ o * 2 ^ o = p / 2 ^ (o + 1) * 2 ^ (o + 1) + 2 ^ o ∧
      (p / 2 ^ o * 2 ^ o) ^^^ 2 ^ o = p / 2 ^ (o + 1) * 2 ^ (o + 1)) := by
  have hpos := two_pow_pos' o
  have hal : p / 2 ^ (o + 1) * 2 ^ (o + 1) % 2 ^ (o + 1) = 0 := head_aligned p (o + 1)
  rcases head_cases p o with e | e
  · left
    refine ⟨e, ?_⟩
    rw [e, xor_two_pow_eq _ o (aligned_of_aligned_succ _ o hal), if_pos hal]
  · right
    refine ⟨e, ?_⟩
    rw [e]
    have hal' : (p / 2 ^ (o + 1) * 2 ^ (o + 1) + 2 ^ o) % 2 ^ o = 0 :=
      aligned_add_pow _ o (aligned_of_aligned_succ _ o hal)
    have hne : ¬ (p / 2 ^ (o + 1) * 2 ^ (o + 1) + 2 ^ o) % 2 ^ (o + 1) = 0 := by
      obtain ⟨q, hq⟩ := Nat.dvd_of_mod_eq_zero hal
      rw [hq, Nat.mul_add_mod, Nat.mod_eq_of_lt (by rw [pow_succ]; omega)]
      omega
    rw [xor_two_pow_eq _ o hal', if_neg hne, Nat.add_sub_cancel]

/-- The second loop of `reserve_page` followed by the unlinking of the page
leaves the carved table. -/
theorem reserve_split_carve (p : Nat) :
    ∀ (o : Nat) (s : FreeAreas), o < MAX_ORDER → p / 2 ^ o * 2 ^ o ∈ s o →
      ∃ s1, reserve_split p o s = .ok s1 ∧ p ∈ s1 0 ∧
        set_area s1 0 ((s1 0).erase p) = carve s 0 o (fun i => p / 2 ^ i * 2 ^ i) := by
  intro o
  induction o with
  | zero =>
    intro s _ hm
    rw [head_zero] at hm
    refine ⟨s, rfl, hm, ?_⟩
    funext i
    by_cases e : i = 0
    · subst e; rw [set_area_same, carve_top, head_zero]
    · rw [set_area_other _ _ _ _ e, carve_out s 0 0 _ i (le_refl _) (by omega)]
  | succ o ih =>
    intro s ho hm
    rw [reserve_split_succ s p o ho hm]
    have hmem : p / 2 ^ o * 2 ^ o ∈ split_state s o (p / 2 ^ (o + 1) * 2 ^ (o + 1)) o := by
      rw [mem_split_state]
      rcases head_cases p o with e | e
      · exact Or.inl ⟨rfl, Or.inl e⟩
      · exact Or.inl ⟨rfl, Or.inr (Or.inl e)⟩
    obtain ⟨s1, he, hp0, hc⟩ := ih _ (by omega) hmem
    refine ⟨s1, he, hp0, ?_⟩
    rw [hc]
    funext i
    have hs1 : split_state s o (p / 2 ^ (o + 1) * 2 ^ (o + 1)) (o + 1)
        = (s (o + 1)).erase (p / 2 ^ (o + 1) * 2 ^ (o + 1)) := by
      have hne : o + 1 ≠ o := by omega
      simp only [split_state, set_area_other _ _ _ _ hne, set_area_same]
    have hs2 : split_state s o (p / 2 ^ (o + 1) * 2 ^ (o + 1)) o =
        insert_sorted (p / 2 ^ (o + 1) * 2 ^ (o + 1))
          (insert_sorted (p / 2 ^ (o + 1) * 2 ^ (o + 1) + 2 ^ o) (s o)) := by
      simp only [split_state, set_area_same]
    have hs3 : ∀ i, i ≠ o → i ≠ o + 1 →
        split_state s o (p / 2 ^ (o + 1) * 2 ^ (o + 1)) i = s i := by
      intro i e2 e1
      simp only [split_state, set_area_other _ _ _ _ e2, set_area_other _ _ _ _ e1]
    rcases Nat.lt_trichotomy i o with hlt | heq | hgt
    · rw [carve_mid _ 0 o _ i (Nat.zero_le _) hlt,
        carve_mid _ 0 (o + 1) _ i (Nat.zero_le _) (by omega), hs3 i (by omega) (by omega)]
    · subst heq
      rw [carve_top, carve_mid _ 0 (i + 1) _ i (Nat.zero_le _) (by omega), hs2]
      have hpos := two_pow_pos' i
      rcases head_xor p i with ⟨e1, e2⟩ | ⟨e1, e2⟩
      · show (insert_sorted _ _).erase (p / 2 ^ i * 2 ^ i) =
          insert_sorted ((p / 2 ^ i * 2 ^ i) ^^^ 2 ^ i) (s i)
        rw [e2, e1, erase_insert_sorted]
      · show (insert_sorted _ _).erase (p / 2 ^ i * 2 ^ i) =
          insert_sorted ((p / 2 ^ i * 2 ^ i) ^^^ 2 ^ i) (s i)
        rw [e2, e1, erase_other_half _ _ (by omega)]
    · by_cases e1 : i = o + 1
      · subst e1
        rw [carve_out _ 0 o _ (o + 1) (Nat.zero_le _) (by omega), carve_top, hs1]
      · rw [carve_out _ 0 o _ i (Nat.zero_le _) (by omega),
          carve_out _ 0 (o + 1) _ i (Nat.zero_le _) (by omega), hs3 i (by omega) e1]

/-- When order `k` is the highest order whose aligned block around the page is
in its list, `reserve_page` returns true and leaves the carved table. -/
theorem reserve_page_found (s : FreeAreas) (p k : Nat) (hk : k < MAX_ORDER)
    (hm : p / 2 ^ k * 2 ^ k ∈ s k)
    (hhigh : ∀ i, k < i → i < MAX_ORDER → p / 2 ^ i * 2 ^ i ∉ s i) :
    reserve_page s p = .ok (carve s 0 k (fun i => p / 2 ^ i * 2 ^ i), true) := by
  have h14 : MAX_ORDER - 1 < MAX_ORDER := by decide
  have h0 : 0 < MAX_ORDER := by decide
  have hfind := reserve_find_eq s p k hm (MAX_ORDER - 1) h14
    (by have : MAX_ORDER - 1 + 1 = MAX_ORDER := rfl; omega)
    (fun i h1 h2 => hhigh i h1 (by have : MAX_ORDER - 1 + 1 = MAX_ORDER := rfl; omega))
  obtain ⟨s1, hs, hp0, hc⟩ := reserve_split_carve p k s hk hm
  simp only [reserve_page, hfind, hs, bind, Except.bind,
    is_free_eq s1 p 0 (Nat.mod_one p) h0, hp0, decide_True, Bool.not_true,
    Bool.false_eq_true, if_false, remove_block_eq s1 p 0 h0 hp0, hc]

theorem free_frames_set (s : FreeAreas) (k : Nat) (l : List Nat) (hk : k < MAX_ORDER) :
    free_frames (set_area s k l) + 2 ^ k * (s k).length
      = free_frames s + 2 ^ k * l.length := by
  have hmem : k ∈ Finset.range MAX_ORDER := Finset.mem_range.mpr hk
  have e1 : 2 ^ k * (set_area s k l k).length +
      Finset.sum ((Finset.range MAX_ORDER).erase k)
        (fun i => 2 ^ i * (set_area s k l i).length)
      = Finset.sum (Finset.range MAX_ORDER) (fun i => 2 ^ i * (set_area s k l i).length) :=
    Finset.add_sum_erase (Finset.range MAX_ORDER)
      (fun i => 2 ^ i * (set_area s k l i).length) hmem
  have e2 : 2 ^ k * (s k).length +
      Finset.sum ((Finset.range MAX_ORDER).erase k) (fun i => 2 ^ i * (s i).length)
      = Finset.sum (Finset.range MAX_ORDER) (fun i => 2 ^ i * (s i).length) :=
    Finset.add_sum_erase (Finset.range MAX_ORDER) (fun i => 2 ^ i * (s i).length) hmem
  have e3 : Finset.sum ((Finset.range MAX_ORDER).erase k)
      (fun i => 2 ^ i * (set_area s k l i).length)
      = Finset.sum ((Finset.range MAX_ORDER).erase k) (fun i => 2 ^ i * (s i).length) := by
    apply Finset.sum_congr rfl
    intro i hi
    rw [set_area_other _ _ _ _ (Finset.ne_of_mem_erase hi)]
  rw [set_area_same, e3] at e1
  unfold free_frames
  rw [← e1, ← e2]
  omega

theorem length_insert_sorted (a : Nat) (l : List Nat) :
    (insert_sorted a l).length = l.length + 1 := by
  rw [(insert_sorted_perm a l).length_eq]; rfl

/-- A split keeps the number of free frames. -/
theorem free_frames_split (s : FreeAreas) (j h : Nat) (hj : j + 1 < MAX_ORDER)
    (hm : h ∈ s (j + 1)) : free_frames (split_state s j h) = free_frames s := by
  have hne : j ≠ j + 1 := by omega
  have e1 := free_frames_set s (j + 1) ((s (j + 1)).erase h) hj
  have e2 := free_frames_set (set_area s (j + 1) ((s (j + 1)).erase h)) j
    (insert_sorted h (insert_sorted (h + 2 ^ j) (s j))) (by omega)
  rw [set_area_other _ _ _ _ hne, length_insert_sorted, length_insert_sorted] at e2
  rw [List.length_erase_of_mem hm] at e1
  have hlen : 0 < (s (j + 1)).length := List.length_pos_of_mem hm
  have hpow : 2 ^ (j + 1) = 2 * 2 ^ j := by rw [pow_succ]; ring
  unfold split_state
  rw [hpow] at e1
  generalize free_frames (set_area (set_area s (j + 1) ((s (j + 1)).erase h)) j
    (insert_sorted h (insert_sorted (h + 2 ^ j) (s j)))) = F2 at e2 ⊢
  generalize free_frames (set_area s (j + 1) ((s (j + 1)).erase h)) = F1 at e1 e2
  generalize (s (j + 1)).length = n at e1 hlen
  generalize (s j).length = m at e2
  generalize 2 ^ j = P at e1 e2
  have h1 : 2 * P * (n - 1) + 2 * P = 2 * P * n := by
    have : n = (n - 1) + 1 := by omega
    conv_rhs => rw [this]
    ring
  have h2 : P * (m + 1 + 1) = P * m + 2 * P := by ring
  omega

/-- Unlinking a block of order `k` takes `2^k` frames from the free frames. -/
theorem free_frames_erase (s : FreeAreas) (k d : Nat) (hk : k < MAX_ORDER) (hd : d ∈ s k) :
    free_frames (set_area s k ((s k).erase d)) + 2 ^ k = free_frames s := by
  have e1 := free_frames_set s k ((s k).erase d) hk
  rw [List.length_erase_of_mem hd] at e1
  have hlen : 0 < (s k).length := List.length_pos_of_mem hd
  generalize (s k).length = n at e1 hlen
  have h1 : 2 ^ k * (n - 1) + 2 ^ k = 2 ^ k * n := by
    have : n = (n - 1) + 1 := by omega
    conv_rhs => rw [this]
    ring
  omega

/-- Under I1 at most one block of the table contains a given frame. -/
theorem cover_unique (s : FreeAreas) (p k i : Nat) (h1 : I1 s) (hk : k < MAX_ORDER)
    (hi : i < MAX_ORDER) (hm : p / 2 ^ k * 2 ^ k ∈ s k) (hm' : p / 2 ^ i * 2 ^ i ∈ s i) :
    i = k := by
  by_contra hne
  have h := h1.2 i hi k hk _ hm' _ hm (fun e => absurd e hne)
  have c1 := head_covers p k
  have c2 := head_covers p i
  omega

theorem head_xor_eq (p i : Nat) : (p / 2 ^ i * 2 ^ i) ^^^ 2 ^ i = (p / 2 ^ i ^^^ 1) * 2 ^ i := by
  rw [Nat.mul_comm (p / 2 ^ i) (2 ^ i), two_pow_mul_xor, Nat.mul_comm]

theorem unwind_at (s : FreeAreas) (lo hi : Nat) (hd : Nat → Nat) (m : Nat) :
    unwind_state s lo hi hd m m = insert_sorted (hd m) (carve s lo hi hd m) := by
  simp [unwind_state]

theorem unwind_below (s : FreeAreas) (lo hi : Nat) (hd : Nat → Nat) (m i : Nat)
    (h1 : lo ≤ i) (h2 : i < m) : unwind_state s lo hi hd m i = s i := by
  have n1 : ¬ i = m := by omega
  simp only [unwind_state]
  rw [if_neg n1, if_pos ⟨h1, h2⟩]

theorem unwind_other (s : FreeAreas) (lo hi : Nat) (hd : Nat → Nat) (m i : Nat)
    (hlm : lo ≤ m) (h : i < lo ∨ m < i) : unwind_state s lo hi hd m i = carve s lo hi hd i := by
  have n1 : ¬ i = m := by omega
  have n2 : ¬ (lo ≤ i ∧ i < m) := by omega
  simp only [unwind_state]
  rw [if_neg n1, if_neg n2]

theorem unwind_start (s : FreeAreas) (lo hi : Nat) (hd : Nat → Nat) :
    set_area (carve s lo hi hd) lo (insert_sorted (hd lo) (carve s lo hi hd lo))
      = unwind_state s lo hi hd lo := by
  funext i
  by_cases e : i = lo
  · subst e; rw [set_area_same, unwind_at]
  · rw [set_area_other _ _ _ _ e, unwind_other s lo hi hd lo i (le_refl _) (by omega)]

theorem unwind_end (s : FreeAreas) (lo hi : Nat) (hd : Nat → Nat) (hlh : lo ≤ hi)
    (hins : insert_sorted (hd hi) ((s hi).erase (hd hi)) = s hi) :
    unwind_state s lo hi hd hi = s := by
  funext i
  rcases Nat.lt_trichotomy i hi with hlt | heq | hgt
  · by_cases hli : lo ≤ i
    · exact unwind_below s lo hi hd hi i hli hlt
    · rw [unwind_other s lo hi hd hi i hlh (by omega), carve_out s lo hi hd i hlh (by omega)]
  · subst heq
    rw [unwind_at, carve_top, hins]
  · rw [unwind_other s lo hi hd hi i hlh (by omega), carve_out s lo hi hd i hlh (by omega)]

theorem unwind_step (s : FreeAreas) (lo hi : Nat) (hd : Nat → Nat) (m : Nat) (hlo : lo ≤ m)
    (hm : m < hi) (hmh : merged_head (hd m) m = hd (m + 1)) :
    merge_state (unwind_state s lo hi hd m) (hd m) m = unwind_state s lo hi hd (m + 1) := by
  funext i
  by_cases e1 : i = m + 1
  · subst e1
    simp only [merge_state, set_area_same]
    rw [unwind_other s lo hi hd m (m + 1) hlo (by omega), unwind_at, hmh]
  · by_cases e2 : i = m
    · subst e2
      simp only [merge_state, set_area_other _ _ _ _ e1, set_area_same]
      rw [unwind_at, carve_mid s lo hi hd i hlo hm, List.erase_comm, erase_insert_sorted,
        erase_insert_sorted, unwind_below s lo hi hd (i + 1) i hlo (by omega)]
    · simp only [merge_state, set_area_other _ _ _ _ e1, set_area_other _ _ _ _ e2]
      by_cases c : lo ≤ i ∧ i < m
      · rw [unwind_below s lo hi hd m i c.1 c.2,
          unwind_below s lo hi hd (m + 1) i c.1 (by omega)]
      · rw [unwind_other s lo hi hd m i hlo (by omega),
          unwind_other s lo hi hd (m + 1) i (by omega) (by omega)]

/-- The merge loop of `free_pages` on a carved table, entered with the block
`hd m` linked at order `m`, merges up to order `hi` and returns the table from
before the carving. -/
theorem free_loop_unwind (s : FreeAreas) (lo hi : Nat) (hd : Nat → Nat) (hlh : lo ≤ hi)
    (hhi : hi < MAX_ORDER)
    (hal : ∀ i, lo ≤ i → i ≤ hi → hd i % 2 ^ i = 0)
    (hmh : ∀ i, lo ≤ i → i < hi → merged_head (hd i) i = hd (i + 1))
    (hins : insert_sorted (hd hi) ((s hi).erase (hd hi)) = s hi)
    (hI3 : hi + 1 < MAX_ORDER → hd hi ^^^ 2 ^ hi ∉ s hi) :
    ∀ (n m fuel : Nat), m + n = hi → lo ≤ m → n + 1 ≤ fuel → m + 1 < MAX_ORDER →
      free_loop fuel (unwind_state s lo hi hd m) (hd m) m = .ok s := by
  intro n
  induction n with
  | zero =>
    intro m fuel hmn hlm hf hm1
    have : m = hi := by omega
    subst this
    obtain ⟨f, rfl⟩ : ∃ f, fuel = f + 1 := ⟨fuel - 1, by omega⟩
    rw [unwind_end s lo m hd hlh hins]
    have hmem : hd m ∈ s m := by
      rw [← hins, mem_insert_sorted]; exact Or.inl rfl
    rw [free_loop_succ f s (hd m) m (hal m hlm (le_refl _)) hhi hmem, if_neg (hI3 hm1)]
  | succ n ih =>
    intro m fuel hmn hlm hf hm1
    obtain ⟨f, rfl⟩ : ∃ f, fuel = f + 1 := ⟨fuel - 1, by omega⟩
    have hmhi : m < hi := by omega
    have hmem : hd m ∈ unwind_state s lo hi hd m m := by
      rw [unwind_at, mem_insert_sorted]; exact Or.inl rfl
    have hbud : hd m ^^^ 2 ^ m ∈ unwind_state s lo hi hd m m := by
      rw [unwind_at, carve_mid s lo hi hd m hlm hmhi, mem_insert_sorted, mem_insert_sorted]
      exact Or.inr (Or.inl rfl)
    rw [free_loop_succ f _ (hd m) m (hal m hlm (by omega)) (by omega) hmem, if_pos hbud,
      if_pos hm1, unwind_step s lo hi hd m hlm hmhi (hmh m hlm hmhi), hmh m hlm hmhi]
    by_cases h4 : m + 1 < MAX_ORDER - 1
    · rw [if_pos h4]
      exact ih (m + 1) f (by omega) (by omega) (by omega)
        (by have : MAX_ORDER - 1 + 1 = MAX_ORDER := rfl; omega)
    · rw [if_neg h4]
      have : m + 1 = hi := by
        have : MAX_ORDER - 1 + 1 = MAX_ORDER := rfl
        omega
      rw [this, unwind_end s lo hi hd hlh hins]

/-- `free_pages` of the block at the bottom of a carved table gives back the
table from before the carving: every split is undone by a merge, and the loop
stops at the order the block came from. -/
theorem free_pages_unwind (s : FreeAreas) (lo hi : Nat) (hd : Nat → Nat) (hlh : lo ≤ hi)
    (hhi : hi < MAX_ORDER) (hlo : lo + 1 < MAX_ORDER)
    (hal : ∀ i, lo ≤ i → i ≤ hi → hd i % 2 ^ i = 0)
    (hmh : ∀ i, lo ≤ i → i < hi → merged_head (hd i) i = hd (i + 1))
    (hins : insert_sorted (hd hi) ((s hi).erase (hd hi)) = s hi)
    (hI3 : hi + 1 < MAX_ORDER → hd hi ^^^ 2 ^ hi ∉ s hi) :
    free_pages (carve s lo hi hd) (hd lo) lo = .ok s := by
  rw [free_pages_eq _ _ lo (hal lo (le_refl _) hlh) (by omega), unwind_start]
  exact free_loop_unwind s lo hi hd hlh hhi hal hmh hins hI3 (hi - lo) lo MAX_ORDER
    (by omega) (le_refl _) (by omega) hlo

theorem insert_sorted_head (d : Nat) (t : List Nat) (hs : (d :: t).Sorted (· ≤ ·)) :
    insert_sorted d t = d :: t := by
  cases t with
  | nil => rfl
  | cons c t' =>
    have : d ≤ c := List.rel_of_sorted_cons hs c (List.mem_cons_self _ _)
    have hn : ¬ d > c := by omega
    simp [insert_sorted, hn]

theorem insert_erase_sorted (a : Nat) (l : List Nat) (hs : l.Sorted (· ≤ ·)) (ha : a ∈ l) :
    insert_sorted a (l.erase a) = l := by
  induction l with
  | nil => cases ha
  | cons c t ih =>
    by_cases e : c = a
    · subst e
      rw [List.erase_cons_head]
      exact insert_sorted_head c t hs
    · have hat : a ∈ t := by
        rcases List.mem_cons.mp ha with h | h
        · exact absurd h.symm e
        · exact h
      have hca : c ≤ a := List.rel_of_sorted_cons hs a hat
      have hgt : a > c := by omega
      rw [List.erase_cons_tail (by simpa using e)]
      simp only [insert_sorted, hgt, if_true]
      rw [ih (List.Sorted.of_cons hs) hat]

/-- Under I2, a returning `alloc_pages(k)` has served the request from the head
of the first non-empty list from order `k` on. -/
theorem alloc_pages_inv (beyond : Option Nat) (s : FreeAreas) (k : Nat) (s1 : FreeAreas)
    (d : Nat) (h2 : I2 s) (h : alloc_pages beyond s k = .ok (s1, some d)) :
    ∃ j, k ≤ j ∧ j < MAX_ORDER ∧ (∀ i, k ≤ i → i < j → s i = []) ∧
      (s j).head? = some d ∧ s1 = alloc_state s k j d := by
  classical
  obtain ⟨hk, _⟩ := alloc_pages_some beyond s k s1 d h
  by_cases hex : ∃ i, k ≤ i ∧ i < MAX_ORDER ∧ s i ≠ []
  · have hj := Nat.find_spec hex
    have hmin := fun i (hi : i < Nat.find hex) => Nat.find_min hex hi
    generalize Nat.find hex = j at hj hmin
    obtain ⟨hkj, hjm, hne⟩ := hj
    have hempty : ∀ i, k ≤ i → i < j → s i = [] := by
      intro i h1 h2'
      by_contra hc
      exact hmin i h2' ⟨h1, by omega, hc⟩
    obtain ⟨a, t, hat⟩ : ∃ a t, s j = a :: t := by
      cases hs : s j with
      | nil => exact absurd hs hne
      | cons a t => exact ⟨a, t, rfl⟩
    have hhead : (s j).head? = some a := by rw [hat]; rfl
    have ha : a % 2 ^ j = 0 := h2 j hjm a (by rw [hat]; exact List.mem_cons_self _ _)
    have hres := alloc_pages_found beyond s k j a hkj hjm hempty hhead ha
    have e := Except.ok.inj (h.symm.trans hres)
    have e1 : s1 = alloc_state s k j a := congrArg Prod.fst e
    have e2 : some d = some a := congrArg Prod.snd e
    injection e2 with e2
    subst e2
    exact ⟨j, hkj, hjm, hempty, hhead, e1⟩
  · have hempty : ∀ i, k ≤ i → i < MAX_ORDER → s i = [] := by
      intro i h1 h2'
      by_contra hc
      exact hex ⟨i, h1, h2', hc⟩
    rw [alloc_pages_all_empty beyond s k hk hempty] at h
    cases beyond <;> simp at h

theorem load_store_same (m : Heap) (sl : Slot) (v : Option Nat) :
    (m.store sl v).load sl = v := by
  cases sl <;> simp [Heap.store, Heap.load]

theorem load_store_other (m : Heap) (sl sl' : Slot) (v : Option Nat) (h : sl' ≠ sl) :
    (m.store sl v).load sl' = m.load sl' := by
  cases sl <;> cases sl' <;> simp [Heap.store, Heap.load] <;> intro e <;> subst e <;>
    exact absurd rfl h

theorem load_link (m : Heap) (x : Nat) : m.load (.link x) = m.next_free x := rfl

theorem load_area (m : Heap) (i : Nat) : m.load (.area i) = m.free_areas i := rfl

theorem chain_congr (n1 n2 : Nat → Option Nat) (l : List Nat)
    (h : ∀ x ∈ l, n1 x = n2 x) : ∀ p, chain n1 p l → chain n2 p l := by
  induction l with
  | nil => intro p hp; exact hp
  | cons a t ih =>
    intro p hp
    refine ⟨hp.1, ?_⟩
    rw [← h a (List.mem_cons_self _ _)]
    exact ih (fun x hx => h x (List.mem_cons_of_mem _ hx)) _ hp.2

theorem chain_unique (next : Nat → Option Nat) (l1 : List Nat) :
    ∀ (l2 : List Nat) (p : Option Nat), chain next p l1 → chain next p l2 → l1 = l2 := by
  induction l1 with
  | nil =>
    intro l2 p h1 h2
    cases l2 with
    | nil => rfl
    | cons b t =>
      have e1 : p = none := h1
      have e2 : p = some b := h2.1
      rw [e1] at e2
      cases e2
  | cons a t ih =>
    intro l2 p h1 h2
    cases l2 with
    | nil =>
      have e1 : p = some a := h1.1
      have e2 : p = none := h2
      rw [e1] at e2
      cases e2
    | cons b t2 =>
      have e1 : p = some a := h1.1
      have e2 : p = some b := h2.1
      rw [e1] at e2
      injection e2 with e2
      subst e2
      rw [ih t2 _ h1.2 h2.2]

theorem chain_suffix (next : Nat → Option Nat) (pre : List Nat) (a : Nat) (post : List Nat) :
    ∀ p, chain next p (pre ++ a :: post) → chain next (next a) post := by
  induction pre with
  | nil => intro p h; exact h.2
  | cons b t ih => intro p h; exact ih _ h.2

/-- A list spelled by links that end in `NULL` has no frame twice. -/
theorem chain_nodup (next : Nat → Option Nat) (l : List Nat) :
    ∀ p, chain next p l → l.Nodup := by
  induction l with
  | nil => intro _ _; exact List.nodup_nil
  | cons a t ih =>
    intro p h
    refine List.nodup_cons.mpr ⟨?_, ih _ h.2⟩
    intro hmem
    obtain ⟨pre, post, e⟩ := List.append_of_mem hmem
    have h2 : chain next (next a) (pre ++ a :: post) := by rw [← e]; exact h.2
    have h3 := chain_suffix next pre a post _ h2
    have := chain_unique next _ _ _ h2 h3
    have hl := congrArg List.length this
    simp at hl
    omega

theorem remove_walk_step (fuel : Nat) (m : Heap) (d b : Nat) (slot : Slot)
    (hload : m.load slot = some b) (hne : d ≠ b) :
    Heap.unlink_from (fuel + 1) m d slot = Heap.unlink_from fuel m d (.link b) := by
  have hb : (d != b) = true := by simpa using hne
  simp only [Heap.unlink_from, Heap.remove_walk, hload, hb, if_true]

theorem unlink_from_absent (m : Heap) (d : Nat) (l : List Nat) :
    ∀ (slot : Slot) (fuel : Nat), chain m.next_free (m.load slot) l → l.length < fuel →
      d ∉ l → Heap.unlink_from fuel m d slot = .error .assertion := by
  induction l with
  | nil =>
    intro slot fuel hc hf _
    obtain ⟨f, rfl⟩ : ∃ f, fuel = f + 1 := ⟨fuel - 1, by simp at hf; omega⟩
    have hn : m.load slot = none := hc
    simp [Heap.unlink_from, Heap.remove_walk, hn]
  | cons b t ih =>
    intro slot fuel hc hf hd
    obtain ⟨f, rfl⟩ : ∃ f, fuel = f + 1 := ⟨fuel - 1, by simp at hf; omega⟩
    have hne : d ≠ b := fun e => hd (e ▸ List.mem_cons_self _ _)
    rw [remove_walk_step f m d b slot hc.1 hne]
    exact ih (.link b) f hc.2 (by simp at hf; omega)
      (fun h => hd (List.mem_cons_of_mem _ h))

/-- The walk of `remove_block` started at `slot`, over links that spell `l`
with `d` in it: the block is unlinked, its field is cleared, and no word other
than `*slot` and the fields of the frames of `l` is written. -/
theorem unlink_from_present (m : Heap) (d : Nat) (l : List Nat) :
    ∀ (slot : Slot) (fuel : Nat), chain m.next_free (m.load slot) l → l.length < fuel →
      l.Nodup → d ∈ l → (∀ x ∈ l, slot ≠ .link x) →
      ∃ m', Heap.unlink_from fuel m d slot = .ok m' ∧
        chain m'.next_free (m'.load slot) (l.erase d) ∧
        m'.next_free d = none ∧
        ∀ sl, sl ≠ slot → (∀ x ∈ l, sl ≠ .link x) → m'.load sl = m.load sl := by
  induction l with
  | nil => intro _ _ _ _ _ hd; cases hd
  | cons b t ih =>
    intro slot fuel hc hf hnd hd hslot
    obtain ⟨f, rfl⟩ : ∃ f, fuel = f + 1 := ⟨fuel - 1, by simp at hf; omega⟩
    obtain ⟨hbt, hndt⟩ := List.nodup_cons.mp hnd
    by_cases e : d = b
    · subst e
      have hload : m.load slot = some d := hc.1
      have hsd : slot ≠ .link d := hslot d (List.mem_cons_self _ _)
      refine ⟨(m.store slot (m.next_free d)).store (.link d) none, ?_, ?_, ?_, ?_⟩
      · simp [Heap.unlink_from, Heap.remove_walk, hload]
      · rw [List.erase_cons_head, load_store_other _ _ _ _ hsd, load_store_same]
        refine chain_congr m.next_free _ t ?_ _ hc.2
        intro x hx
        have hxd : x ≠ d := fun e => hbt (e ▸ hx)
        have h1 : Slot.link x ≠ Slot.link d := fun e => hxd (Slot.link.inj e)
        have h2 : Slot.link x ≠ slot := fun e =>
          hslot x (List.mem_cons_of_mem _ hx) e.symm
        rw [← load_link, ← load_link, load_store_other _ _ _ _ h1,
          load_store_other _ _ _ _ h2]
      · rw [← load_link, load_store_same]
      · intro sl h1 h2
        rw [load_store_other _ _ _ _ (h2 d (List.mem_cons_self _ _)),
          load_store_other _ _ _ _ h1]
    · have hdt : d ∈ t := by
        rcases List.mem_cons.mp hd with h | h
        · exact absurd h e
        · exact h
      have hlink : ∀ x ∈ t, Slot.link b ≠ Slot.link x := by
        intro x hx e2
        exact hbt ((Slot.link.inj e2) ▸ hx)
      obtain ⟨m', hres, hch, hclr, hframe⟩ :=
        ih (.link b) f hc.2 (by simp at hf; omega) hndt hdt hlink
      refine ⟨m', ?_, ?_, hclr, ?_⟩
      · rw [remove_walk_step f m d b slot hc.1 e]
        exact hres
      · have hbd : ¬ (b == d) = true := by simpa using fun h : b = d => e h.symm
        rw [List.erase_cons_tail hbd]
        have hs : m'.load slot = m.load slot :=
          hframe slot (hslot b (List.mem_cons_self _ _))
            (fun x hx => hslot x (List.mem_cons_of_mem _ hx))
        exact ⟨by rw [hs]; exact hc.1, hch⟩
      · intro sl h1 h2
        exact hframe sl (h2 b (List.mem_cons_self _ _))
          (fun x hx => h2 x (List.mem_cons_of_mem _ hx))

theorem read_area_in (beyond : Option Nat) (s : FreeAreas) (i : Nat) (hi : i < MAX_ORDER) :
    read_area beyond s i = (s i).head? := by
  simp [read_area, hi]

theorem read_area_out (beyond : Option Nat) (s : FreeAreas) :
    read_area beyond s MAX_ORDER = beyond := by
  simp [read_area]

theorem alloc_search_reads_step (beyond : Option Nat) (s : FreeAreas) (fuel o : Nat)
    (ho : o < MAX_ORDER) :
    alloc_search_reads beyond s (fuel + 1) o none =
      (o + 1) :: alloc_search_reads beyond s fuel (o + 1) (read_area beyond s (o + 1)) := by
  have h2 : order_in_range o = true := (order_in_range_iff o).mpr ho
  simp [alloc_search_reads, h2]

theorem alloc_search_reads_stop (beyond : Option Nat) (s : FreeAreas) (fuel : Nat)
    (v : Option Nat) : alloc_search_reads beyond s fuel MAX_ORDER v = [] := by
  cases v with
  | some b => cases fuel <;> rfl
  | none =>
    cases fuel with
    | zero => rfl
    | succ f =>
      have h2 : order_in_range MAX_ORDER = false := by decide
      simp [alloc_search_reads, h2]

/-- With the lists from order `o` to the top empty, the search loop reads the
table at every index from `o + 1` up to `MAX_ORDER` itself. -/
theorem alloc_search_reads_empty (beyond : Option Nat) (s : FreeAreas) :
    ∀ (n o fuel : Nat), o + n + 1 = MAX_ORDER → n + 1 ≤ fuel →
      (∀ i, o ≤ i → i < MAX_ORDER → s i = []) →
      alloc_search_reads beyond s fuel o none = List.range' (o + 1) (n + 1) := by
  intro n
  induction n with
  | zero =>
    intro o fuel ho hf _
    obtain ⟨f, rfl⟩ : ∃ f, fuel = f + 1 := ⟨fuel - 1, by omega⟩
    have e : o + 1 = MAX_ORDER := by omega
    rw [alloc_search_reads_step beyond s f o (by omega), e, alloc_search_reads_stop]
    rfl
  | succ n ih =>
    intro o fuel ho hf hempty
    obtain ⟨f, rfl⟩ : ∃ f, fuel = f + 1 := ⟨fuel - 1, by omega⟩
    have ho1 : o + 1 < MAX_ORDER := by omega
    rw [alloc_search_reads_step beyond s f o (by omega), read_area_in beyond s _ ho1,
      hempty (o + 1) (by omega) ho1]
    show (o + 1) :: alloc_search_reads beyond s f (o + 1) none = _
    rw [ih (o + 1) f (by omega) (by omega) (fun i h1 h2 => hempty i (by omega) h2)]
    rfl

/-- With a block in the order-`j` list and the lists below it down to `o`
empty, the search loop reads the table at the indices `o + 1` to `j`. -/
theorem alloc_search_reads_found (beyond : Option Nat) (s : FreeAreas) (j : Nat)
    (hj : j < MAX_ORDER) (hne : s j ≠ []) :
    ∀ (n o fuel : Nat), o + n = j → n ≤ fuel →
      (∀ i, o ≤ i → i < j → s i = []) →
      alloc_search_reads beyond s fuel o (read_area beyond s o) = List.range' (o + 1) n := by
  intro n
  induction n with
  | zero =>
    intro o fuel ho _ _
    have e : o = j := by omega
    subst e
    rw [read_area_in beyond s o hj]
    cases hs : s o with
    | nil => exact absurd hs hne
    | cons a t => cases fuel <;> rfl
  | succ n ih =>
    intro o fuel ho hf hempty
    obtain ⟨f, rfl⟩ : ∃ f, fuel = f + 1 := ⟨fuel - 1, by omega⟩
    have hoj : o < j := by omega
    rw [read_area_in beyond s o (by omega), hempty o (le_refl _) hoj]
    show alloc_search_reads beyond s (f + 1) o none = _
    rw [alloc_search_reads_step beyond s f o (by omega),
      ih (o + 1) f (by omega) (by omega) (fun i h1 h2 => hempty i (by omega) h2)]
    rfl

/-- The reads of the search of `alloc_pages(k)`: with a first non-empty list at
order `j ≥ k` they are the indices `k` to `j`, all inside the table; with the
lists `k` to `MAX_ORDER - 1` all empty they are the indices `k` to `MAX_ORDER`,
the last one past the end of the table. -/
theorem alloc_pages_reads_eq (beyond : Option Nat) (s : FreeAreas) (k : Nat)
    (hk : k < MAX_ORDER) :
    (∀ j, k ≤ j → j < MAX_ORDER → (∀ i, k ≤ i → i < j → s i = []) → s j ≠ [] →
      alloc_pages_reads beyond s k = List.range' k (j - k + 1)) ∧
    ((∀ i, k ≤ i → i < MAX_ORDER → s i = []) →
      alloc_pages_reads beyond s k = List.range' k (MAX_ORDER - k + 1)) := by
  have h2 : order_in_range k = true := (order_in_range_iff k).mpr hk
  have hdef : alloc_pages_reads beyond s k =
      k :: alloc_search_reads beyond s (MAX_ORDER + 1) k (read_area beyond s k) := by
    simp [alloc_pages_reads, h2]
  constructor
  · intro j hkj hj hempty hne
    rw [hdef, alloc_search_reads_found beyond s j hj hne (j - k) k (MAX_ORDER + 1)
      (by omega) (by omega) hempty]
    rfl
  · intro hempty
    rw [hdef, read_area_in beyond s k hk, hempty k (le_refl _) hk]
    show k :: alloc_search_reads beyond s (MAX_ORDER + 1) k none = _
    rw [alloc_search_reads_empty beyond s (MAX_ORDER - k - 1) k (MAX_ORDER + 1)
      (by omega) (by omega) hempty]
    have e : MAX_ORDER - k + 1 = (MAX_ORDER - k - 1 + 1) + 1 := by omega
    rw [e]
    rfl

theorem insert_walk_stop (fuel : Nat) (m : Heap) (d : Nat) (slot : Slot)
    (h : m.load slot = none ∨ ∃ b, m.load slot = some b ∧ ¬ d > b) :
    Heap.insert_walk (fuel + 1) m d slot = some slot := by
  rcases h with h | ⟨b, h, hb⟩
  · simp [Heap.insert_walk, h]
  · simp only [Heap.insert_walk, h, if_neg hb]

theorem insert_walk_step (fuel : Nat) (m : Heap) (d b : Nat) (slot : Slot)
    (h : m.load slot = some b) (hb : d > b) :
    Heap.insert_walk (fuel + 1) m d slot = Heap.insert_walk fuel m d (.link b) := by
  simp only [Heap.insert_walk, h, if_pos hb]

theorem load_link_at_slot (m : Heap) (d : Nat) (slot : Slot) :
    (Heap.link_at m d slot).load slot = some d := by
  simp only [Heap.link_at, load_store_same]

theorem load_link_at_self (m : Heap) (d : Nat) (slot : Slot) (h : slot ≠ .link d) :
    (Heap.link_at m d slot).next_free d = m.load slot := by
  rw [← load_link]
  simp only [Heap.link_at]
  rw [load_store_other _ _ _ _ (fun e => h e.symm), load_store_same]

theorem load_link_at_other (m : Heap) (d : Nat) (slot sl : Slot) (h1 : sl ≠ slot)
    (h2 : sl ≠ .link d) : (Heap.link_at m d slot).load sl = m.load sl := by
  simp only [Heap.link_at]
  rw [load_store_other _ _ _ _ h1, load_store_other _ _ _ _ h2]

/-- The walk and the two stores of `insert_block`, started at `slot` over links
that spell `l`, for a descriptor that is not in `l`: the links then spell the
ordered insertion of `d` into `l`, and no word other than `*slot`, the field of
`d` and the fields of the frames of `l` is written. -/
theorem insert_walk_spec (m : Heap) (d : Nat) (l : List Nat) :
    ∀ (slot : Slot) (fuel : Nat), chain m.next_free (m.load slot) l → l.length < fuel →
      l.Nodup → d ∉ l → (∀ x ∈ l, slot ≠ .link x) → slot ≠ .link d →
      ∃ sl, Heap.insert_walk fuel m d slot = some sl ∧
        chain (Heap.link_at m d sl).next_free ((Heap.link_at m d sl).load slot)
          (insert_sorted d l) ∧
        ∀ s', s' ≠ slot → (∀ x ∈ l, s' ≠ .link x) → s' ≠ .link d →
          (Heap.link_at m d sl).load s' = m.load s' := by
  induction l with
  | nil =>
    intro slot fuel hc hf _ _ _ hsd
    obtain ⟨f, rfl⟩ : ∃ f, fuel = f + 1 := ⟨fuel - 1, by simp at hf; omega⟩
    have hn : m.load slot = none := hc
    refine ⟨slot, insert_walk_stop f m d slot (Or.inl hn), ?_, ?_⟩
    · refine ⟨load_link_at_slot m d slot, ?_⟩
      show (Heap.link_at m d slot).next_free d = none
      rw [load_link_at_self m d slot hsd, hn]
    · intro s' h1 _ h3
      exact load_link_at_other m d slot s' h1 h3
  | cons b t ih =>
    intro slot fuel hc hf hnd hd hslot hsd
    obtain ⟨f, rfl⟩ : ∃ f, fuel = f + 1 := ⟨fuel - 1, by simp at hf; omega⟩
    obtain ⟨hbt, hndt⟩ := List.nodup_cons.mp hnd
    have hdb : d ≠ b := fun e => hd (e ▸ List.mem_cons_self _ _)
    have hdt : d ∉ t := fun h => hd (List.mem_cons_of_mem _ h)
    have hload : m.load slot = some b := hc.1
    by_cases hgt : d > b
    · have hlink : ∀ x ∈ t, Slot.link b ≠ Slot.link x := by
        intro x hx e2
        exact hbt ((Slot.link.inj e2) ▸ hx)
      have hbd : Slot.link b ≠ Slot.link d := fun e => hdb (Slot.link.inj e).symm
      obtain ⟨sl, hw, hch, hframe⟩ :=
        ih (.link b) f hc.2 (by simp at hf; omega) hndt hdt hlink hbd
      refine ⟨sl, ?_, ?_, ?_⟩
      · rw [insert_walk_step f m d b slot hload hgt]; exact hw
      · have hs : (Heap.link_at m d sl).load slot = m.load slot :=
          hframe slot (hslot b (List.mem_cons_self _ _))
            (fun x hx => hslot x (List.mem_cons_of_mem _ hx)) hsd
        have e : insert_sorted d (b :: t) = b :: insert_sorted d t := by
          simp [insert_sorted, hgt]
        rw [e]
        exact ⟨by rw [hs]; exact hload, hch⟩
      · intro s' h1 h2 h3
        exact hframe s' (h2 b (List.mem_cons_self _ _))
          (fun x hx => h2 x (List.mem_cons_of_mem _ hx)) h3
    · refine ⟨slot, insert_walk_stop f m d slot (Or.inr ⟨b, hload, hgt⟩), ?_, ?_⟩
      · have e : insert_sorted d (b :: t) = d :: b :: t := by
          simp [insert_sorted, hgt]
        rw [e]
        have hkeep : ∀ x ∈ b :: t,
            (Heap.link_at m d slot).next_free x = m.next_free x := by
          intro x hx
          have hxd : x ≠ d := fun e => hd (e ▸ hx)
          rw [← load_link, ← load_link]
          exact load_link_at_other m d slot _ (fun e => hslot x hx e.symm)
            (fun e => hxd (Slot.link.inj e))
        refine ⟨load_link_at_slot m d slot, ?_, ?_⟩
        · show (Heap.link_at m d slot).next_free d = some b
          rw [load_link_at_self m d slot hsd, hload]
        · rw [hkeep b (List.mem_cons_self _ _)]
          exact chain_congr m.next_free _ t
            (fun x hx => (hkeep x (List.mem_cons_of_mem _ hx)).symm) _ hc.2
      · intro s' h1 _ h3
        exact load_link_at_other m d slot s' h1 h3

/-- Links on which a descriptor points to itself spell no list. -/
theorem chain_self_loop (next : Nat → Option Nat) (a : Nat) (h : next a = some a)
    (l : List Nat) : ¬ chain next (some a) l := by
  intro hc
  have hnd := chain_nodup next l _ hc
  cases l with
  | nil => cases hc
  | cons b t =>
    have e1 : some a = some b := hc.1
    injection e1 with e1
    subst e1
    have h2 : chain next (next a) t := hc.2
    rw [h] at h2
    cases t with
    | nil => cases h2
    | cons c t' =>
      have e2 : some a = some c := h2.1
      injection e2 with e2
      subst e2
      exact (List.nodup_cons.mp hnd).1 (List.mem_cons_self _ _)

theorem alloc_pages_I1 (beyond : Option Nat) (s : FreeAreas) (k : Nat) (s' : FreeAreas)
    (r : Option Nat) (h1 : I1 s) (h : alloc_pages beyond s k = .ok (s', r)) : I1 s' := by
  cases r with
  | none => rw [alloc_pages_none beyond s k s' h]; exact h1
  | some d =>
    obtain ⟨_, _, s1, _, rfl, hI, _⟩ := alloc_pages_some beyond s k s' d h
    exact I1_erase s1 k d (hI h1)

theorem free_pages_I1 (s : FreeAreas) (d k : Nat) (s' : FreeAreas) (h1 : I1 s)
    (hfree : free_block_apart s d k) (h : free_pages s d k = .ok s') : I1 s' := by
  obtain ⟨_, hk⟩ := free_pages_ok s d k s' h
  obtain ⟨_, _, hQ, _⟩ :=
    free_pages_induct (fun s1 _ _ => I1 s1) s d k s'
      (fun s1 p o hQ hp ho hm hb => I1_merge s1 p o hQ ho hp hm hb)
      (I1_insert s k d h1 hk hfree) h
  exact hQ

/-- I1 holds all along a sequence of allowed calls. -/
theorem run_ops_I1 :
    ∀ (ops : List Op) (s s' : FreeAreas), I1 s → ops_valid s ops = true →
      run_ops s ops = .ok s' → I1 s' := by
  intro ops
  induction ops with
  | nil =>
    intro s s' h1 _ h
    simp only [run_ops, Except.ok.injEq] at h
    subst h; exact h1
  | cons op ops ih =>
    intro s s' hI hv h
    simp only [run_ops, bind, Except.bind] at h
    simp only [ops_valid, Bool.and_eq_true] at hv
    cases h1 : run_op s op with
    | error e => rw [h1] at h; simp at h
    | ok s1 =>
      rw [h1] at h hv
      simp only at h hv
      refine ih s1 s' ?_ hv.2 h
      cases op with
      | alloc beyond order =>
        simp only [run_op, bind, Except.bind] at h1
        cases h2 : alloc_pages beyond s order with
        | error e => rw [h2] at h1; simp at h1
        | ok r =>
          obtain ⟨sa, ra⟩ := r
          rw [h2] at h1
          simp only [Except.ok.injEq] at h1
          subst h1
          exact alloc_pages_I1 beyond s order sa ra hI h2
      | free d k =>
        simp only [run_op] at h1
        have hf : free_block_apart s d k := by
          have := hv.1
          simpa [op_valid] using this
        exact free_pages_I1 s d k s1 hI hf h1

theorem reserve_page_I1 (s : FreeAreas) (p : Nat) (s' : FreeAreas) (r : Bool) (h1 : I1 s)
    (h : reserve_page s p = .ok (s', r)) : I1 s' := by
  rcases reserve_page_cases s p with ⟨he, _⟩ | ⟨s1, he, _, hI, _, _⟩
  · rw [he] at h
    simp only [Except.ok.injEq, Prod.mk.injEq] at h
    rw [← h.1]; exact h1
  · rw [he] at h
    simp only [Except.ok.injEq, Prod.mk.injEq] at h
    rw [← h.1]; exact I1_erase s1 0 p (hI h1)

theorem I4_empty : I4 empty_areas := by
  intro k _
  exact List.sorted_nil

theorem packing_top_eq (base n : Nat) :
    packing base n (MAX_ORDER - 1) =
      (List.range (n / 2 ^ (MAX_ORDER - 1))).map (fun i => base + i * 2 ^ (MAX_ORDER - 1)) := by
  simp [packing]

theorem packing_above (base n k : Nat) (hk : MAX_ORDER ≤ k) : packing base n k = [] := by
  have h1 : k ≠ MAX_ORDER - 1 := by
    have : MAX_ORDER - 1 + 1 = MAX_ORDER := rfl
    omega
  have h2 : ¬ k < MAX_ORDER - 1 := by omega
  simp [packing, h1, h2]

/-- A frame offset below the count and not below the part packed at the orders
from `m` up lies in the part packed at one order below `m`. -/
theorem packing_find (n x : Nat) (hx : x < n) :
    ∀ m, n / 2 ^ m * 2 ^ m ≤ x →
      ∃ k < m, n / 2 ^ (k + 1) * 2 ^ (k + 1) ≤ x ∧ x < n / 2 ^ k * 2 ^ k := by
  intro m
  induction m with
  | zero =>
    intro h
    simp at h
    omega
  | succ m ih =>
    intro h
    by_cases hlt : x < n / 2 ^ m * 2 ^ m
    · exact ⟨m, Nat.lt_succ_self m, h, hlt⟩
    · obtain ⟨k, hk, h1, h2⟩ := ih (by omega)
      exact ⟨k, Nat.lt_succ_of_lt hk, h1, h2⟩

/-- The blocks of the greedy packing cover exactly the frames from `base` to
`base + n - 1`. -/
theorem packing_covered (base n f : Nat) :
    covered (packing base n) f ↔ base ≤ f ∧ f < base + n := by
  have h14 : MAX_ORDER - 1 = 14 := rfl
  constructor
  · rintro ⟨i, hi, b, hb, hbf, hfb⟩
    by_cases htop : i = MAX_ORDER - 1
    · subst htop
      rw [packing_top_eq] at hb
      obtain ⟨j, hj, rfl⟩ := List.mem_map.mp hb
      rw [List.mem_range] at hj
      rw [h14] at hj hfb hbf
      have h1 : (j + 1) * 2 ^ 14 ≤ n / 2 ^ 14 * 2 ^ 14 := Nat.mul_le_mul_right _ hj
      have h2 : n / 2 ^ 14 * 2 ^ 14 ≤ n := Nat.div_mul_le_self n _
      constructor
      · omega
      · have : (j + 1) * 2 ^ 14 = j * 2 ^ 14 + 2 ^ 14 := by ring
        omega
    · have hlow : i < MAX_ORDER - 1 := by
        have : MAX_ORDER - 1 + 1 = MAX_ORDER := rfl
        omega
      rw [packing_low base n i hlow] at hb
      by_cases hbit : n / 2 ^ i % 2 = 1
      · rw [if_pos hbit, List.mem_singleton] at hb
        subst hb
        have hs := head_step n i
        rw [hbit, Nat.one_mul] at hs
        have h2 : n / 2 ^ i * 2 ^ i ≤ n := Nat.div_mul_le_self n _
        constructor <;> omega
      · rw [if_neg hbit] at hb
        cases hb
  · rintro ⟨hbf, hfn⟩
    by_cases htop : f - base < n / 2 ^ 14 * 2 ^ 14
    · refine ⟨MAX_ORDER - 1, by decide, base + (f - base) / 2 ^ 14 * 2 ^ 14, ?_, ?_, ?_⟩
      · rw [packing_top_eq, h14]
        refine List.mem_map.mpr ⟨(f - base) / 2 ^ 14, ?_, rfl⟩
        rw [List.mem_range]
        exact Nat.div_lt_of_lt_mul (by rw [Nat.mul_comm]; exact htop)
      · have := Nat.div_mul_le_self (f - base) (2 ^ 14)
        omega
      · rw [h14]
        have := Nat.lt_div_mul_add (a := f - base) (b := 2 ^ 14) (by norm_num)
        omega
    · obtain ⟨k, hk, h1, h2⟩ := packing_find n (f - base) (by omega) 14 (by omega)
      have hs := head_step n k
      have hbit : n / 2 ^ k % 2 = 1 := by
        rcases Nat.mod_two_eq_zero_or_one (n / 2 ^ k) with h0 | h1'
        · rw [h0, Nat.zero_mul, Nat.add_zero] at hs
          omega
        · exact h1'
      rw [hbit, Nat.one_mul] at hs
      have hlow : k < MAX_ORDER - 1 := by rw [h14]; exact hk
      refine ⟨k, by unfold MAX_ORDER; omega, base + n / 2 ^ (k + 1) * 2 ^ (k + 1), ?_, ?_, ?_⟩
      · rw [packing_low base n k hlow, if_pos hbit]
        exact List.mem_singleton.mpr rfl
      · omega
      · omega

/-- C5 as stated fails when a following `free_pages` frees a block that is free
already.  The table holds the one order-3 block at frame 8 and satisfies I1-I4;
`reserve_page(13)` returns true.  `free_pages(10, 1)` and `free_pages(10, 0)`
are calls on blocks that do not contain frame 13, but frames 10 and 11 are free
(inside the order-2 block at frame 8): the second call rewrites the `next_free`
field of descriptor 10, through which the order-1 list runs, so that this list
becomes 10, 12.  Every assertion passes, the next `alloc_pages(1)` returns 10
and the one after it returns 12, the block of frames 12 and 13. -/
theorem reserve_page_double_free_counterexample :
    (I1 (areas_of [[], [], [], [8]]) ∧ I2 (areas_of [[], [], [], [8]]) ∧
      I3 (areas_of [[], [], [], [8]]) ∧ I4 (areas_of [[], [], [], [8]])) ∧
    (∀ i < MAX_ORDER,
      chain (Heap.empty.store (.area 3) (some 8)).next_free
        ((Heap.empty.store (.area 3) (some 8)).free_areas i)
        (areas_of [[], [], [], [8]] i)) ∧
    ∃ m1 m2 m3 m4 m5,
      Heap.reserve_page 20 (Heap.empty.store (.area 3) (some 8)) 13 = .ok (m1, true) ∧
      ¬ (10 ≤ 13 ∧ 13 < 10 + 2 ^ 1) ∧ Heap.free_pages 20 m1 10 1 = .ok m2 ∧
      ¬ (10 ≤ 13 ∧ 13 < 10 + 2 ^ 0) ∧ Heap.free_pages 20 m2 10 0 = .ok m3 ∧
      Heap.list_of m3 4 (m3.free_areas 1) = [10, 12] ∧
      Heap.alloc_pages 20 none m3 1 = .ok (m4, some 10) ∧
      Heap.alloc_pages 20 none m4 1 = .ok (m5, some 12) ∧
      (12 ≤ 13 ∧ 13 < 12 + 2 ^ 1) :=
  ⟨by decide, by decide, _, _, _, _, _, rfl, by decide, rfl, by decide, rfl, rfl, rfl, rfl,
    by decide⟩

/-- C5, amended: reservation exclusivity.  From a table satisfying I1-I4, once
`reserve_page(p)` has returned true, and after any sequence of returning
`alloc_pages` calls and `free_pages` calls for blocks that do not contain `p`
and overlap no block that is free when they are freed (the empty sequence
included), `is_free(p, 0)` is false, no block of any free list contains frame
`p`, no `alloc_pages` call returns a block that contains `p`, and no two free
blocks overlap. -/
theorem reserve_page_exclusive (s : FreeAreas) (p : Nat) (s0 : FreeAreas)
    (h1 : I1 s) (_h2 : I2 s) (_h3 : I3 s) (_h4 : I4 s)
    (h : reserve_page s p = .ok (s0, true)) :
    ∀ (ops : List Op) (s' : FreeAreas),
      (∀ d k, Op.free d k ∈ ops → ¬ (d ≤ p ∧ p < d + 2 ^ k)) →
      ops_valid s0 ops = true →
      run_ops s0 ops = .ok s' →
      is_free s' p 0 = .ok false ∧
      (∀ i < MAX_ORDER, ∀ b ∈ s' i, ¬ (b ≤ p ∧ p < b + 2 ^ i)) ∧
      (∀ beyond k s'' d, alloc_pages beyond s' k = .ok (s'', some d) →
        ¬ (d ≤ p ∧ p < d + 2 ^ k)) ∧
      I1 s' := by
  intro ops s' hops hvalid hrun
  have hc : ¬ covered s' p :=
    run_ops_uncovered p ops s0 s' (reserve_page_uncovered s p s0 h1 h) hops hrun
  refine ⟨?_, fun i hi b hb hr => hc ⟨i, hi, b, hb, hr⟩, ?_,
    run_ops_I1 ops s0 s' (reserve_page_I1 s p s0 true h1 h) hvalid hrun⟩
  · rw [is_free_eq s' p 0 (Nat.mod_one p) (by decide)]
    have : p ∉ s' 0 := fun hm => hc ⟨0, by decide, p, hm, le_refl _, by simp⟩
    simp [this]
  · intro beyond k s'' d ha hr
    exact hc (alloc_pages_was_covered beyond s' k s'' d ha p hr)

/-- The amended C5 at a concrete table: frame 13 is reserved out of the order-3
block at frame 8; then a page is allocated, freed again, and an order-1 block is
allocated. -/
theorem reserve_page_exclusive_witness :
    ∃ s0 s', reserve_page (areas_of [[], [], [], [8]]) 13 = .ok (s0, true) ∧
      ops_valid s0 [Op.alloc none 0, Op.free 12 0, Op.alloc none 1] = true ∧
      run_ops s0 [Op.alloc none 0, Op.free 12 0, Op.alloc none 1] = .ok s' ∧
      (is_free s' 13 0 = .ok false ∧
      (∀ i < MAX_ORDER, ∀ b ∈ s' i, ¬ (b ≤ 13 ∧ 13 < b + 2 ^ i)) ∧
      (∀ beyond k s'' d, alloc_pages beyond s' k = .ok (s'', some d) →
        ¬ (d ≤ 13 ∧ 13 < d + 2 ^ k)) ∧
      I1 s') :=
  ⟨_, _, rfl, by decide, rfl, reserve_page_exclusive (areas_of [[], [], [], [8]]) 13 _
    (by decide) (by decide) (by decide) (by decide) rfl
    [Op.alloc none 0, Op.free 12 0, Op.alloc none 1] _
    (by
      intro d k hm
      simp only [List.mem_cons, Op.free.injEq, List.mem_singleton, reduceCtorEq,
        false_or, or_false, List.not_mem_nil] at hm
      obtain ⟨rfl, rfl⟩ := hm
      decide)
    (by decide) rfl⟩

/-- C8: greedy packing by `init`.  For every count `n` with `0 < n < 2^45`
(every count of frames a machine can have: below `2^45` no quotient exceeds an
`int`) and every base, `init` on the empty table returns true.  The order-14
list holds the `n / 2^14` blocks at `base + i * 2^14`; each order `k < 14` holds
one block iff bit `k` of `n` is set, placed right after the blocks of the higher
orders, at `base + (n / 2^(k+1)) * 2^(k+1)`; no two blocks overlap, and together
they cover exactly the frames from `base` to `base + n - 1`.  For 10 frames at
base 0 this is one order-3 block at frame 0 and one order-1 block at frame 8. -/
theorem init_greedy_packing (base n : Nat) (hn : 0 < n) (hlt : n < 2 ^ 45) :
    (∃ s, init empty_areas base n = .ok (s, true) ∧
      s (MAX_ORDER - 1) =
        (List.range (n / 2 ^ (MAX_ORDER - 1))).map
          (fun i => base + i * 2 ^ (MAX_ORDER - 1)) ∧
      (s (MAX_ORDER - 1)).length = n / 2 ^ (MAX_ORDER - 1) ∧
      (∀ k < MAX_ORDER - 1,
        s k = if n / 2 ^ k % 2 = 1 then [base + n / 2 ^ (k + 1) * 2 ^ (k + 1)] else []) ∧
      (∀ k, MAX_ORDER ≤ k → s k = []) ∧
      I1 s ∧
      ∀ f, covered s f ↔ base ≤ f ∧ f < base + n) ∧
    ∃ s10, init empty_areas 0 10 = .ok (s10, true) ∧
      (List.range MAX_ORDER).map s10 =
        [[], [8], [], [0], [], [], [], [], [], [], [], [], [], [], []] := by
  refine ⟨⟨packing base n, init_packing base n hn hlt, packing_top_eq base n, ?_,
    fun k hk => packing_low base n k hk, fun k hk => packing_above base n k hk, ?_,
    fun f => packing_covered base n f⟩, _, rfl, rfl⟩
  · rw [packing_top_eq]; simp
  · obtain ⟨s', he, hI⟩ := init_I1 base n hn
    have e : s' = packing base n :=
      congrArg Prod.fst (Except.ok.inj (he.symm.trans (init_packing base n hn hlt)))
    rw [← e]; exact hI

/-- C8 at 100000 frames starting at frame 32768: six order-14 blocks and one
block at each of the orders 5, 7, 9 and 10. -/
theorem init_greedy_packing_witness :
    ∃ s, init empty_areas 32768 100000 = .ok (s, true) ∧
      s 14 = [32768, 49152, 65536, 81920, 98304, 114688] ∧
      s 10 = [131072] ∧ s 9 = [132096] ∧ s 7 = [132608] ∧ s 5 = [132736] ∧
      (∀ k < MAX_ORDER, k ≠ 14 → k ≠ 10 → k ≠ 9 → k ≠ 7 → k ≠ 5 → s k = []) ∧
      ∀ f, covered s f ↔ 32768 ≤ f ∧ f < 32768 + 100000 := by
  obtain ⟨⟨s, he, htop, _, hlow, _, _, hcov⟩, _⟩ :=
    init_greedy_packing 32768 100000 (by decide) (by norm_num)
  refine ⟨s, he, ?_, ?_, ?_, ?_, ?_, ?_, hcov⟩
  · show s (MAX_ORDER - 1) = _
    rw [htop]; decide
  · rw [hlow 10 (by decide)]; decide
  · rw [hlow 9 (by decide)]; decide
  · rw [hlow 7 (by decide)]; decide
  · rw [hlow 5 (by decide)]; decide
  · intro k hk h14 h10 h9 h7 h5
    have hk' : k < MAX_ORDER - 1 := by
      have : MAX_ORDER - 1 + 1 = MAX_ORDER := rfl
      have : MAX_ORDER - 1 = 14 := rfl
      omega
    rw [hlow k hk']
    have : k < 14 := hk'
    interval_cases k <;> first | decide | (exfalso; omega)

/-- C11: after `init` with exactly `2^14` frames at frame 0, the first
`alloc_pages(14)` returns frame 0.  The second finds the top list empty, steps
to index `MAX_ORDER` and reads the word after the table: with that word not
null it fails an assertion of `split_block` instead of returning NULL; it
returns NULL only when the word is null. -/
theorem boundary_second_alloc_fault :
    ∃ s0 s1, init empty_areas 0 16384 = .ok (s0, true) ∧
      alloc_pages (some 1) s0 14 = .ok (s1, some 0) ∧
      (∀ i < MAX_ORDER, s1 i = []) ∧
      alloc_pages (some 1) s1 14 = .error .assertion ∧
      alloc_pages none s1 14 = .ok (s1, none) :=
  ⟨_, _, rfl, rfl, by decide, rfl, rfl⟩

theorem xor_one_even (b : Nat) (hb : b % 2 = 0) : b ^^^ 2 ^ 0 = b + 1 := by
  rw [xor_two_pow_eq b 0 (Nat.mod_one b)]
  simp [hb]

theorem xor_one_odd (b : Nat) (hb : b % 2 = 0) : (b + 1) ^^^ 2 ^ 0 = b := by
  rw [xor_two_pow_eq (b + 1) 0 (Nat.mod_one _)]
  have : ¬ (b + 1) % 2 ^ (0 + 1) = 0 := by
    simp only [zero_add, pow_one]; omega
  rw [if_neg this]
  simp

/-- C12: coalescing scenario.  After `init` with 2 frames at an even base `b`,
two `alloc_pages(0)` calls return `b` and `b + 1`; after `free_pages(b, 0)` the
order-0 list is `[b]` and the order-1 list is empty; after the following
`free_pages(b + 1, 0)` the order-0 list is empty and the order-1 list is
`[b]`. -/
theorem coalescing_scenario (b : Nat) (hb : b % 2 = 0) (beyond1 beyond2 : Option Nat) :
    ∃ s0 s1 s2 s3 s4, init empty_areas b 2 = .ok (s0, true) ∧
      alloc_pages beyond1 s0 0 = .ok (s1, some b) ∧
      alloc_pages beyond2 s1 0 = .ok (s2, some (b + 1)) ∧
      free_pages s2 b 0 = .ok s3 ∧ s3 0 = [b] ∧ s3 1 = [] ∧
      free_pages s3 (b + 1) 0 = .ok s4 ∧ s4 0 = [] ∧ s4 1 = [b] := by
  obtain ⟨hp0, hp1, _⟩ := packing_two b
  have hb1 : b % 2 ^ 1 = 0 := by simpa using hb
  have h01 : (0 : Nat) ≠ 1 := by decide
  have h10 : (1 : Nat) ≠ 0 := by decide
  -- the tables of the scenario
  have e1_0 : alloc_state (packing b 2) 0 1 b 0 = [b + 1] := by
    rw [alloc_state_mid _ 0 1 b 0 (le_refl _) (by decide), hp0]; rfl
  have e1_1 : alloc_state (packing b 2) 0 1 b 1 = [] := by
    rw [alloc_state_top, hp1]; simp
  have e2_0 : alloc_state (alloc_state (packing b 2) 0 1 b) 0 0 (b + 1) 0 = [] := by
    rw [alloc_state_top, e1_0]; simp
  have e2_1 : alloc_state (alloc_state (packing b 2) 0 1 b) 0 0 (b + 1) 1 = [] := by
    rw [alloc_state_out _ 0 0 (b + 1) 1 (le_refl _) (by omega), e1_1]
  refine ⟨packing b 2, alloc_state (packing b 2) 0 1 b,
    alloc_state (alloc_state (packing b 2) 0 1 b) 0 0 (b + 1),
    set_area (alloc_state (alloc_state (packing b 2) 0 1 b) 0 0 (b + 1)) 0 [b],
    merge_state (set_area
      (set_area (alloc_state (alloc_state (packing b 2) 0 1 b) 0 0 (b + 1)) 0 [b]) 0
      (insert_sorted (b + 1)
        (set_area (alloc_state (alloc_state (packing b 2) 0 1 b) 0 0 (b + 1)) 0 [b] 0)))
      (b + 1) 0,
    init_packing b 2 (by norm_num) (by norm_num), ?_, ?_, ?_, ?_, ?_, ?_, ?_, ?_⟩
  · exact alloc_pages_found beyond1 _ 0 1 b (by decide) (by decide)
      (fun i _ h2 => by
        have : i = 0 := by omega
        rw [this]; exact hp0)
      (by rw [hp1]; rfl) hb1
  · exact alloc_pages_found beyond2 _ 0 0 (b + 1) (le_refl _) (by decide)
      (fun i h1 h2 => absurd h2 (by omega)) (by rw [e1_0]; rfl) (Nat.mod_one _)
  · rw [free_pages_no_merge _ b 0 (Nat.mod_one b) (by decide) (by rw [e2_0]; simp), e2_0]
    rfl
  · rw [set_area_same]
  · rw [set_area_other _ _ _ _ h10, e2_1]
  · exact free_pages_one_merge _ (b + 1) 0 (Nat.mod_one _) (by decide)
      (by rw [set_area_same, xor_one_odd b hb]; simp)
      (by rw [set_area_other _ _ _ _ h10, e2_1]; simp)
  · have hne : (0 : Nat) ≠ 0 + 1 := by decide
    simp only [merge_state, set_area_other _ _ _ _ hne, set_area_same, xor_one_odd b hb,
      insert_sorted]
    simp
  · simp only [merge_state, set_area_same, merged_head, xor_one_odd b hb, zero_add,
      set_area_other _ _ _ _ h10, e2_1, insert_sorted]
    have : ¬ (b + 1) % 2 ^ 1 = 0 := by simp only [pow_one]; omega
    rw [if_neg this]

/-- C12 at base frame 6. -/
theorem coalescing_scenario_witness :
    ∃ s0 s1 s2 s3 s4, init empty_areas 6 2 = .ok (s0, true) ∧
      alloc_pages none s0 0 = .ok (s1, some 6) ∧
      alloc_pages none s1 0 = .ok (s2, some (6 + 1)) ∧
      free_pages s2 6 0 = .ok s3 ∧ s3 0 = [6] ∧ s3 1 = [] ∧
      free_pages s3 (6 + 1) 0 = .ok s4 ∧ s4 0 = [] ∧ s4 1 = [6] :=
  coalescing_scenario 6 (by decide) none none

/-- C13: reserve/free round trip.  From a table satisfying I1-I4 (I3 for the
orders below `MAX_ORDER - 1`), when `reserve_page(p)` returns true, a following
`free_pages(p, 0)` returns, and the table it leaves is the table from before
the reserve, every list equal element for element. -/
theorem reserve_free_round_trip (s : FreeAreas) (p : Nat) (s1 : FreeAreas)
    (h1 : I1 s) (_h2 : I2 s) (h3 : I3 s) (h4 : I4 s)
    (hr : reserve_page s p = .ok (s1, true)) :
    free_pages s1 p 0 = .ok s := by
  rcases reserve_page_cases s p with ⟨he, _⟩ | ⟨_, _, _, _, _, o, ho, hmo⟩
  · have e := congrArg Prod.snd (Except.ok.inj (he.symm.trans hr))
    cases e
  · have hhigh : ∀ i, o < i → i < MAX_ORDER → p / 2 ^ i * 2 ^ i ∉ s i := by
      intro i hlt hi hc
      have := cover_unique s p o i h1 ho hi hmo hc
      omega
    have hres := reserve_page_found s p o ho hmo hhigh
    have e : s1 = carve s 0 o (fun i => p / 2 ^ i * 2 ^ i) :=
      congrArg Prod.fst (Except.ok.inj (hr.symm.trans hres))
    have hu : free_pages (carve s 0 o (fun i => p / 2 ^ i * 2 ^ i)) (p / 2 ^ 0 * 2 ^ 0) 0
        = .ok s :=
      free_pages_unwind s 0 o (fun i => p / 2 ^ i * 2 ^ i) (Nat.zero_le _) ho (by decide)
        (fun i _ _ => head_aligned p i)
        (fun i _ _ => merged_head_eq_head p _ i rfl)
        (insert_erase_sorted _ _ (h4 o ho) hmo)
        (fun ho1 => h3 o (by have : MAX_ORDER - 1 + 1 = MAX_ORDER := rfl; omega) _ hmo)
    rw [head_zero] at hu
    rw [e]
    exact hu

/-- C13 at a concrete table: frame 13 is reserved out of the order-3 block at
frame 8 and freed again. -/
theorem reserve_free_round_trip_witness :
    ∃ s1, reserve_page (areas_of [[1], [2], [], [8]]) 13 = .ok (s1, true) ∧
      free_pages s1 13 0 = .ok (areas_of [[1], [2], [], [8]]) :=
  ⟨_, rfl, reserve_free_round_trip (areas_of [[1], [2], [], [8]]) 13 _
    (by decide) (by decide) (by decide) (by decide) rfl⟩

/-- C14 as stated fails for a descriptor that is already linked.  The order-0
links spell the ascending list 1, 5, 9; `insert_block(5, 0)` stops at the slot
that points to 5 and stores 5 into the `next_free` field of 5 itself: afterwards
the links run 1, 5, 5, 5, ... and spell no list at all, and 9 is no longer
reachable. -/
theorem insert_block_relinked_counterexample :
    chain (((Heap.empty.store (.area 0) (some 1)).store (.link 1) (some 5)).store
        (.link 5) (some 9)).next_free
      ((((Heap.empty.store (.area 0) (some 1)).store (.link 1) (some 5)).store
        (.link 5) (some 9)).free_areas 0) [1, 5, 9] ∧
    [1, 5, 9].Sorted (· ≤ ·) ∧
    ∃ m1, Heap.insert_block 4
        (((Heap.empty.store (.area 0) (some 1)).store (.link 1) (some 5)).store
          (.link 5) (some 9)) 5 0 = .ok m1 ∧
      m1.next_free 5 = some 5 ∧
      Heap.list_of m1 6 (m1.free_areas 0) = [1, 5, 5, 5, 5, 5] ∧
      ∀ l, ¬ chain m1.next_free (m1.free_areas 0) l := by
  refine ⟨by decide, by decide, _, rfl, rfl, rfl, ?_⟩
  intro l hc
  cases l with
  | nil => exact absurd hc (by decide)
  | cons b t =>
    have e : some 1 = some b := hc.1
    injection e with e
    subst e
    exact chain_self_loop
      (Heap.link_at
        (((Heap.empty.store (.area 0) (some 1)).store (.link 1) (some 5)).store
          (.link 5) (some 9)) 5 (.link 1)).next_free 5 rfl t hc.2

/-- C14, amended: I4 is an invariant where no descriptor is linked twice.
`insert_block(d, k)` for a valid order `k`, on links that spell an ascending
order-`k` list `l` with `d` not in it, returns; the order-`k` links then spell
the ordered insertion of `d` into `l`, which is ascending and holds exactly `d`
and the elements of `l`; the head word of every other order is unchanged, and
so is every list of another order that holds neither `d` nor a frame of `l`; the
list-level `insert_block` gives the same list.  `init` on the empty table
returns a table with every list ascending; and from a table satisfying I1, I2
and I4, every list is ascending again after a returning `alloc_pages`,
`reserve_page`, or `free_pages` of an aligned block that overlaps no free
block. -/
theorem I4_invariant :
    (∀ (m : Heap) (d k fuel : Nat) (l : List Nat), k < MAX_ORDER →
      chain m.next_free (m.free_areas k) l → l.Sorted (· ≤ ·) → d ∉ l →
      l.length < fuel →
      ∃ m', Heap.insert_block fuel m d k = .ok m' ∧
        chain m'.next_free (m'.free_areas k) (insert_sorted d l) ∧
        (insert_sorted d l).Sorted (· ≤ ·) ∧ (insert_sorted d l).Perm (d :: l) ∧
        (∀ i, i ≠ k → m'.free_areas i = m.free_areas i) ∧
        (∀ i t, i ≠ k → d ∉ t → (∀ x ∈ t, x ∉ l) →
          chain m.next_free (m.free_areas i) t →
          chain m'.next_free (m'.free_areas i) t) ∧
        (∀ s : FreeAreas, s k = l →
          insert_block s d k = .ok (set_area s k (insert_sorted d l)))) ∧
    (∀ base n, 0 < n → ∃ s', init empty_areas base n = .ok (s', true) ∧ I4 s') ∧
    (∀ s : FreeAreas, I1 s → I2 s → I4 s →
      (∀ beyond k s' r, alloc_pages beyond s k = .ok (s', r) → I4 s') ∧
      (∀ p s' r, reserve_page s p = .ok (s', r) → I4 s') ∧
      (∀ d k s', d % 2 ^ k = 0 →
        (∀ i < MAX_ORDER, ∀ b ∈ s i, b + 2 ^ i ≤ d ∨ d + 2 ^ k ≤ b) →
        free_pages s d k = .ok s' → I4 s')) := by
  refine ⟨?_, ?_, fun s _ _ h4 => ⟨?_, ?_, ?_⟩⟩
  · intro m d k fuel l hk hl hs hd hf
    have hr : order_in_range k = true := (order_in_range_iff k).mpr hk
    obtain ⟨sl, hw, hch, hframe⟩ :=
      insert_walk_spec m d l (.area k) fuel hl hf (chain_nodup _ l _ hl) hd
        (fun _ _ e => by cases e) (fun e => by cases e)
    have hareas : ∀ i, i ≠ k →
        (Heap.link_at m d sl).free_areas i = m.free_areas i := fun i hi =>
      hframe (.area i) (fun e => hi (Slot.area.inj e)) (fun _ _ e => by cases e)
        (fun e => by cases e)
    refine ⟨Heap.link_at m d sl, by simp [Heap.insert_block, hr, hw], hch,
      insert_sorted_sorted d l hs, insert_sorted_perm d l, hareas, ?_, ?_⟩
    · intro i t hi hdt hdis hc
      rw [hareas i hi]
      refine chain_congr m.next_free _ t ?_ _ hc
      intro x hx
      exact (hframe (.link x) (fun e => by cases e)
        (fun y hy e => hdis x hx ((Slot.link.inj e) ▸ hy))
        (fun e => hdt ((Slot.link.inj e) ▸ hx))).symm
    · intro s hsk
      rw [insert_block_eq s d k hk, hsk]
  · intro base n hn
    obtain ⟨s', _, he, hI⟩ :=
      init_loop_induct (fun s _ => I4 s)
        (fun order ho s c hs => I4_insert s order c ho hs)
        (MAX_ORDER - 1) empty_areas base n (by decide) I4_empty
    exact ⟨s', init_eq _ _ _ hn s' he, hI⟩
  · intro beyond k s' r h
    exact alloc_pages_induct I4
      (fun s j h hs hj _ _ => I4_split s j h hj hs)
      (fun s k d hs hk _ => I4_erase s k d hk hs) beyond s k s' r h h4
  · intro p s' r h
    exact reserve_page_induct I4
      (fun s j h hs hj _ _ => I4_split s j h hj hs)
      (fun s k d hs hk _ => I4_erase s k d hk hs) s p s' r h h4
  · intro d k s' _ _ h
    obtain ⟨_, hk⟩ := free_pages_ok s d k s' h
    obtain ⟨_, _, hQ, _⟩ :=
      free_pages_induct (fun s1 _ _ => I4 s1) s d k s'
        (fun s1 p o hQ _ ho _ _ => I4_merge s1 p o ho hQ)
        (I4_insert s k d hk h4) h
    exact hQ

/-- The amended C14 at concrete inputs: frame 3 is inserted into the order-0
links 1, 5, 9, and each operation is run once. -/
theorem I4_invariant_witness :
    (∃ m', Heap.insert_block 4
        (((Heap.empty.store (.area 0) (some 1)).store (.link 1) (some 5)).store
          (.link 5) (some 9)) 3 0 = .ok m' ∧
      chain m'.next_free (m'.free_areas 0) [1, 3, 5, 9]) ∧
    (∃ s', init empty_areas 16 10 = .ok (s', true) ∧ I4 s') ∧
    (∃ s', alloc_pages none (areas_of [[1], [2], [], [8]]) 2 = .ok (s', some 8) ∧ I4 s') ∧
    (∃ s', reserve_page (areas_of [[1], [2], [], [8]]) 13 = .ok (s', true) ∧ I4 s') ∧
    (∃ s', free_pages (areas_of [[1], [2], [], [8]]) 0 0 = .ok s' ∧ I4 s') :=
  ⟨(I4_invariant.1
      (((Heap.empty.store (.area 0) (some 1)).store (.link 1) (some 5)).store
        (.link 5) (some 9)) 3 0 4 [1, 5, 9]
      (by decide) (by decide) (by decide) (by decide) (by decide)).imp
      (fun _ h => ⟨h.1, h.2.1⟩),
   I4_invariant.2.1 16 10 (by decide),
   ⟨_, rfl, (I4_invariant.2.2 (areas_of [[1], [2], [], [8]])
      (by decide) (by decide) (by decide)).1 none 2 _ _ rfl⟩,
   ⟨_, rfl, (I4_invariant.2.2 (areas_of [[1], [2], [], [8]])
      (by decide) (by decide) (by decide)).2.1 13 _ _ rfl⟩,
   ⟨_, rfl, (I4_invariant.2.2 (areas_of [[1], [2], [], [8]])
      (by decide) (by decide) (by decide)).2.2 0 0 _ (by decide) (by decide) rfl⟩⟩

/-- C15: `remove_block(d, k)` for a valid order `k`, on links that spell the
order-`k` list `l` (which, ending in `NULL`, has no frame twice).  The call
fails with an assertion if and only if `d` is not in `l`.  When `d` is in `l`
the call returns; the order-`k` links then spell `l` with `d` deleted, the other
frames in the order they had; the link of `d` is `NULL`; the head word of every
other order is unchanged, and so is every list of another order that shares no
frame with `l`.  The list-level `remove_block` used for the rest of the
allocator gives the same answers. -/
theorem remove_block_unlinks (m : Heap) (d k : Nat) (l : List Nat) (fuel : Nat)
    (hk : k < MAX_ORDER) (hl : chain m.next_free (m.free_areas k) l)
    (hf : l.length < fuel) :
    l.Nodup ∧
    (Heap.remove_block fuel m d k = .error .assertion ↔ d ∉ l) ∧
    (d ∈ l → ∃ m', Heap.remove_block fuel m d k = .ok m' ∧
      chain m'.next_free (m'.free_areas k) (l.erase d) ∧
      l.erase d = l.filter (fun x => x != d) ∧
      m'.next_free d = none ∧
      (∀ i, i ≠ k → m'.free_areas i = m.free_areas i) ∧
      (∀ i t, i ≠ k → (∀ x ∈ t, x ∉ l) → chain m.next_free (m.free_areas i) t →
        chain m'.next_free (m'.free_areas i) t)) ∧
    (∀ s : FreeAreas, s k = l →
      (remove_block s d k = .error .assertion ↔ d ∉ l) ∧
      (d ∈ l → remove_block s d k = .ok (set_area s k (l.erase d)))) := by
  have hnd : l.Nodup := chain_nodup _ l _ hl
  have hr : order_in_range k = true := (order_in_range_iff k).mpr hk
  have hdef : Heap.remove_block fuel m d k = Heap.unlink_from fuel m d (.area k) := by
    simp [Heap.remove_block, hr]
  have hpres : d ∈ l → ∃ m', Heap.remove_block fuel m d k = .ok m' ∧
      chain m'.next_free (m'.free_areas k) (l.erase d) ∧
      l.erase d = l.filter (fun x => x != d) ∧
      m'.next_free d = none ∧
      (∀ i, i ≠ k → m'.free_areas i = m.free_areas i) ∧
      (∀ i t, i ≠ k → (∀ x ∈ t, x ∉ l) → chain m.next_free (m.free_areas i) t →
        chain m'.next_free (m'.free_areas i) t) := by
    intro hd
    obtain ⟨m', hres, hch, hclr, hframe⟩ :=
      unlink_from_present m d l (.area k) fuel hl hf hnd hd (fun _ _ e => by cases e)
    have hareas : ∀ i, i ≠ k → m'.free_areas i = m.free_areas i := fun i hi =>
      hframe (.area i) (fun e => hi (Slot.area.inj e)) (fun _ _ e => by cases e)
    refine ⟨m', hdef.trans hres, hch, List.Nodup.erase_eq_filter hnd d, hclr, hareas, ?_⟩
    intro i t hi hdis hc
    rw [hareas i hi]
    refine chain_congr m.next_free _ t ?_ _ hc
    intro x hx
    exact (hframe (.link x) (fun e => by cases e)
      (fun y hy e => hdis x hx ((Slot.link.inj e) ▸ hy))).symm
  refine ⟨hnd, ⟨?_, ?_⟩, hpres, ?_⟩
  · intro herr hd
    obtain ⟨m', hres, _⟩ := hpres hd
    rw [hres] at herr
    cases herr
  · intro hd
    rw [hdef]
    exact unlink_from_absent m d l (.area k) fuel hl hf hd
  · intro s hs
    subst hs
    refine ⟨⟨?_, remove_block_absent s d k⟩, remove_block_eq s d k hk⟩
    intro herr hd
    rw [remove_block_eq s d k hk hd] at herr
    cases herr

/-- C15 at concrete links: the order-2 list is 4, 12, 20 and the block at frame
12 is removed. -/
theorem remove_block_unlinks_witness :
    [4, 12, 20].Nodup ∧
    (Heap.remove_block 4
        ⟨fun i => if i = 2 then some 4 else none,
          fun x => if x = 4 then some 12 else if x = 12 then some 20 else none⟩ 12 2
        = .error .assertion ↔ 12 ∉ [4, 12, 20]) ∧
    (12 ∈ [4, 12, 20] → ∃ m', Heap.remove_block 4
        ⟨fun i => if i = 2 then some 4 else none,
          fun x => if x = 4 then some 12 else if x = 12 then some 20 else none⟩ 12 2
        = .ok m' ∧
      chain m'.next_free (m'.free_areas 2) ([4, 12, 20].erase 12) ∧
      [4, 12, 20].erase 12 = [4, 12, 20].filter (fun x => x != 12) ∧
      m'.next_free 12 = none ∧
      (∀ i, i ≠ 2 → m'.free_areas i = (if i = 2 then some 4 else none)) ∧
      (∀ i t, i ≠ 2 → (∀ x ∈ t, x ∉ [4, 12, 20]) →
        chain (fun x => if x = 4 then some 12 else if x = 12 then some 20 else none)
          (if i = 2 then some 4 else none) t →
        chain m'.next_free (m'.free_areas i) t)) ∧
    (∀ s : FreeAreas, s 2 = [4, 12, 20] →
      (remove_block s 12 2 = .error .assertion ↔ 12 ∉ [4, 12, 20]) ∧
      (12 ∈ [4, 12, 20] → remove_block s 12 2 = .ok (set_area s 2 ([4, 12, 20].erase 12)))) :=
  remove_block_unlinks
    ⟨fun i => if i = 2 then some 4 else none,
      fun x => if x = 4 then some 12 else if x = 12 then some 20 else none⟩ 12 2 [4, 12, 20] 4
    (by decide) (by decide) (by decide)

/-- C16: first-fit split shape.  From a table satisfying I1-I4, with `j` the
least order from `k` on whose list is not empty and `h` the head of that list
(its lowest address), `alloc_pages(k)` returns `h`; the order-`j` list loses
exactly `h`, each order `i` with `k ≤ i < j` gets the list `[h + 2^i]`, and the
list of every other order is unchanged. -/
theorem alloc_pages_first_fit (beyond : Option Nat) (s : FreeAreas) (k j h : Nat)
    (_h1 : I1 s) (h2 : I2 s) (_h3 : I3 s) (h4 : I4 s) (_hk : k < MAX_ORDER) (hkj : k ≤ j)
    (hj : j < MAX_ORDER) (hhead : (s j).head? = some h)
    (hleast : ∀ i < j, k ≤ i → s i = []) :
    (∀ b ∈ s j, h ≤ b) ∧
    ∃ s', alloc_pages beyond s k = .ok (s', some h) ∧ s j = h :: s' j ∧
      (∀ i, k ≤ i → i < j → s' i = [h + 2 ^ i]) ∧
      ∀ i, i < k ∨ j < i → s' i = s i := by
  have hm : h ∈ s j := List.mem_of_mem_head? hhead
  obtain ⟨t, ht⟩ : ∃ t, s j = h :: t := by
    cases hs : s j with
    | nil => rw [hs] at hhead; cases hhead
    | cons a t =>
      rw [hs] at hhead
      simp only [List.head?_cons, Option.some.injEq] at hhead
      exact ⟨t, by rw [hhead]⟩
  refine ⟨?_, alloc_state s k j h,
    alloc_pages_found beyond s k j h hkj hj (fun i h1 h2 => hleast i h2 h1) hhead
      (h2 j hj h hm), ?_, ?_, ?_⟩
  · intro b hb
    have hs := h4 j hj
    rw [ht] at hs hb
    rcases List.mem_cons.mp hb with e | e
    · exact le_of_eq e.symm
    · exact List.rel_of_sorted_cons hs b e
  · rw [alloc_state_top, ht, List.erase_cons_head]
  · intro i hi1 hi2
    rw [alloc_state_mid s k j h i hi1 hi2, hleast i hi2 hi1]
    rfl
  · intro i hi
    exact alloc_state_out s k j h i hkj hi

/-- C16 at a concrete table: a request of order 0 served from the order-2 list
`[4, 12]`. -/
theorem alloc_pages_first_fit_witness :
    (∀ b ∈ areas_of [[], [], [4, 12], [16]] 2, 4 ≤ b) ∧
    ∃ s', alloc_pages none (areas_of [[], [], [4, 12], [16]]) 0 = .ok (s', some 4) ∧
      areas_of [[], [], [4, 12], [16]] 2 = 4 :: s' 2 ∧
      (∀ i, 0 ≤ i → i < 2 → s' i = [4 + 2 ^ i]) ∧
      ∀ i, i < 0 ∨ 2 < i → s' i = areas_of [[], [], [4, 12], [16]] i :=
  alloc_pages_first_fit none (areas_of [[], [], [4, 12], [16]]) 0 2 4
    (by decide) (by decide) (by decide) (by decide) (by decide) (by decide) (by decide)
    (by decide) (by decide)

/-- C17: post-state of `reserve_page`.  From a table satisfying I1-I4 in which
the order-`k` block around frame `p` is in the order-`k` list, `reserve_page(p)`
returns true; that block has left the order-`k` list, each order `i < k` has
received exactly one block, the one at frame `((p >> i) XOR 1) << i`, `p` is in
no list, the lists of the orders above `k` are unchanged, and the number of
free frames is one less. -/
theorem reserve_page_post_state (s : FreeAreas) (p k : Nat)
    (h1 : I1 s) (_h2 : I2 s) (_h3 : I3 s) (_h4 : I4 s) (hk : k < MAX_ORDER)
    (hm : p / 2 ^ k * 2 ^ k ∈ s k) :
    ∃ s', reserve_page s p = .ok (s', true) ∧
      s' k = (s k).erase (p / 2 ^ k * 2 ^ k) ∧
      (∀ i < k, s' i = insert_sorted ((p / 2 ^ i ^^^ 1) * 2 ^ i) (s i)) ∧
      (∀ i < MAX_ORDER, p ∉ s' i) ∧
      (∀ i, k < i → s' i = s i) ∧
      free_frames s' + 1 = free_frames s := by
  have hhigh : ∀ i, k < i → i < MAX_ORDER → p / 2 ^ i * 2 ^ i ∉ s i := by
    intro i hlt hi hc
    have := cover_unique s p k i h1 hk hi hm hc
    omega
  have hres := reserve_page_found s p k hk hm hhigh
  refine ⟨_, hres, carve_top _ _ _ _, ?_, ?_, ?_, ?_⟩
  · intro i hi
    rw [carve_mid s 0 k _ i (Nat.zero_le _) hi]
    show insert_sorted ((p / 2 ^ i * 2 ^ i) ^^^ 2 ^ i) (s i) = _
    rw [head_xor_eq]
  · intro i hi hc
    exact reserve_page_uncovered s p _ h1 hres ⟨i, hi, p, hc, le_refl _, by
      have := two_pow_pos' i
      omega⟩
  · intro i hi
    exact carve_out s 0 k _ i (Nat.zero_le _) (Or.inr hi)
  · obtain ⟨s1, hs, hp0, hQ⟩ :=
      reserve_split_induct (fun t => free_frames t = free_frames s)
        (fun t j h hQ hj hmem _ => (free_frames_split t j h hj hmem).trans hQ)
        p k s hk hm rfl
    obtain ⟨s1', hs', _, hc⟩ := reserve_split_carve p k s hk hm
    have e : s1 = s1' := Except.ok.inj (hs.symm.trans hs')
    rw [← e] at hc
    rw [← hc]
    have := free_frames_erase s1 0 p (by decide) hp0
    rw [pow_zero] at this
    rw [this, hQ]

/-- C17 at a concrete table: frame 13 is reserved out of the order-3 block at
frame 8. -/
theorem reserve_page_post_state_witness :
    ∃ s', reserve_page (areas_of [[1], [2], [], [8]]) 13 = .ok (s', true) ∧
      s' 3 = (areas_of [[1], [2], [], [8]] 3).erase (13 / 2 ^ 3 * 2 ^ 3) ∧
      (∀ i < 3, s' i =
        insert_sorted ((13 / 2 ^ i ^^^ 1) * 2 ^ i) (areas_of [[1], [2], [], [8]] i)) ∧
      (∀ i < MAX_ORDER, 13 ∉ s' i) ∧
      (∀ i, 3 < i → s' i = areas_of [[1], [2], [], [8]] i) ∧
      free_frames s' + 1 = free_frames (areas_of [[1], [2], [], [8]]) :=
  reserve_page_post_state (areas_of [[1], [2], [], [8]]) 13 3
    (by decide) (by decide) (by decide) (by decide) (by decide) (by decide)

/-- C18: alloc/free restores the exact state.  From a table satisfying I1-I4
(I3 for the orders below `MAX_ORDER - 1`) and for an order `k < MAX_ORDER - 1`,
when `alloc_pages(k)` returns the block `d`, a following `free_pages(d, k)`
returns, the table it leaves has every list equal to the list from before the
alloc, and the number of free frames is the one from before the alloc. -/
theorem alloc_free_exact (beyond : Option Nat) (s : FreeAreas) (k : Nat) (s1 : FreeAreas)
    (d : Nat) (_h1 : I1 s) (h2 : I2 s) (h3 : I3 s) (h4 : I4 s) (hk : k < MAX_ORDER - 1)
    (ha : alloc_pages beyond s k = .ok (s1, some d)) :
    ∃ s2, free_pages s1 d k = .ok s2 ∧ (∀ i, s2 i = s i) ∧
      free_frames s2 = free_frames s := by
  obtain ⟨j, hkj, hj, _, hhead, e⟩ := alloc_pages_inv beyond s k s1 d h2 ha
  have h15 : MAX_ORDER - 1 + 1 = MAX_ORDER := rfl
  obtain ⟨t, ht⟩ : ∃ t, s j = d :: t := by
    cases hs : s j with
    | nil => rw [hs] at hhead; cases hhead
    | cons a t =>
      rw [hs] at hhead
      injection hhead with e'
      exact ⟨t, by rw [e']⟩
  have hmem : d ∈ s j := by rw [ht]; exact List.mem_cons_self _ _
  have hal : d % 2 ^ j = 0 := h2 j hj d hmem
  have hu : free_pages (carve s k j (fun _ => d)) d k = .ok s :=
    free_pages_unwind s k j (fun _ => d) hkj hj (by omega)
      (fun i _ hi => aligned_of_le d j i hi hal)
      (fun i _ hi => by
        have : d % 2 ^ (i + 1) = 0 := aligned_of_le d j (i + 1) hi hal
        simp only [merged_head]
        rw [if_pos this])
      (insert_erase_sorted _ _ (h4 j hj) hmem)
      (fun hj1 => h3 j (by omega) d hmem)
  rw [e, alloc_state_eq_carve s k j d hkj hal]
  exact ⟨s, hu, fun _ => rfl, rfl⟩

/-- C18 at a concrete table: an order-0 request is served out of the order-2
block at frame 4 and freed again. -/
theorem alloc_free_exact_witness :
    ∃ s1, alloc_pages none (areas_of [[], [], [4, 12], [16]]) 0 = .ok (s1, some 4) ∧
      ∃ s2, free_pages s1 4 0 = .ok s2 ∧
        (∀ i, s2 i = areas_of [[], [], [4, 12], [16]] i) ∧
        free_frames s2 = free_frames (areas_of [[], [], [4, 12], [16]]) :=
  ⟨_, rfl, alloc_free_exact none (areas_of [[], [], [4, 12], [16]]) 0 _ 4
    (by decide) (by decide) (by decide) (by decide) (by decide) rfl⟩

theorem buddy_same_parent (d k : Nat) (hd : d % 2 ^ k = 0) :
    (d ^^^ 2 ^ k) / 2 ^ (k + 1) = d / 2 ^ (k + 1) := by
  have hpos := two_pow_pos' k
  have hpow : 2 ^ (k + 1) = 2 ^ k * 2 := pow_succ 2 k
  rcases buddy_cases d k hd with ⟨h0, hx, _⟩ | ⟨h0, hle, hx, _⟩
  · rw [hx]
    obtain ⟨q, rfl⟩ := Nat.dvd_of_mod_eq_zero h0
    rw [Nat.mul_div_cancel_left _ (two_pow_pos' (k + 1))]
    apply Nat.div_eq_of_lt_le
    · rw [Nat.mul_comm]; omega
    · rw [Nat.add_mul, Nat.mul_comm q, hpow]; omega
  · rw [hx]
    obtain ⟨q, rfl⟩ := Nat.dvd_of_mod_eq_zero hd
    rw [hpow, Nat.mul_mod_mul_left] at h0
    have hq : q % 2 = 1 := by
      rcases Nat.mod_two_eq_zero_or_one q with h | h
      · rw [h] at h0; simp at h0
      · exact h
    have e1 : 2 ^ k * q - 2 ^ k = 2 ^ k * 2 * (q / 2) := by
      have : q = 2 * (q / 2) + 1 := by omega
      conv_lhs => rw [this]
      rw [Nat.mul_add, Nat.mul_one, Nat.add_sub_cancel, Nat.mul_assoc]
    rw [e1, hpow, Nat.mul_div_cancel_left _ (by omega : 0 < 2 ^ k * 2),
      ← Nat.div_div_eq_div_mul, Nat.mul_div_cancel_left _ hpos]

/-- C19: for an order `k` with `k + 1 < MAX_ORDER` and a descriptor `d` aligned
for order `k`, `buddy_of(d, k)` is the descriptor at `d + 2^k` when `d` is a
multiple of `2^(k+1)` and at `d - 2^k` (with `2^k ≤ d`) otherwise, that is at
`d XOR 2^k`; it is aligned for order `k`, has the same order-`(k+1)` parent,
differs from `d`, and its own buddy is `d`. -/
theorem buddy_of_algebra (d k : Nat) (hk : k + 1 < MAX_ORDER) (hd : d % 2 ^ k = 0) :
    ∃ b, buddy_of d k = some b ∧
      b = (if d % 2 ^ (k + 1) = 0 then d + 2 ^ k else d - 2 ^ k) ∧
      (d % 2 ^ (k + 1) ≠ 0 → 2 ^ k ≤ d) ∧
      b = d ^^^ 2 ^ k ∧ b % 2 ^ k = 0 ∧ b / 2 ^ (k + 1) = d / 2 ^ (k + 1) ∧ b ≠ d ∧
      buddy_of b k = some d := by
  have hk' : k < MAX_ORDER := by omega
  refine ⟨d ^^^ 2 ^ k, buddy_of_eq d k hk' hd, xor_two_pow_eq d k hd, ?_, rfl,
    xor_aligned d k hd, buddy_same_parent d k hd, xor_ne_self d k, ?_⟩
  · intro h
    rcases buddy_cases d k hd with ⟨h0, _, _⟩ | ⟨_, hle, _, _⟩
    · exact absurd h0 h
    · exact hle
  · rw [buddy_of_eq _ k hk' (xor_aligned d k hd), Nat.xor_cancel_right]

/-- C19 at frame 12 and order 2: the buddy is frame 8. -/
theorem buddy_of_algebra_witness :
    ∃ b, buddy_of 12 2 = some b ∧
      b = (if 12 % 2 ^ (2 + 1) = 0 then 12 + 2 ^ 2 else 12 - 2 ^ 2) ∧
      (12 % 2 ^ (2 + 1) ≠ 0 → 2 ^ 2 ≤ 12) ∧
      b = 12 ^^^ 2 ^ 2 ∧ b % 2 ^ 2 = 0 ∧ b / 2 ^ (2 + 1) = 12 / 2 ^ (2 + 1) ∧ b ≠ 12 ∧
      buddy_of b 2 = some 12 :=
  buddy_of_algebra 12 2 (by decide) (by decide)

/-- C20 as stated fails: at the top order `buddy_of` returns a descriptor for an
aligned block, here frame 16384 for frame 0. -/
theorem buddy_of_top_order_counterexample :
    0 % 2 ^ (MAX_ORDER - 1) = 0 ∧ (MAX_ORDER - 1) + 1 ≥ MAX_ORDER ∧
      buddy_of 0 (MAX_ORDER - 1) = some 16384 :=
  ⟨by decide, by decide, by decide⟩

/-- C20, amended: `buddy_of(d, k)` returns no descriptor exactly when `d` is not
aligned for order `k` or `k ≥ MAX_ORDER`; at `k = MAX_ORDER - 1` an aligned `d`
gets the descriptor at `d XOR 2^k`. -/
theorem buddy_of_none_iff (d k : Nat) :
    (buddy_of d k = none ↔ (d % 2 ^ k ≠ 0 ∨ MAX_ORDER ≤ k)) ∧
    (d % 2 ^ (MAX_ORDER - 1) = 0 →
      buddy_of d (MAX_ORDER - 1) = some (d ^^^ 2 ^ (MAX_ORDER - 1))) := by
  refine ⟨?_, fun h => buddy_of_eq d _ (by decide) h⟩
  by_cases hk : MAX_ORDER ≤ k
  · simp [buddy_of, hk]
  · by_cases hd : d % 2 ^ k = 0
    · rw [buddy_of_eq d k (by omega) hd]
      simp [hd, hk]
    · have : is_correct_alignment_for_order d k = false := by
        rw [← Bool.not_eq_true, aligned_iff]; exact hd
      simp [buddy_of, hk, this, hd]

/-- The amended C20 at frame 0 and the top order. -/
theorem buddy_of_none_iff_witness :
    (buddy_of 0 (MAX_ORDER - 1) = none ↔ (0 % 2 ^ (MAX_ORDER - 1) ≠ 0 ∨
      MAX_ORDER ≤ MAX_ORDER - 1)) ∧
    buddy_of 0 (MAX_ORDER - 1) = some (0 ^^^ 2 ^ (MAX_ORDER - 1)) :=
  ⟨(buddy_of_none_iff 0 (MAX_ORDER - 1)).1, (buddy_of_none_iff 0 (MAX_ORDER - 1)).2 (by decide)⟩

/-- C21: the search of `alloc_pages` reads past the table.  After `init` with
one frame at frame 0 and one `alloc_pages(0)`, every free list is empty; the
search of the next `alloc_pages(0)` reads `_free_areas` at the indices 0 to
`MAX_ORDER`, and index `MAX_ORDER` is not an index of the table.  It does so
whether the word found there is null (the call then returns NULL) or not. -/
theorem alloc_pages_reads_past_table :
    ∃ s0 s1, init empty_areas 0 1 = .ok (s0, true) ∧
      alloc_pages none s0 0 = .ok (s1, some 0) ∧
      (∀ i < MAX_ORDER, s1 i = []) ∧
      alloc_pages none s1 0 = .ok (s1, none) ∧
      alloc_pages_reads none s1 0 = List.range (MAX_ORDER + 1) ∧
      alloc_pages_reads (some 1) s1 0 = List.range (MAX_ORDER + 1) ∧
      MAX_ORDER ∈ alloc_pages_reads none s1 0 ∧
      ¬ ∀ i ∈ alloc_pages_reads none s1 0, i < MAX_ORDER :=
  ⟨_, _, rfl, rfl, by decide, rfl, rfl, rfl, by decide, by decide⟩

end BuddyPageAllocator

namespace CMOSRTC

/-- The hours field that `read_timepoint` leaves, as a function of the hour
register and of the two mode bits of status register B. -/
theorem read_timepoint_hours (cmos : Nat → Nat) :
    (read_timepoint cmos).hours =
      (if get_register cmos 0x0B &&& 0x02 ≠ 0 then
        to_ushort
          ((((if get_register cmos 0x0B &&& 0x04 ≠ 0 then get_register cmos 0x04
              else (BCD_time_to_binary_time (read_CMOS cmos)).hours) &&& 0x7F) +
            12 * (((if get_register cmos 0x0B &&& 0x04 ≠ 0 then get_register cmos 0x04
              else (BCD_time_to_binary_time (read_CMOS cmos)).hours) &&& 0x80) >>> 7)) % 24)
      else if get_register cmos 0x0B &&& 0x04 ≠ 0 then get_register cmos 0x04
      else (BCD_time_to_binary_time (read_CMOS cmos)).hours) := by
  by_cases hb : get_register cmos 0x0B &&& 0x04 = 0 <;>
    by_cases h2 : get_register cmos 0x0B &&& 0x02 = 0 <;>
    simp [read_timepoint, hb, h2, read_CMOS]

/-- In 24-hour mode (bit `0x02` of status register B set) a valid hour, in BCD
or in binary, comes out unchanged. -/
theorem read_timepoint_24h (cmos : Nat → Nat) (h : Nat)
    (h24 : get_register cmos 0x0B &&& 0x02 ≠ 0) (hh : h < 24)
    (hraw : get_register cmos 0x04 = raw_hour (get_register cmos 0x0B) h false) :
    (read_timepoint cmos).hours = h := by
  rw [read_timepoint_hours, if_pos h24]
  by_cases hb : get_register cmos 0x0B &&& 0x04 = 0
  · have e : (BCD_time_to_binary_time (read_CMOS cmos)).hours = h := by
      simp only [BCD_time_to_binary_time, read_CMOS, hraw, raw_hour, hb]
      interval_cases h <;> rfl
    rw [if_neg (by simpa using hb), e]
    interval_cases h <;> rfl
  · have e : get_register cmos 0x04 = h := by
      rw [hraw]; simp [raw_hour, hb]
    rw [if_pos hb, e]
    interval_cases h <;> rfl

/-- In 12-hour mode (bit `0x02` of status register B clear) `read_timepoint`
converts nothing: the hours field is the hour of the 12-hour clock, with 128
added when the PM bit is set. -/
theorem read_timepoint_12h (cmos : Nat → Nat) (h : Nat) (pm : Bool)
    (h12 : get_register cmos 0x0B &&& 0x02 = 0) (h1 : 1 ≤ h) (hle : h ≤ 12)
    (hraw : get_register cmos 0x04 = raw_hour (get_register cmos 0x0B) h pm) :
    (read_timepoint cmos).hours = h + (if pm then 128 else 0) := by
  rw [read_timepoint_hours, if_neg (by simpa using h12)]
  by_cases hb : get_register cmos 0x0B &&& 0x04 = 0
  · rw [if_neg (by simpa using hb)]
    simp only [BCD_time_to_binary_time, read_CMOS, hraw, raw_hour, hb]
    interval_cases h <;> cases pm <;> rfl
  · rw [if_pos hb, hraw]
    simp [raw_hour, hb]

/-- In 12-hour mode the hours field is the 24-hour value only for 1 AM to
11 AM. -/
theorem read_timepoint_12h_iff (cmos : Nat → Nat) (h : Nat) (pm : Bool)
    (h12 : get_register cmos 0x0B &&& 0x02 = 0) (h1 : 1 ≤ h) (hle : h ≤ 12)
    (hraw : get_register cmos 0x04 = raw_hour (get_register cmos 0x0B) h pm) :
    ((read_timepoint cmos).hours = hours_24 h pm ↔ (pm = false ∧ h < 12)) ∧
    ((read_timepoint cmos).hours < 24 ↔ pm = false) := by
  rw [read_timepoint_12h cmos h pm h12 h1 hle hraw]
  cases pm
  · simp only [hours_24, Bool.false_eq_true, if_false, Nat.add_zero, true_and]
    constructor
    · constructor
      · intro e
        by_contra hc
        have : h = 12 := by omega
        subst this
        simp at e
      · intro hlt
        exact (Nat.mod_eq_of_lt hlt).symm
    · exact ⟨fun _ => trivial, fun _ => by omega⟩
  · simp only [hours_24, if_true]
    constructor
    · constructor
      · intro e
        have := Nat.mod_lt h (show 12 > 0 by decide)
        omega
      · intro hc
        exact absurd hc.1 (by decide)
    · constructor
      · intro hlt; omega
      · intro hc; exact absurd hc (by decide)

/-- C22: in 12-hour mode `read_timepoint` does not normalise the hour.  The
conversion to 24-hour format sits under `if (is_24)`, with `is_24` bit `0x02` of
status register B, so it runs in 24-hour mode only.  With a binary 12-hour
clock at 1 PM (hour register `0x81`) the hours field is 129, not 13; with a BCD
12-hour clock at 12 AM (`0x12`) it is 12, not 0, and at 11 PM (`0x91`) it is
139, not 23.  In 24-hour mode the BCD hour `0x23` comes out as 23. -/
theorem read_timepoint_12h_not_converted :
    raw_hour 0x04 1 true = 0x81 ∧ (read_timepoint (cmos_of 0x81 0x04)).hours = 129 ∧
      hours_24 1 true = 13 ∧
    raw_hour 0x00 12 false = 0x12 ∧ (read_timepoint (cmos_of 0x12 0x00)).hours = 12 ∧
      hours_24 12 false = 0 ∧
    raw_hour 0x00 11 true = 0x91 ∧ (read_timepoint (cmos_of 0x91 0x00)).hours = 139 ∧
      hours_24 11 true = 23 ∧
    raw_hour 0x02 23 false = 0x23 ∧ (read_timepoint (cmos_of 0x23 0x02)).hours = 23 := by
  decide

end CMOSRTC
